import Mathlib

/-!
Verification of saf_sync.py, a one-way directory-tree mirroring tool for the
Android Storage Access Framework (SAF).

The embedding models the two document stores (source and destination) as
finite trees of named nodes.  Provider primitives (the termux-saf-* calls)
are modelled as pure functions on a `Store` holding both trees plus a
logical clock used to stamp modification times on writes; each primitive
also reports the list of provider operations it issued, so that traces of
runs can be reasoned about.  Entries (`SAFEntry`) carry the metadata
snapshots the Python objects carry; an entry addresses a store node by its
side (source or destination root) and the path of names from that root,
which plays the role of the opaque SAF URI.  The `parent` field of the
Python entry is kept as the pair of the two fields of the parent object the
code actually consumes: its URI and its type tag.

Python exceptions are modelled by `Err`: `valueError` for the explicit
precondition checks, `typeError` for the `int > None` comparison the
file-freshness guard can perform, `attrError` for attribute access on
`None`, and `providerError` for a failing external call.  The reconciliation
loop of `sync` is driven by explicit fuel, since the Python loop's
termination is data-driven; every theorem below is stated either for all
fuel values or conditioned on the run completing, and `fuelOut` marks the
artificial cutoff.
-/

/-- SAFType from saf_sync.py lines 11-13. -/
inductive SAFType where
  | FILE
  | DIR
deriving DecidableEq

/-- A node of a document store: a file with content bytes and an optional
last-modified stamp, or a directory with a list of named children in
listing order. -/
inductive Node where
  | file (content : List Nat) (modified : Option Int)
  | dir (children : List (String × Node))

/-- Which of the two stores an entry lives in: the source root or the
destination root. -/
inductive Side where
  | s
  | d
deriving DecidableEq

/-- The locator (SAF URI analogue) of a node: the store it belongs to and
the path of child names from that store's root. -/
structure Loc where
  side : Side
  path : List String
deriving DecidableEq

/-- SAFEntry from saf_sync.py lines 16-31.  `parent` keeps the URI and type
tag of the parent entry, the only two fields of the Python parent object
that the code consumes (`parent.uri` and `parent.file_type`). -/
structure SAFEntry where
  uri : Loc
  name : String
  file_type : SAFType
  parent : Option (Loc × SAFType)
  length : Option Nat
  modified : Option Int
deriving DecidableEq

/-- Both stores plus the logical clock used to stamp file writes. -/
structure Store where
  src : Node
  dst : Node
  now : Int

/-- Errors modelling the Python exceptions that can escape `sync`. -/
inductive Err where
  | valueError (msg : String)
  | typeError
  | attrError
  | providerError
  | fuelOut
deriving DecidableEq

/-- One provider call, as recorded in a run's trace. -/
inductive Op where
  | lsOp (p : Loc)
  | readOp (p : Loc)
  | mkdirOp (parent : Loc) (name : String)
  | mkfileOp (parent : Loc) (name : String)
  | writeOp (p : Loc) (content : List Nat)
  | rmOp (p : Loc)

/-- Whether a provider operation mutates the store. -/
def Op.isMutating : Op → Bool
  | .lsOp _ => false
  | .readOp _ => false
  | .mkdirOp _ _ => true
  | .mkfileOp _ _ => true
  | .writeOp _ _ => true
  | .rmOp _ => true

/-- The side of the store an operation addresses. -/
def Op.side : Op → Side
  | .lsOp p => p.side
  | .readOp p => p.side
  | .mkdirOp p _ => p.side
  | .mkfileOp p _ => p.side
  | .writeOp p _ => p.side
  | .rmOp p => p.side

/-- The tree of the given side. -/
def Store.tree (st : Store) : Side → Node
  | .s => st.src
  | .d => st.dst

/-- Replace the tree of the given side. -/
def Store.setTree (st : Store) : Side → Node → Store
  | .s, t => { st with src := t }
  | .d, t => { st with dst := t }

/-- Advance the logical clock. -/
def Store.tick (st : Store) : Store :=
  { st with now := st.now + 1 }

/-- First binding of a name in a children list. -/
def lookupChild : List (String × Node) → String → Option Node
  | [], _ => none
  | (m, t) :: rest, n => if m = n then some t else lookupChild rest n

/-- Replace the bindings of a name, or append a fresh binding. -/
def setChild (cs : List (String × Node)) (n : String) (t : Node) :
    List (String × Node) :=
  if cs.any (fun p => p.1 = n) then
    cs.map (fun p => if p.1 = n then (p.1, t) else p)
  else cs ++ [(n, t)]

/-- Drop all bindings of a name. -/
def removeChild (cs : List (String × Node)) (n : String) :
    List (String × Node) :=
  cs.filter (fun p => ¬ p.1 = n)

/-- Replace the node bound to a name, leaving the list unchanged where the
name is absent. -/
def replaceChildNode (cs : List (String × Node)) (n : String) (t : Node) :
    List (String × Node) :=
  cs.map (fun p => if p.1 = n then (p.1, t) else p)

/-- The node a path leads to, if any. -/
def lookupPath : Node → List String → Option Node
  | t, [] => some t
  | .file _ _, _ :: _ => none
  | .dir cs, n :: p =>
    match lookupChild cs n with
    | some c => lookupPath c p
    | none => none

/-- Replace the subtree at a path; where the path does not resolve, the tree
is returned unchanged. -/
def setPath : Node → List String → Node → Node
  | _, [], m => m
  | .file c mo, _ :: _, _ => .file c mo
  | .dir cs, n :: p, m =>
    match lookupChild cs n with
    | some c => .dir (replaceChildNode cs n (setPath c p m))
    | none => .dir cs

/-- Apply a partial modification to the node at a path, failing when the
path does not resolve or the modification is not applicable there. -/
def nodeModify (t : Node) (p : List String) (f : Node → Option Node) : Option Node :=
  match p, t with
  | [], _ => f t
  | _ :: _, .file _ _ => none
  | n :: p', .dir cs =>
    match lookupChild cs n with
    | some c => (nodeModify c p' f).map (fun c' => .dir (replaceChildNode cs n c'))
    | none => none

/-- Remove the node at a (nonempty) path from its parent's children. -/
def rmAt (t : Node) : List String → Option Node
  | [] => none
  | [n] =>
    match t with
    | .dir cs => if (lookupChild cs n).isSome then some (.dir (removeChild cs n)) else none
    | .file _ _ => none
  | n :: p =>
    match t with
    | .dir cs =>
      match lookupChild cs n with
      | some c => (rmAt c p).map (fun c' => .dir (replaceChildNode cs n c'))
      | none => none
    | .file _ _ => none

/-- Insert an empty child under a directory node. -/
def insertDirChild (n : String) (c : Node) : Node → Option Node
  | .dir cs => some (.dir (setChild cs n c))
  | .file _ _ => none

/-- The type tag of a node. -/
def nodeType : Node → SAFType
  | .file _ _ => .FILE
  | .dir _ => .DIR

/-- The listing entry for a child node, as produced by ls (saf_sync.py
lines 56-68): type from the provider type tag, length and modification time
present for files only, parent set to the listed entry. -/
def entryOf (puri : Loc) (ptype : SAFType) (n : String) : Node → SAFEntry
  | .file c m => ⟨⟨puri.side, puri.path ++ [n]⟩, n, .FILE, some (puri, ptype), some c.length, m⟩
  | .dir _ => ⟨⟨puri.side, puri.path ++ [n]⟩, n, .DIR, some (puri, ptype), none, none⟩

/-- ls from saf_sync.py lines 56-68: list the children of a directory entry.
A single provider call is issued; it fails if the locator does not denote a
directory. -/
def ls (st : Store) (e : SAFEntry) : Except Err (List SAFEntry) × List Op :=
  match lookupPath (st.tree e.uri.side) e.uri.path with
  | some (.dir cs) =>
    (.ok (cs.map (fun p => entryOf e.uri e.file_type p.1 p.2)), [.lsOp e.uri])
  | _ => (.error .providerError, [.lsOp e.uri])

/-- One step of Python dict insertion: update the value of an existing key
in place, else append the binding. -/
def insertLWW (m : List (String × SAFEntry)) (k : String) (v : SAFEntry) :
    List (String × SAFEntry) :=
  if m.any (fun p => p.1 = k) then
    m.map (fun p => if p.1 = k then (p.1, v) else p)
  else m ++ [(k, v)]

/-- Build the name-to-entry dict from a listing, last-write-wins on
duplicate names (saf_sync.py lines 71-75). -/
def lsFold (l : List SAFEntry) : List (String × SAFEntry) :=
  l.foldl (fun m e => insertLWW m e.name e) []

/-- ls_map from saf_sync.py lines 71-75. -/
def ls_map (st : Store) (e : SAFEntry) :
    Except Err (List (String × SAFEntry)) × List Op :=
  match ls st e with
  | (.ok l, ops) => (.ok (lsFold l), ops)
  | (.error err, ops) => (.error err, ops)

/-- First binding of a key in a name-to-entry map. -/
def lookupKey : List (String × SAFEntry) → String → Option SAFEntry
  | [], _ => none
  | (m, e) :: rest, n => if m = n then some e else lookupKey rest n

/-- mkdir from saf_sync.py lines 78-83.  The precondition check on the
parent's type tag happens before any provider call; the provider call
creates an empty directory under the parent locator. -/
def mkdir (st : Store) (puri : Loc) (ptype : SAFType) (name : String) :
    Except Err SAFEntry × Store × List Op :=
  if ptype ≠ .DIR then
    (.error (.valueError "Trying to create a directory inside a non-directory"), st, [])
  else
    match nodeModify (st.tree puri.side) puri.path (insertDirChild name (.dir [])) with
    | some t' =>
      (.ok ⟨⟨puri.side, puri.path ++ [name]⟩, name, .DIR, some (puri, ptype), none, none⟩,
        st.setTree puri.side t', [.mkdirOp puri name])
    | none => (.error .providerError, st, [.mkdirOp puri name])

/-- saf_write from saf_sync.py lines 86-90.  Writing stamps the file's
modification time with the current clock and advances the clock. -/
def saf_write (st : Store) (e : SAFEntry) (content : List Nat) :
    Except Err Unit × Store × List Op :=
  if e.file_type ≠ .FILE then
    (.error (.valueError "Trying to write to a non-file"), st, [])
  else
    match nodeModify (st.tree e.uri.side) e.uri.path
        (fun t => match t with
          | .file _ _ => some (.file content (some st.now))
          | .dir _ => none) with
    | some t' => (.ok (), (st.setTree e.uri.side t').tick, [.writeOp e.uri content])
    | none => (.error .providerError, st, [.writeOp e.uri content])

/-- saf_read from saf_sync.py lines 93-96. -/
def saf_read (st : Store) (e : SAFEntry) : Except Err (List Nat) × List Op :=
  if e.file_type ≠ .FILE then
    (.error (.valueError "Trying to read a non-file"), [])
  else
    match lookupPath (st.tree e.uri.side) e.uri.path with
    | some (.file c _) => (.ok c, [.readOp e.uri])
    | _ => (.error .providerError, [.readOp e.uri])

/-- mkfile from saf_sync.py lines 99-107: create an empty file, then write
the content through saf_write when content is supplied. -/
def mkfile (st : Store) (puri : Loc) (ptype : SAFType) (name : String)
    (content : Option (List Nat)) : Except Err SAFEntry × Store × List Op :=
  if ptype ≠ .DIR then
    (.error (.valueError "Trying to create a file inside a non-directory"), st, [])
  else
    match nodeModify (st.tree puri.side) puri.path
        (insertDirChild name (.file [] (some st.now))) with
    | none => (.error .providerError, st, [.mkfileOp puri name])
    | some t' =>
      let st1 := (st.setTree puri.side t').tick
      let ret : SAFEntry :=
        ⟨⟨puri.side, puri.path ++ [name]⟩, name, .FILE, some (puri, ptype), none, none⟩
      match content with
      | none => (.ok ret, st1, [.mkfileOp puri name])
      | some c =>
        match saf_write st1 ret c with
        | (.ok _, st2, ops2) => (.ok ret, st2, .mkfileOp puri name :: ops2)
        | (.error err, st2, ops2) => (.error err, st2, .mkfileOp puri name :: ops2)

/-- rm from saf_sync.py lines 120-122: remove the entry (and its subtree).
Removing a store root is outside the model and reported as a provider
failure. -/
def rm (st : Store) (e : SAFEntry) : Except Err Unit × Store × List Op :=
  match rmAt (st.tree e.uri.side) e.uri.path with
  | some t' => (.ok (), st.setTree e.uri.side t', [.rmOp e.uri])
  | none => (.error .providerError, st, [.rmOp e.uri])

/-- create_dest_to_match from saf_sync.py lines 125-133. -/
def create_dest_to_match (st : Store) (source dest_parent : SAFEntry) :
    Except Err (Option (SAFEntry × SAFEntry)) × Store × List Op :=
  if source.file_type = .DIR then
    match mkdir st dest_parent.uri dest_parent.file_type source.name with
    | (.ok nd, st1, ops) => (.ok (some (source, nd)), st1, ops)
    | (.error err, st1, ops) => (.error err, st1, ops)
  else
    match saf_read st source with
    | (.error err, ops) => (.error err, st, ops)
    | (.ok c, ops) =>
      match mkfile st dest_parent.uri dest_parent.file_type source.name (some c) with
      | (.ok _, st1, ops2) => (.ok none, st1, ops ++ ops2)
      | (.error err, st1, ops2) => (.error err, st1, ops ++ ops2)

/-- The file-update policy of saf_sync.py lines 166-170: skip the transfer
when the source modification time is known, the lengths agree and the
source is strictly newer; note that comparing a known source time against
an unknown destination time raises (int > None).  Otherwise read the source
and overwrite the destination. -/
def fileUpdate (st : Store) (entry de : SAFEntry) :
    List Op × Store × Option Err :=
  match entry.modified with
  | none =>
    match saf_read st entry with
    | (.error err, ops) => (ops, st, some err)
    | (.ok c, ops) =>
      match saf_write st de c with
      | (.ok _, st1, ops2) => (ops ++ ops2, st1, none)
      | (.error err, st1, ops2) => (ops ++ ops2, st1, some err)
  | some v =>
    if entry.length = de.length then
      match de.modified with
      | none => ([], st, some .typeError)
      | some w =>
        if v > w then ([], st, none)
        else
          match saf_read st entry with
          | (.error err, ops) => (ops, st, some err)
          | (.ok c, ops) =>
            match saf_write st de c with
            | (.ok _, st1, ops2) => (ops ++ ops2, st1, none)
            | (.error err, st1, ops2) => (ops ++ ops2, st1, some err)
    else
      match saf_read st entry with
      | (.error err, ops) => (ops, st, some err)
      | (.ok c, ops) =>
        match saf_write st de c with
        | (.ok _, st1, ops2) => (ops ++ ops2, st1, none)
        | (.error err, st1, ops2) => (ops ++ ops2, st1, some err)

/-- The loop over the source listing, saf_sync.py lines 148-170.  The
destination map `dm` is the one computed before the loop and is never
updated during it.  Returns the trace, the pairs pushed in discovery
order, the resulting store and the first error. -/
def processSrc (d : SAFEntry) (dm : List (String × SAFEntry)) :
    Store → List (String × SAFEntry) →
    List Op × List (SAFEntry × SAFEntry) × Store × Option Err
  | st, [] => ([], [], st, none)
  | st, (n, entry) :: rest =>
    match lookupKey dm n with
    | none =>
      match create_dest_to_match st entry d with
      | (.error err, st1, ops) => (ops, [], st1, some err)
      | (.ok r, st1, ops) =>
        let pushes := match r with | some pr => [pr] | none => []
        match processSrc d dm st1 rest with
        | (tr2, ps2, st2, e2) => (ops ++ tr2, pushes ++ ps2, st2, e2)
    | some de =>
      if entry.file_type ≠ de.file_type then
        match rm st de with
        | (.error err, st1, ops) => (ops, [], st1, some err)
        | (.ok _, st1, ops) =>
          match create_dest_to_match st1 entry d with
          | (.error err, st2, ops2) => (ops ++ ops2, [], st2, some err)
          | (.ok r, st2, ops2) =>
            let pushes := match r with | some pr => [pr] | none => []
            match processSrc d dm st2 rest with
            | (tr3, ps3, st3, e3) => (ops ++ ops2 ++ tr3, pushes ++ ps3, st3, e3)
      else if entry.file_type = .DIR then
        match processSrc d dm st rest with
        | (tr2, ps2, st2, e2) => (tr2, (entry, de) :: ps2, st2, e2)
      else
        match fileUpdate st entry de with
        | (ops, st1, some err) => (ops, [], st1, some err)
        | (ops, st1, none) =>
          match processSrc d dm st1 rest with
          | (tr2, ps2, st2, e2) => (ops ++ tr2, ps2, st2, e2)

/-- The deletion loop over the destination listing, saf_sync.py lines
171-175: remove every destination child whose name is absent from the
source map. -/
def processDel (sm : List (String × SAFEntry)) :
    List (String × SAFEntry) → Store → List Op × Store × Option Err
  | [], st => ([], st, none)
  | (n, de) :: rest, st =>
    if (lookupKey sm n).isSome then processDel sm rest st
    else
      match rm st de with
      | (.error err, st1, ops) => (ops, st1, some err)
      | (.ok _, st1, ops) =>
        match processDel sm rest st1 with
        | (tr2, st2, e2) => (ops ++ tr2, st2, e2)

/-- One directory level of reconciliation, saf_sync.py lines 146-175: list
both directories, run the source-driven loop, then the deletion loop. -/
def syncLevel (st : Store) (s d : SAFEntry) :
    List Op × List (SAFEntry × SAFEntry) × Store × Option Err :=
  match ls_map st s with
  | (.error err, ops1) => (ops1, [], st, some err)
  | (.ok sm, ops1) =>
    match ls_map st d with
    | (.error err, ops2) => (ops1 ++ ops2, [], st, some err)
    | (.ok dm, ops2) =>
      match processSrc d dm st sm with
      | (tr3, ps, st3, some err) => (ops1 ++ ops2 ++ tr3, ps, st3, some err)
      | (tr3, ps, st3, none) =>
        match processDel sm dm st3 with
        | (tr4, st4, e4) => (ops1 ++ ops2 ++ tr3 ++ tr4, ps, st4, e4)

/-- The body of the while loop, saf_sync.py lines 139-175: skip pairs whose
source is not a directory; delete and recreate the destination when its
type tag is not a directory (lines 141-145), accessing the parent entry,
which is an attribute error when the parent is None; then reconcile the
level.  Pushed pairs are returned topmost first. -/
def syncStep (st : Store) (s d : SAFEntry) :
    List Op × List (SAFEntry × SAFEntry) × Store × Option Err :=
  if s.file_type = .DIR then
    if d.file_type ≠ .DIR then
      match rm st d with
      | (.error err, st1, ops) => (ops, [], st1, some err)
      | (.ok _, st1, ops) =>
        match d.parent with
        | none => (ops, [], st1, some .attrError)
        | some (ploc, ptype) =>
          match mkdir st1 ploc ptype d.name with
          | (.error err, st2, ops2) => (ops ++ ops2, [], st2, some err)
          | (.ok nd, st2, ops2) =>
            match syncLevel st2 s nd with
            | (tr, ps, st3, e3) => (ops ++ ops2 ++ tr, ps.reverse, st3, e3)
    else
      match syncLevel st s d with
      | (tr, ps, st3, e3) => (tr, ps.reverse, st3, e3)
  else ([], [], st, none)

/-- The while loop of sync, saf_sync.py lines 138-175, driven by fuel.  The
Lean list holds the Python stack reversed: its head is the Python list's
last element, so popping takes the head and pushing conses.  Also returns
the pairs popped, in processing order. -/
def syncLoop : Nat → Store → List (SAFEntry × SAFEntry) →
    List Op × List (SAFEntry × SAFEntry) × Store × Option Err
  | _, st, [] => ([], [], st, none)
  | 0, st, _ :: _ => ([], [], st, some .fuelOut)
  | fuel + 1, st, (s, d) :: rest =>
    match syncStep st s d with
    | (tr, _, st1, some err) => (tr, [(s, d)], st1, some err)
    | (tr, ps, st1, none) =>
      match syncLoop fuel st1 (ps ++ rest) with
      | (tr2, done2, st2, e2) => (tr ++ tr2, (s, d) :: done2, st2, e2)

/-- sync from saf_sync.py lines 136-175: seed the work list with the root
pair and run the loop. -/
def sync (fuel : Nat) (st : Store) (root_source root_dest : SAFEntry) :
    List Op × List (SAFEntry × SAFEntry) × Store × Option Err :=
  syncLoop fuel st [(root_source, root_dest)]

/-- No two bindings of the list share a key. -/
def nodupKeys {α : Type} : List (String × α) → Bool
  | [] => true
  | (n, _) :: rest => !(rest.any (fun p => p.1 = n)) && nodupKeys rest

/-- Well-formedness of a store tree to a given depth bound: every directory
listing binds each name at most once. -/
def wfTo : Nat → Node → Bool
  | 0, _ => false
  | _ + 1, .file _ _ => true
  | k + 1, .dir cs => nodupKeys cs && cs.all (fun p => wfTo k p.2)

/-- A well-formed store tree: no directory has duplicate child names. -/
def Wf (t : Node) : Prop := ∃ k, wfTo k t = true

/-- Whether the first path is an initial segment of the second. -/
def initSeg : List String → List String → Bool
  | [], _ => true
  | _ :: _, [] => false
  | a :: p, b :: q => a = b && initSeg p q

/-- The kind of the node a path leads to. -/
def kindAt (t : Node) (p : List String) : Option SAFType :=
  (lookupPath t p).map nodeType

/-- The content of the file a path leads to. -/
def contentsAt (t : Node) (p : List String) : Option (List Nat) :=
  match lookupPath t p with
  | some (.file c _) => some c
  | _ => none

/-- How a destination file may relate to its source file after a run:
either the content was copied, or the transfer was skipped by the
freshness heuristic, which requires equal lengths, a known source
modification time and a strictly older destination one. -/
def fileMatch (c : List Nat) (m : Option Int) (c' : List Nat) (m' : Option Int) : Prop :=
  c = c' ∨ (c.length = c'.length ∧ ∃ v w, m = some v ∧ m' = some w ∧ w < v)

/-- fileMatch strengthened with the fact, true of every destination file a
run leaves behind, that the destination modification time is known
whenever the source one is. -/
def fileMatchS (c : List Nat) (m : Option Int) (c' : List Nat) (m' : Option Int) : Prop :=
  fileMatch c m c' m' ∧ (m.isSome → m'.isSome)

/-- The destination tree mirrors the source tree: same child names at every
level, same kinds, and corresponding files related by R. -/
inductive MirrorsBy (R : List Nat → Option Int → List Nat → Option Int → Prop) :
    Node → Node → Prop where
  | file : ∀ c m c' m', R c m c' m' → MirrorsBy R (.file c m) (.file c' m')
  | dir : ∀ scs dcs,
      (∀ n, (lookupChild scs n).isSome ↔ (lookupChild dcs n).isSome) →
      (∀ n sc dc, lookupChild scs n = some sc → lookupChild dcs n = some dc →
        MirrorsBy R sc dc) →
      MirrorsBy R (.dir scs) (.dir dcs)

/-- Isomorphism in names and kinds with contents equal except for skipped
files, which match in length: the convergence relation of the spec. -/
def Mirrors : Node → Node → Prop := MirrorsBy fileMatch

/-- The destination tree is the given tree with, for each pending work-list
pair in order, the subtree at the pair's destination path replaced by some
tree mirroring the source subtree at the pair's source path. -/
inductive Completes (src : Node) : List (SAFEntry × SAFEntry) → Node → Node → Prop where
  | nil : ∀ t, Completes src [] t t
  | cons : ∀ s d rest t t' sT m,
      lookupPath src s.uri.path = some sT →
      MirrorsBy fileMatchS sT m →
      Wf m →
      Completes src rest (setPath t d.uri.path m) t' →
      Completes src ((s, d) :: rest) t t'

/-- The destination directory entry under which a pushed pair's destination
lives: whether it came from the destination listing or from mkdir, the
entry has this shape. -/
def dirDestEntry (d : SAFEntry) (n : String) : SAFEntry :=
  ⟨⟨d.uri.side, d.uri.path ++ [n]⟩, n, .DIR, some (d.uri, d.file_type), none, none⟩

/-- The name-to-entry association the listing of a directory with children
cs under entry e produces (the composition of ls and ls_map when names are
unique). -/
def entriesOf (e : SAFEntry) (cs : List (String × Node)) : List (String × SAFEntry) :=
  cs.map (fun p => (p.1, entryOf e.uri e.file_type p.1 p.2))

/-- The work-list pair the source loop pushes for a directory child, if
any. -/
def pushOf (s d : SAFEntry) (q : String × Node) : Option (SAFEntry × SAFEntry) :=
  match q.2 with
  | .dir _ => some (entryOf s.uri s.file_type q.1 q.2, dirDestEntry d q.1)
  | .file _ _ => none

/-- What one pass of the source loop leaves under a source child name:
files end up related by fileMatchS to the source file, directory slots keep
the old destination directory when kinds agreed and become empty
directories otherwise (recursion into them is deferred to the work
list). -/
def srcOutcome (dcs cur' : List (String × Node)) (n : String) (c : Node) : Prop :=
  match c with
  | .file cc cm => ∃ c1 m1, lookupChild cur' n = some (.file c1 m1) ∧ fileMatchS cc cm c1 m1
  | .dir _ =>
    match lookupChild dcs n with
    | some (.dir dcn) => lookupChild cur' n = some (.dir dcn)
    | _ => lookupChild cur' n = some (.dir [])

/-- Two paths are incomparable: neither is an initial segment of the
other.  The destination paths of distinct pending work-list pairs are
always incomparable. -/
def incomp (a b : List String) : Prop := initSeg a b = false ∧ initSeg b a = false

/-- Whether a node is a directory. -/
def isDirNode : Node → Bool
  | .dir _ => true
  | .file _ _ => false

/-- The invariant every pair on the work list satisfies relative to the
current store: the source member locates a directory of the source tree,
the destination member locates a directory of the destination tree, and
both type tags say DIR. -/
def StackInv (st : Store) (p : SAFEntry × SAFEntry) : Prop :=
  p.1.uri.side = .s ∧ p.2.uri.side = .d ∧
  p.1.file_type = .DIR ∧ p.2.file_type = .DIR ∧
  (∃ scs, lookupPath st.src p.1.uri.path = some (.dir scs)) ∧
  (∃ dcs, lookupPath st.dst p.2.uri.path = some (.dir dcs))

/-- Two trees agree in shape and contents everywhere: every path leads to
the same kind of node on both sides, and to the same file content.  A
second reconciliation run only re-stamps modification times, so it
preserves this relation. -/
def sameShape (t t' : Node) : Prop :=
  ∀ q, kindAt t q = kindAt t' q ∧ contentsAt t q = contentsAt t' q

/-! ### Concrete fixtures for witnesses and counterexamples -/

/-- A root entry for the source store. -/
def exRootS : SAFEntry := ⟨⟨.s, []⟩, "", .DIR, none, none, none⟩

/-- A root entry for the destination store. -/
def exRootD : SAFEntry := ⟨⟨.d, []⟩, "", .DIR, none, none, none⟩

/-- A store with a subdirectory and a file with unknown modification time
on the source side and an empty destination. -/
def exStore : Store := ⟨.dir [("a", .dir []), ("f", .file [1] none)], .dir [], 0⟩

/-- A store whose two sides hold a same-name file pair with known source
modification time, equal lengths and unknown destination modification
time. -/
def exStoreTN : Store :=
  ⟨.dir [("r", .file [1, 2] (some 5))], .dir [("r", .file [3, 4] none)], 10⟩

/-- A store with kind mismatches at both names: x is a directory in the
source but a file in the destination, y the other way round. -/
def exStoreMM : Store :=
  ⟨.dir [("x", .dir []), ("y", .file [7] (some 1))],
   .dir [("x", .file [9] (some 2)), ("y", .dir [("junk", .file [] none)])], 50⟩

/-- A source entry of kind DIR at path q. -/
def exSrcQ : SAFEntry := ⟨⟨.s, ["q"]⟩, "q", .DIR, some (⟨.s, []⟩, .DIR), none, none⟩

/-- A destination entry of kind FILE at path q, with a parent. -/
def exDstQ : SAFEntry := ⟨⟨.d, ["q"]⟩, "q", .FILE, some (⟨.d, []⟩, .DIR), some 1, some 0⟩

/-- A store where the destination slot q is a file while the source q is a
directory. -/
def exStoreQ : Store := ⟨.dir [("q", .dir [])], .dir [("q", .file [5] (some 0))], 7⟩

/-- The source-side listing entry of the file r in exStoreTN. -/
def exEntryRS : SAFEntry := ⟨⟨.s, ["r"]⟩, "r", .FILE, some (⟨.s, []⟩, .DIR), some 2, some 5⟩

/-- The destination-side listing entry of the file r in exStoreTN. -/
def exEntryRD : SAFEntry := ⟨⟨.d, ["r"]⟩, "r", .FILE, some (⟨.d, []⟩, .DIR), some 2, none⟩

/-- A store with a shared file k (source strictly newer, equal length) and
a destination-only child old. -/
def exStoreDel : Store :=
  ⟨.dir [("k", .file [1] (some 1))],
   .dir [("k", .file [2] (some 0)), ("old", .dir [])], 3⟩

/-! ### Association-list lemmas -/

theorem lookupChild_nil (n : String) : lookupChild [] n = none := rfl

theorem lookupChild_cons (m : String) (t : Node) (rest : List (String × Node)) (n : String) :
    lookupChild ((m, t) :: rest) n = if m = n then some t else lookupChild rest n := rfl

theorem lookupChild_isSome_any (cs : List (String × Node)) (n : String) :
    (lookupChild cs n).isSome = cs.any (fun p => p.1 = n) := by
  induction cs with
  | nil => simp [lookupChild_nil]
  | cons hd tl ih =>
    obtain ⟨m, t⟩ := hd
    by_cases h : m = n <;> simp [lookupChild_cons, h, ih]

theorem lookupChild_append (a b : List (String × Node)) (n : String) :
    lookupChild (a ++ b) n =
      match lookupChild a n with
      | some t => some t
      | none => lookupChild b n := by
  induction a with
  | nil => simp [lookupChild_nil]
  | cons hd tl ih =>
    obtain ⟨m, t⟩ := hd
    by_cases h : m = n <;> simp [lookupChild_cons, h, ih]


theorem lookupChild_replaceChildNode (cs : List (String × Node)) (n : String)
    (t : Node) (k : String) :
    lookupChild (replaceChildNode cs n t) k =
      if k = n then (lookupChild cs n).map (fun _ => t) else lookupChild cs k := by
  induction cs with
  | nil => by_cases hk : k = n <;> simp [replaceChildNode, lookupChild_nil, hk]
  | cons hd tl ih =>
    obtain ⟨m, c⟩ := hd
    by_cases hm : m = n <;> by_cases hk : m = k
    · have hkn : k = n := hk.symm.trans hm
      simp [replaceChildNode, lookupChild_cons, hm, hk, hkn, ih] at ih ⊢
    · have hkn : ¬ k = n := fun h => hk (hm.trans h.symm)
      have hnk : ¬ n = k := fun h => hk (hm.trans h)
      simp [replaceChildNode, lookupChild_cons, hm, hk, hkn, hnk] at ih ⊢
      exact ih
    · have hkn : ¬ k = n := fun h => hm (hk.trans h)
      simp [replaceChildNode, lookupChild_cons, hm, hk, hkn] at ih ⊢
    · simp only [replaceChildNode, List.map_cons] at ih ⊢
      simp only [if_neg hm]
      simp only [lookupChild_cons]
      rw [if_neg hk, if_neg hk, if_neg hm, ih]

theorem lookupChild_setChild (cs : List (String × Node)) (n : String) (t : Node)
    (k : String) :
    lookupChild (setChild cs n t) k = if k = n then some t else lookupChild cs k := by
  unfold setChild
  by_cases h : cs.any (fun p => p.1 = n)
  · rw [if_pos h]
    have hrw := lookupChild_replaceChildNode cs n t k
    unfold replaceChildNode at hrw
    rw [hrw]
    by_cases hk : k = n
    · subst hk
      have hs : (lookupChild cs k).isSome = true := by
        rw [lookupChild_isSome_any]; exact h
      obtain ⟨c, hc⟩ := Option.isSome_iff_exists.mp hs
      simp [hc]
    · simp [hk]
  · rw [if_neg h]
    rw [lookupChild_append]
    by_cases hk : k = n
    · subst hk
      have hs : (lookupChild cs k).isSome = cs.any (fun p => p.1 = k) :=
        lookupChild_isSome_any cs k
      have hnone : lookupChild cs k = none := by
        cases hl : lookupChild cs k with
        | none => rfl
        | some c => exact absurd (by rw [hl] at hs; simpa using hs.symm) h
      simp [hnone, lookupChild_cons]
    · cases hl : lookupChild cs k with
      | none => simp [lookupChild_cons, lookupChild_nil, Ne.symm hk, hk]
      | some c => simp [hk]

theorem lookupChild_removeChild (cs : List (String × Node)) (n k : String) :
    lookupChild (removeChild cs n) k =
      if k = n then none else lookupChild cs k := by
  induction cs with
  | nil => by_cases h : k = n <;> simp [removeChild, lookupChild_nil, h]
  | cons hd tl ih =>
    obtain ⟨m, c⟩ := hd
    by_cases hm : m = n <;> by_cases hk : m = k
    · have hkn : k = n := hk.symm.trans hm
      simp [removeChild, lookupChild_cons, hm, hk, hkn] at ih ⊢
      exact ih
    · have hkn : ¬ k = n := fun h => hk (hm.trans h.symm)
      have hnk : ¬ n = k := fun h => hk (hm.trans h)
      simp [removeChild, lookupChild_cons, hm, hk, hkn, hnk] at ih ⊢
      exact ih
    · have hkn : ¬ k = n := fun h => hm (hk.trans h)
      simp [removeChild, lookupChild_cons, hm, hk, hkn] at ih ⊢
    · simp only [removeChild, List.filter_cons] at ih ⊢
      have hdec : (decide ¬ (m, c).1 = n) = true := by simpa using hm
      rw [hdec]
      simp only [if_true, lookupChild_cons]
      rw [if_neg hk, ih]
      by_cases hkn : k = n
      · simp [hkn]
      · simp [hkn, hk]

theorem nodupKeys_iff_nodup {α : Type} (cs : List (String × α)) :
    nodupKeys cs = true ↔ (cs.map Prod.fst).Nodup := by
  induction cs with
  | nil => simp [nodupKeys]
  | cons hd tl ih =>
    obtain ⟨m, a⟩ := hd
    simp only [nodupKeys, Bool.and_eq_true, Bool.not_eq_true', List.map_cons, List.nodup_cons, ih]
    constructor
    · rintro ⟨h1, h2⟩
      refine ⟨?_, h2⟩
      intro hmem
      obtain ⟨p, hp, hpk⟩ := List.mem_map.mp hmem
      have : tl.any (fun p => p.1 = m) = true := List.any_eq_true.mpr ⟨p, hp, by simp [hpk]⟩
      rw [h1] at this
      cases this
    · rintro ⟨h1, h2⟩
      refine ⟨?_, h2⟩
      cases ha : tl.any (fun p => p.1 = m) with
      | false => rfl
      | true =>
        obtain ⟨p, hp, hpk⟩ := List.any_eq_true.mp ha
        exact absurd (List.mem_map.mpr ⟨p, hp, by simpa using hpk⟩) h1

theorem keys_replaceChildNode (cs : List (String × Node)) (n : String) (t : Node) :
    (replaceChildNode cs n t).map Prod.fst = cs.map Prod.fst := by
  unfold replaceChildNode
  rw [List.map_map]
  apply List.map_congr_left
  intro p _
  simp [Function.comp, apply_ite Prod.fst]

theorem nodupKeys_replaceChildNode (cs : List (String × Node)) (n : String) (t : Node)
    (h : nodupKeys cs = true) : nodupKeys (replaceChildNode cs n t) = true := by
  rw [nodupKeys_iff_nodup] at h ⊢
  rwa [keys_replaceChildNode]

theorem nodupKeys_setChild (cs : List (String × Node)) (n : String) (t : Node)
    (h : nodupKeys cs = true) : nodupKeys (setChild cs n t) = true := by
  unfold setChild
  by_cases ha : cs.any (fun p => p.1 = n)
  · rw [if_pos ha]
    have := nodupKeys_replaceChildNode cs n t h
    unfold replaceChildNode at this
    exact this
  · rw [if_neg ha]
    rw [nodupKeys_iff_nodup] at h ⊢
    rw [List.map_append]
    simp only [List.map_cons, List.map_nil]
    rw [List.nodup_append]
    refine ⟨h, List.nodup_singleton n, ?_⟩
    intro x hx hmem
    simp only [List.mem_singleton] at hmem
    subst hmem
    obtain ⟨p, hp, hpk⟩ := List.mem_map.mp hx
    have : cs.any (fun p => p.1 = x) = true := List.any_eq_true.mpr ⟨p, hp, by simp [hpk]⟩
    exact ha (by simpa using this)

theorem nodupKeys_removeChild (cs : List (String × Node)) (n : String)
    (h : nodupKeys cs = true) : nodupKeys (removeChild cs n) = true := by
  rw [nodupKeys_iff_nodup] at h ⊢
  exact h.sublist (List.Sublist.map Prod.fst (List.filter_sublist cs))

/-! ### Path lemmas -/

theorem lookupPath_nil (t : Node) : lookupPath t [] = some t := by cases t <;> rfl

theorem lookupPath_cons_file (c : List Nat) (mo : Option Int) (n : String) (p : List String) :
    lookupPath (.file c mo) (n :: p) = none := rfl

theorem lookupPath_cons_dir (cs : List (String × Node)) (n : String) (p : List String) :
    lookupPath (.dir cs) (n :: p) =
      match lookupChild cs n with
      | some c => lookupPath c p
      | none => none := rfl

theorem setPath_nil (t m : Node) : setPath t [] m = m := by cases t <;> rfl

theorem setPath_cons_file (c : List Nat) (mo : Option Int) (n : String) (p : List String)
    (m : Node) : setPath (.file c mo) (n :: p) m = .file c mo := rfl

theorem setPath_cons_dir (cs : List (String × Node)) (n : String) (p : List String)
    (m : Node) :
    setPath (.dir cs) (n :: p) m =
      match lookupChild cs n with
      | some c => .dir (replaceChildNode cs n (setPath c p m))
      | none => .dir cs := rfl

theorem nodeModify_nil (t : Node) (f : Node → Option Node) :
    nodeModify t [] f = f t := by cases t <;> rfl

theorem nodeModify_cons_file (c : List Nat) (mo : Option Int) (n : String)
    (p : List String) (f : Node → Option Node) :
    nodeModify (.file c mo) (n :: p) f = none := rfl

theorem nodeModify_cons_dir (cs : List (String × Node)) (n : String) (p : List String)
    (f : Node → Option Node) :
    nodeModify (.dir cs) (n :: p) f =
      match lookupChild cs n with
      | some c => (nodeModify c p f).map (fun c' => .dir (replaceChildNode cs n c'))
      | none => none := rfl

theorem rmAt_nil (t : Node) : rmAt t [] = none := by cases t <;> rfl

theorem rmAt_single_dir (cs : List (String × Node)) (n : String) :
    rmAt (.dir cs) [n] =
      if (lookupChild cs n).isSome then some (.dir (removeChild cs n)) else none := rfl

theorem rmAt_single_file (c : List Nat) (mo : Option Int) (n : String) :
    rmAt (.file c mo) [n] = none := rfl

theorem rmAt_cons2_dir (cs : List (String × Node)) (n x : String) (rest : List String) :
    rmAt (.dir cs) (n :: x :: rest) =
      match lookupChild cs n with
      | some c => (rmAt c (x :: rest)).map (fun c' => .dir (replaceChildNode cs n c'))
      | none => none := rfl

theorem rmAt_cons2_file (c : List Nat) (mo : Option Int) (n x : String)
    (rest : List String) : rmAt (.file c mo) (n :: x :: rest) = none := rfl

theorem lookupPath_cons_dir_some (cs : List (String × Node)) (n : String)
    (p : List String) (c : Node) (hc : lookupChild cs n = some c) :
    lookupPath (.dir cs) (n :: p) = lookupPath c p := by
  rw [lookupPath_cons_dir, hc]

theorem lookupPath_cons_dir_none (cs : List (String × Node)) (n : String)
    (p : List String) (hc : lookupChild cs n = none) :
    lookupPath (.dir cs) (n :: p) = none := by
  rw [lookupPath_cons_dir, hc]

theorem setPath_cons_dir_some (cs : List (String × Node)) (n : String)
    (p : List String) (m c : Node) (hc : lookupChild cs n = some c) :
    setPath (.dir cs) (n :: p) m = .dir (replaceChildNode cs n (setPath c p m)) := by
  rw [setPath_cons_dir, hc]

theorem setPath_cons_dir_none (cs : List (String × Node)) (n : String)
    (p : List String) (m : Node) (hc : lookupChild cs n = none) :
    setPath (.dir cs) (n :: p) m = .dir cs := by
  rw [setPath_cons_dir, hc]

theorem nodeModify_cons_dir_some (cs : List (String × Node)) (n : String)
    (p : List String) (f : Node → Option Node) (c : Node)
    (hc : lookupChild cs n = some c) :
    nodeModify (.dir cs) (n :: p) f =
      (nodeModify c p f).map (fun c' => .dir (replaceChildNode cs n c')) := by
  rw [nodeModify_cons_dir, hc]

theorem nodeModify_cons_dir_none (cs : List (String × Node)) (n : String)
    (p : List String) (f : Node → Option Node) (hc : lookupChild cs n = none) :
    nodeModify (.dir cs) (n :: p) f = none := by
  rw [nodeModify_cons_dir, hc]

theorem rmAt_cons2_dir_some (cs : List (String × Node)) (n x : String)
    (rest : List String) (c : Node) (hc : lookupChild cs n = some c) :
    rmAt (.dir cs) (n :: x :: rest) =
      (rmAt c (x :: rest)).map (fun c' => .dir (replaceChildNode cs n c')) := by
  rw [rmAt_cons2_dir, hc]

theorem rmAt_cons2_dir_none (cs : List (String × Node)) (n x : String)
    (rest : List String) (hc : lookupChild cs n = none) :
    rmAt (.dir cs) (n :: x :: rest) = none := by
  rw [rmAt_cons2_dir, hc]

theorem lookupPath_append (t : Node) (p q : List String) :
    lookupPath t (p ++ q) = (lookupPath t p).bind (fun s => lookupPath s q) := by
  induction p generalizing t with
  | nil => simp [lookupPath_nil]
  | cons n p' ih =>
    cases t with
    | file c m => simp [lookupPath_cons_file]
    | dir cs =>
      rw [List.cons_append]
      cases hc : lookupChild cs n with
      | some c =>
        rw [lookupPath_cons_dir_some cs n (p' ++ q) c hc,
          lookupPath_cons_dir_some cs n p' c hc, ih]
      | none =>
        rw [lookupPath_cons_dir_none cs n (p' ++ q) hc,
          lookupPath_cons_dir_none cs n p' hc]
        rfl

theorem lookupChild_mem (cs : List (String × Node)) (n : String) (c : Node)
    (h : lookupChild cs n = some c) : (n, c) ∈ cs := by
  induction cs with
  | nil => cases h
  | cons hd tl ih =>
    obtain ⟨m, t⟩ := hd
    rw [lookupChild_cons] at h
    by_cases hm : m = n
    · rw [if_pos hm] at h
      cases h
      exact hm ▸ List.mem_cons_self _ _
    · rw [if_neg hm] at h
      exact List.mem_cons_of_mem _ (ih h)

theorem replaceChildNode_absent (cs : List (String × Node)) (n : String) (t : Node)
    (h : cs.any (fun p => p.1 = n) = false) : replaceChildNode cs n t = cs := by
  induction cs with
  | nil => rfl
  | cons hd tl ih =>
    obtain ⟨m, c⟩ := hd
    simp only [List.any_cons, Bool.or_eq_false_iff] at h
    have hm : ¬ m = n := by simpa using h.1
    simp only [replaceChildNode, List.map_cons, if_neg hm] at ih ⊢
    rw [ih h.2]

theorem replaceChildNode_self (cs : List (String × Node)) (n : String) (c : Node)
    (hnd : nodupKeys cs = true) (h : lookupChild cs n = some c) :
    replaceChildNode cs n c = cs := by
  induction cs with
  | nil => rfl
  | cons hd tl ih =>
    obtain ⟨m, a⟩ := hd
    simp only [nodupKeys, Bool.and_eq_true, Bool.not_eq_true'] at hnd
    rw [lookupChild_cons] at h
    by_cases hm : m = n
    · rw [if_pos hm] at h
      have hac : a = c := by injection h
      simp only [replaceChildNode, List.map_cons, if_pos hm]
      rw [← hac]
      have habs : replaceChildNode tl n a = tl :=
        replaceChildNode_absent tl n a (hm ▸ hnd.1)
      unfold replaceChildNode at habs
      rw [habs]
    · rw [if_neg hm] at h
      simp only [replaceChildNode, List.map_cons, if_neg hm] at ih ⊢
      rw [ih hnd.2 h]

theorem replaceChildNode_replaceChildNode (cs : List (String × Node)) (n : String)
    (a b : Node) :
    replaceChildNode (replaceChildNode cs n a) n b = replaceChildNode cs n b := by
  unfold replaceChildNode
  rw [List.map_map]
  apply List.map_congr_left
  intro p _
  by_cases hm : p.1 = n <;> simp [Function.comp, hm]

/-! ### Well-formedness lemmas -/

theorem wfTo_mono (k k' : Nat) (t : Node) (hk : k ≤ k') (h : wfTo k t = true) :
    wfTo k' t = true := by
  induction k generalizing k' t with
  | zero => cases h
  | succ k ih =>
    obtain ⟨k'', rfl⟩ : ∃ k'', k' = k'' + 1 := by
      cases k' with
      | zero => omega
      | succ j => exact ⟨j, rfl⟩
    cases t with
    | file c m => rfl
    | dir cs =>
      simp only [wfTo, Bool.and_eq_true, List.all_eq_true] at h ⊢
      exact ⟨h.1, fun p hp => ih k'' p.2 (by omega) (h.2 p hp)⟩

theorem Wf_file (c : List Nat) (m : Option Int) : Wf (.file c m) := ⟨1, rfl⟩

theorem wfTo_list_max (cs : List (String × Node)) (hall : ∀ p ∈ cs, Wf p.2) :
    ∃ K, ∀ p ∈ cs, wfTo K p.2 = true := by
  induction cs with
  | nil => exact ⟨1, by simp⟩
  | cons hd tl ih =>
    obtain ⟨K1, hK1⟩ := ih (fun p hp => hall p (List.mem_cons_of_mem _ hp))
    obtain ⟨K2, hK2⟩ := hall hd (List.mem_cons_self _ _)
    refine ⟨max K1 K2, ?_⟩
    intro p hp
    rcases List.mem_cons.mp hp with rfl | hp'
    · exact wfTo_mono K2 _ _ (le_max_right _ _) hK2
    · exact wfTo_mono K1 _ _ (le_max_left _ _) (hK1 p hp')

theorem Wf_dir_iff (cs : List (String × Node)) :
    Wf (.dir cs) ↔ nodupKeys cs = true ∧ ∀ p ∈ cs, Wf p.2 := by
  constructor
  · rintro ⟨k, hk⟩
    cases k with
    | zero => cases hk
    | succ k =>
      simp only [wfTo, Bool.and_eq_true, List.all_eq_true] at hk
      exact ⟨hk.1, fun p hp => ⟨k, hk.2 p hp⟩⟩
  · rintro ⟨hnd, hall⟩
    obtain ⟨K, hK⟩ := wfTo_list_max cs hall
    refine ⟨K + 1, ?_⟩
    simp only [wfTo, Bool.and_eq_true, List.all_eq_true]
    exact ⟨hnd, hK⟩

theorem Wf_lookupPath (t : Node) (p : List String) (s : Node)
    (hwf : Wf t) (h : lookupPath t p = some s) : Wf s := by
  induction p generalizing t with
  | nil => rw [lookupPath_nil] at h; cases h; exact hwf
  | cons n p' ih =>
    cases t with
    | file c m => cases h
    | dir cs =>
      cases hc : lookupChild cs n with
      | none => rw [lookupPath_cons_dir_none cs n p' hc] at h; cases h
      | some c =>
        rw [lookupPath_cons_dir_some cs n p' c hc] at h
        exact ih c ((Wf_dir_iff cs).mp hwf |>.2 (n, c) (lookupChild_mem cs n c hc)) h

theorem Wf_setPath (t : Node) (p : List String) (m : Node)
    (hwf : Wf t) (hm : Wf m) : Wf (setPath t p m) := by
  induction p generalizing t with
  | nil => rw [setPath_nil]; exact hm
  | cons n p' ih =>
    cases t with
    | file c mo => rw [setPath_cons_file]; exact hwf
    | dir cs =>
      cases hc : lookupChild cs n with
      | none => rw [setPath_cons_dir_none cs n p' m hc]; exact hwf
      | some c =>
        rw [setPath_cons_dir_some cs n p' m c hc]
        obtain ⟨hnd, hall⟩ := (Wf_dir_iff cs).mp hwf
        rw [Wf_dir_iff]
        refine ⟨nodupKeys_replaceChildNode cs n _ hnd, ?_⟩
        intro q hq
        unfold replaceChildNode at hq
        obtain ⟨r, hr, hrq⟩ := List.mem_map.mp hq
        by_cases hk : r.1 = n
        · rw [if_pos hk] at hrq
          subst hrq
          exact ih c (hall (n, c) (lookupChild_mem cs n c hc))
        · rw [if_neg hk] at hrq
          subst hrq
          exact hall r hr

theorem setPath_self (t : Node) (p : List String) (s : Node)
    (hwf : Wf t) (h : lookupPath t p = some s) : setPath t p s = t := by
  induction p generalizing t with
  | nil => rw [lookupPath_nil] at h; cases h; rw [setPath_nil]
  | cons n p' ih =>
    cases t with
    | file c m => rw [setPath_cons_file]
    | dir cs =>
      cases hc : lookupChild cs n with
      | none => rw [lookupPath_cons_dir_none cs n p' hc] at h; cases h
      | some c =>
        rw [lookupPath_cons_dir_some cs n p' c hc] at h
        rw [setPath_cons_dir_some cs n p' s c hc]
        obtain ⟨hnd, hall⟩ := (Wf_dir_iff cs).mp hwf
        rw [ih c (hall (n, c) (lookupChild_mem cs n c hc)) h]
        rw [replaceChildNode_self cs n c hnd hc]

theorem lookupPath_setPath_self (t : Node) (p : List String) (s m : Node)
    (h : lookupPath t p = some s) : lookupPath (setPath t p m) p = some m := by
  induction p generalizing t with
  | nil => rw [setPath_nil, lookupPath_nil]
  | cons n p' ih =>
    cases t with
    | file c mo => cases h
    | dir cs =>
      cases hc : lookupChild cs n with
      | none => rw [lookupPath_cons_dir_none cs n p' hc] at h; cases h
      | some c =>
        rw [lookupPath_cons_dir_some cs n p' c hc] at h
        rw [setPath_cons_dir_some cs n p' m c hc]
        have hrc : lookupChild (replaceChildNode cs n (setPath c p' m)) n =
            some (setPath c p' m) := by
          rw [lookupChild_replaceChildNode, if_pos rfl, hc]
          rfl
        rw [lookupPath_cons_dir_some _ n p' _ hrc]
        exact ih c h

theorem lookupPath_setPath_frame (t : Node) (p q : List String) (m : Node)
    (h1 : initSeg p q = false) (h2 : initSeg q p = false) :
    lookupPath (setPath t p m) q = lookupPath t q := by
  induction p generalizing q t with
  | nil => cases h1
  | cons a p' ih =>
    cases q with
    | nil => cases h2
    | cons b q' =>
      cases t with
      | file c mo => rw [setPath_cons_file]
      | dir cs =>
        cases hc : lookupChild cs a with
        | none => rw [setPath_cons_dir_none cs a p' m hc]
        | some c =>
          rw [setPath_cons_dir_some cs a p' m c hc]
          by_cases hab : b = a
          · subst hab
            simp only [initSeg, decide_True, Bool.true_and] at h1 h2
            have hrc : lookupChild (replaceChildNode cs b (setPath c p' m)) b =
                some (setPath c p' m) := by
              rw [lookupChild_replaceChildNode, if_pos rfl, hc]
              rfl
            rw [lookupPath_cons_dir_some _ b q' _ hrc,
              lookupPath_cons_dir_some cs b q' c hc]
            exact ih c q' h1 h2
          · have hrc : lookupChild (replaceChildNode cs a (setPath c p' m)) b =
                lookupChild cs b := by
              rw [lookupChild_replaceChildNode, if_neg hab]
            rw [lookupPath_cons_dir, hrc, lookupPath_cons_dir]

theorem setPath_setPath (t : Node) (p : List String) (a b : Node) :
    setPath (setPath t p a) p b = setPath t p b := by
  induction p generalizing t with
  | nil => rw [setPath_nil, setPath_nil]
  | cons n p' ih =>
    cases t with
    | file c mo => rw [setPath_cons_file, setPath_cons_file]
    | dir cs =>
      cases hc : lookupChild cs n with
      | none =>
        rw [setPath_cons_dir_none cs n p' a hc, setPath_cons_dir_none cs n p' b hc]
      | some c =>
        rw [setPath_cons_dir_some cs n p' a c hc]
        have hrc : lookupChild (replaceChildNode cs n (setPath c p' a)) n =
            some (setPath c p' a) := by
          rw [lookupChild_replaceChildNode, if_pos rfl, hc]
          rfl
        rw [setPath_cons_dir_some _ n p' b _ hrc,
          replaceChildNode_replaceChildNode, ih,
          setPath_cons_dir_some cs n p' b c hc]

theorem setPath_append (t : Node) (p q : List String) (s m : Node)
    (h : lookupPath t p = some s) :
    setPath t (p ++ q) m = setPath t p (setPath s q m) := by
  induction p generalizing t with
  | nil =>
    rw [lookupPath_nil] at h
    cases h
    rw [List.nil_append, setPath_nil]
  | cons n p' ih =>
    cases t with
    | file c mo => rw [List.cons_append, setPath_cons_file, setPath_cons_file]
    | dir cs =>
      cases hc : lookupChild cs n with
      | none => rw [lookupPath_cons_dir_none cs n p' hc] at h; cases h
      | some c =>
        rw [lookupPath_cons_dir_some cs n p' c hc] at h
        rw [List.cons_append, setPath_cons_dir_some cs n (p' ++ q) m c hc,
          setPath_cons_dir_some cs n p' (setPath s q m) c hc, ih c h]

theorem nodeModify_localize (t : Node) (p q : List String) (s : Node)
    (f : Node → Option Node) (h : lookupPath t p = some s) :
    nodeModify t (p ++ q) f = (nodeModify s q f).map (setPath t p) := by
  induction p generalizing t with
  | nil =>
    rw [lookupPath_nil] at h
    cases h
    rw [List.nil_append]
    cases nodeModify s q f with
    | none => rfl
    | some r => simp [setPath_nil]
  | cons n p' ih =>
    cases t with
    | file c mo => cases h
    | dir cs =>
      cases hc : lookupChild cs n with
      | none => rw [lookupPath_cons_dir_none cs n p' hc] at h; cases h
      | some c =>
        rw [lookupPath_cons_dir_some cs n p' c hc] at h
        rw [List.cons_append, nodeModify_cons_dir_some cs n (p' ++ q) f c hc, ih c h]
        cases hs : nodeModify s q f with
        | none => rfl
        | some r =>
          simp only [Option.map_some']
          rw [setPath_cons_dir_some cs n p' r c hc]

theorem rmAt_localize (t : Node) (p q : List String) (s : Node)
    (hq : q ≠ []) (h : lookupPath t p = some s) :
    rmAt t (p ++ q) = (rmAt s q).map (setPath t p) := by
  induction p generalizing t with
  | nil =>
    rw [lookupPath_nil] at h
    cases h
    rw [List.nil_append]
    cases rmAt s q with
    | none => rfl
    | some r => simp [setPath_nil]
  | cons n p' ih =>
    cases t with
    | file c mo => cases h
    | dir cs =>
      cases hc : lookupChild cs n with
      | none => rw [lookupPath_cons_dir_none cs n p' hc] at h; cases h
      | some c =>
        rw [lookupPath_cons_dir_some cs n p' c hc] at h
        obtain ⟨x, rest, hxr⟩ : ∃ x rest, p' ++ q = x :: rest := by
          cases hpq : p' ++ q with
          | nil => exact absurd (List.append_eq_nil.mp hpq).2 hq
          | cons x rest => exact ⟨x, rest, rfl⟩
        rw [List.cons_append, hxr, rmAt_cons2_dir_some cs n x rest c hc, ← hxr, ih c h]
        cases hs : rmAt s q with
        | none => rfl
        | some r =>
          simp only [Option.map_some']
          rw [setPath_cons_dir_some cs n p' r c hc]

/-! ### Store accessor lemmas -/

theorem tree_setTree_same (st : Store) (sd : Side) (t : Node) :
    (st.setTree sd t).tree sd = t := by cases sd <;> rfl

theorem tree_setTree_other (st : Store) (sd sd' : Side) (t : Node) (h : sd ≠ sd') :
    (st.setTree sd t).tree sd' = st.tree sd' := by
  cases sd <;> cases sd' <;> first | rfl | exact absurd rfl h

theorem tree_tick (st : Store) (sd : Side) : st.tick.tree sd = st.tree sd := by
  cases sd <;> rfl

theorem setTree_setTree (st : Store) (sd : Side) (a b : Node) :
    (st.setTree sd a).setTree sd b = st.setTree sd b := by cases sd <;> rfl

theorem setTree_tick_setTree (st : Store) (sd : Side) (a b : Node) :
    ((st.setTree sd a).tick).setTree sd b = (st.setTree sd b).tick := by
  cases sd <;> rfl

theorem now_setTree (st : Store) (sd : Side) (t : Node) :
    (st.setTree sd t).now = st.now := by cases sd <;> rfl

theorem src_setTree_d (st : Store) (t : Node) : (st.setTree .d t).src = st.src := rfl

theorem dst_setTree_d (st : Store) (t : Node) : (st.setTree .d t).dst = t := rfl

theorem src_tick (st : Store) : st.tick.src = st.src := rfl

/-! ### Listing lemmas -/

theorem entryOf_name (puri : Loc) (ptype : SAFType) (n : String) (t : Node) :
    (entryOf puri ptype n t).name = n := by cases t <;> rfl

theorem entryOf_uri (puri : Loc) (ptype : SAFType) (n : String) (t : Node) :
    (entryOf puri ptype n t).uri = ⟨puri.side, puri.path ++ [n]⟩ := by cases t <;> rfl

theorem entryOf_file_type (puri : Loc) (ptype : SAFType) (n : String) (t : Node) :
    (entryOf puri ptype n t).file_type = nodeType t := by cases t <;> rfl

theorem lookupKey_nil (n : String) : lookupKey [] n = none := rfl

theorem lookupKey_cons (m : String) (e : SAFEntry) (rest : List (String × SAFEntry))
    (n : String) :
    lookupKey ((m, e) :: rest) n = if m = n then some e else lookupKey rest n := rfl

theorem insertLWW_fresh (m : List (String × SAFEntry)) (k : String) (v : SAFEntry)
    (h : m.any (fun p => p.1 = k) = false) : insertLWW m k v = m ++ [(k, v)] := by
  unfold insertLWW
  rw [if_neg (by simp [h])]

theorem lsFold_nodup_aux (l : List SAFEntry) (acc : List (String × SAFEntry))
    (hnd : (l.map (fun e => e.name)).Nodup)
    (hdisj : ∀ e ∈ l, acc.any (fun p => p.1 = e.name) = false) :
    l.foldl (fun m e => insertLWW m e.name e) acc =
      acc ++ l.map (fun e => (e.name, e)) := by
  induction l generalizing acc with
  | nil => simp
  | cons e l' ih =>
    simp only [List.map_cons, List.nodup_cons] at hnd
    rw [List.foldl_cons, insertLWW_fresh acc e.name e (hdisj e (List.mem_cons_self _ _))]
    rw [ih (acc ++ [(e.name, e)]) hnd.2]
    · simp
    · intro e' he'
      simp only [List.any_append, Bool.or_eq_false_iff]
      refine ⟨hdisj e' (List.mem_cons_of_mem _ he'), ?_⟩
      simp only [List.any_cons, List.any_nil, Bool.or_false, decide_eq_false_iff_not]
      intro hne
      exact hnd.1 (List.mem_map.mpr ⟨e', he', hne.symm⟩)

theorem lsFold_nodup (l : List SAFEntry)
    (hnd : (l.map (fun e => e.name)).Nodup) :
    lsFold l = l.map (fun e => (e.name, e)) := by
  unfold lsFold
  rw [lsFold_nodup_aux l [] hnd (fun e _ => rfl)]
  simp

theorem lookupKey_entryMap (cs : List (String × Node)) (puri : Loc) (ptype : SAFType)
    (n : String) :
    lookupKey (cs.map (fun p => (p.1, entryOf puri ptype p.1 p.2))) n =
      (lookupChild cs n).map (fun c => entryOf puri ptype n c) := by
  induction cs with
  | nil => rfl
  | cons hd tl ih =>
    obtain ⟨m, c⟩ := hd
    by_cases hm : m = n
    · subst hm
      simp [lookupKey_cons, lookupChild_cons]
    · simp [lookupKey_cons, lookupChild_cons, hm, ih]

theorem ls_ok (st : Store) (e : SAFEntry) (cs : List (String × Node))
    (h : lookupPath (st.tree e.uri.side) e.uri.path = some (.dir cs)) :
    ls st e = (.ok (cs.map (fun p => entryOf e.uri e.file_type p.1 p.2)), [.lsOp e.uri]) := by
  unfold ls
  rw [h]

theorem ls_map_ok (st : Store) (e : SAFEntry) (cs : List (String × Node))
    (h : lookupPath (st.tree e.uri.side) e.uri.path = some (.dir cs))
    (hnd : nodupKeys cs = true) :
    ls_map st e =
      (.ok (cs.map (fun p => (p.1, entryOf e.uri e.file_type p.1 p.2))), [.lsOp e.uri]) := by
  have hls := ls_ok st e cs h
  simp only [ls_map, hls]
  have hnames : ((cs.map (fun p => entryOf e.uri e.file_type p.1 p.2)).map
      (fun e => e.name)) = cs.map Prod.fst := by
    rw [List.map_map]
    apply List.map_congr_left
    intro p _
    simp [Function.comp, entryOf_name]
  rw [lsFold_nodup _ (by rw [hnames]; exact (nodupKeys_iff_nodup cs).mp hnd)]
  rw [List.map_map]
  congr 2
  apply List.map_congr_left
  intro p _
  simp [Function.comp, entryOf_name]

/-! ### Primitive-effect lemmas -/

theorem nodeModify_at (t : Node) (p : List String) (s : Node) (f : Node → Option Node)
    (h : lookupPath t p = some s) :
    nodeModify t p f = (f s).map (setPath t p) := by
  have hloc := nodeModify_localize t p [] s f h
  rw [List.append_nil] at hloc
  rw [nodeModify_nil] at hloc
  exact hloc

theorem setChild_then_replace (cs : List (String × Node)) (n : String) (x y : Node) :
    replaceChildNode (setChild cs n x) n y = setChild cs n y := by
  unfold setChild
  by_cases ha : cs.any (fun p => p.1 = n)
  · rw [if_pos ha, if_pos ha]
    exact replaceChildNode_replaceChildNode cs n x y
  · rw [if_neg ha, if_neg ha]
    unfold replaceChildNode
    rw [List.map_append]
    have hfalse : cs.any (fun p => p.1 = n) = false := by
      cases hb : cs.any (fun p => p.1 = n) with
      | false => rfl
      | true => exact absurd hb ha
    have h1 : (cs.map (fun p => if p.1 = n then (p.1, y) else p)) = cs := by
      have habs := replaceChildNode_absent cs n y hfalse
      unfold replaceChildNode at habs
      exact habs
    rw [h1]
    have h2 : (List.map (fun p => if p.1 = n then (p.1, y) else p) [(n, x)]) = [(n, y)] := by
      simp
    rw [h2]

theorem mkdir_ok (st : Store) (puri : Loc) (pcs : List (String × Node)) (name : String)
    (h : lookupPath (st.tree puri.side) puri.path = some (.dir pcs)) :
    mkdir st puri .DIR name =
      (.ok ⟨⟨puri.side, puri.path ++ [name]⟩, name, .DIR, some (puri, .DIR), none, none⟩,
        st.setTree puri.side
          (setPath (st.tree puri.side) puri.path (.dir (setChild pcs name (.dir [])))),
        [.mkdirOp puri name]) := by
  unfold mkdir
  rw [if_neg (by simp)]
  rw [nodeModify_at _ _ _ _ h]
  rfl

theorem saf_read_ok (st : Store) (e : SAFEntry) (c : List Nat) (m : Option Int)
    (hft : e.file_type = .FILE)
    (h : lookupPath (st.tree e.uri.side) e.uri.path = some (.file c m)) :
    saf_read st e = (.ok c, [.readOp e.uri]) := by
  unfold saf_read
  rw [if_neg (by simp [hft]), h]

theorem saf_write_ok (st : Store) (e : SAFEntry) (c0 : List Nat) (m0 : Option Int)
    (c : List Nat) (hft : e.file_type = .FILE)
    (h : lookupPath (st.tree e.uri.side) e.uri.path = some (.file c0 m0)) :
    saf_write st e c =
      (.ok (), (st.setTree e.uri.side
          (setPath (st.tree e.uri.side) e.uri.path (.file c (some st.now)))).tick,
        [.writeOp e.uri c]) := by
  unfold saf_write
  rw [if_neg (by simp [hft])]
  rw [nodeModify_at _ _ _ _ h]
  rfl

theorem rm_ok (st : Store) (e : SAFEntry) (t' : Node)
    (h : rmAt (st.tree e.uri.side) e.uri.path = some t') :
    rm st e = (.ok (), st.setTree e.uri.side t', [.rmOp e.uri]) := by
  unfold rm
  rw [h]

theorem mkfile_ok (st : Store) (puri : Loc) (pcs : List (String × Node)) (name : String)
    (c : List Nat)
    (h : lookupPath (st.tree puri.side) puri.path = some (.dir pcs)) :
    mkfile st puri .DIR name (some c) =
      (.ok ⟨⟨puri.side, puri.path ++ [name]⟩, name, .FILE, some (puri, .DIR), none, none⟩,
        ((st.setTree puri.side
          (setPath (st.tree puri.side) puri.path
            (.dir (setChild pcs name (.file c (some (st.now + 1))))))).tick).tick,
        [.mkfileOp puri name, .writeOp ⟨puri.side, puri.path ++ [name]⟩ c]) := by
  have hmod : nodeModify (st.tree puri.side) puri.path
      (insertDirChild name (.file [] (some st.now))) =
      some (setPath (st.tree puri.side) puri.path
        (.dir (setChild pcs name (.file [] (some st.now))))) := by
    rw [nodeModify_at _ _ _ _ h]
    rfl
  set t1 := setPath (st.tree puri.side) puri.path
    (.dir (setChild pcs name (.file [] (some st.now)))) with ht1
  have hst1tree : ((st.setTree puri.side t1).tick).tree puri.side = t1 := by
    rw [tree_tick, tree_setTree_same]
  have hlook1 : lookupPath t1 puri.path =
      some (.dir (setChild pcs name (.file [] (some st.now)))) :=
    lookupPath_setPath_self _ _ _ _ h
  have hlookf : lookupPath t1 (puri.path ++ [name]) = some (.file [] (some st.now)) := by
    rw [lookupPath_append, hlook1]
    have hlc : lookupChild (setChild pcs name (Node.file [] (some st.now))) name =
        some (Node.file [] (some st.now)) := by
      rw [lookupChild_setChild, if_pos rfl]
    show lookupPath (Node.dir (setChild pcs name (Node.file [] (some st.now)))) [name] = _
    rw [lookupPath_cons_dir_some _ name [] _ hlc, lookupPath_nil]
  have hw := saf_write_ok ((st.setTree puri.side t1).tick)
    ⟨⟨puri.side, puri.path ++ [name]⟩, name, .FILE, some (puri, .DIR), none, none⟩
    [] (some st.now) c rfl (by rw [hst1tree]; exact hlookf)
  have hnow : ((st.setTree puri.side t1).tick).now = st.now + 1 := by
    show (st.setTree puri.side t1).now + 1 = st.now + 1
    rw [now_setTree]
  have hsp : setPath (((st.setTree puri.side t1).tick).tree puri.side)
      (puri.path ++ [name]) (.file c (some (((st.setTree puri.side t1).tick).now))) =
      setPath (st.tree puri.side) puri.path
        (.dir (setChild pcs name (.file c (some (st.now + 1))))) := by
    rw [hst1tree, hnow]
    rw [setPath_append t1 puri.path [name] _ _ hlook1]
    rw [ht1, setPath_setPath]
    congr 1
    have hlc : lookupChild (setChild pcs name (.file [] (some st.now))) name =
        some (.file [] (some st.now)) := by
      rw [lookupChild_setChild, if_pos rfl]
    rw [setPath_cons_dir_some _ name [] _ _ hlc, setPath_nil]
    rw [setChild_then_replace]
  unfold mkfile
  rw [if_neg (by simp)]
  simp only [hmod]
  rw [hw]
  rw [hsp]
  rw [setTree_tick_setTree]

/-! ### Materializer and file-update characterizations -/

theorem rmAt_child (t : Node) (dp : List String) (cur : List (String × Node))
    (n : String) (c : Node) (hlook : lookupPath t dp = some (.dir cur))
    (hc : lookupChild cur n = some c) :
    rmAt t (dp ++ [n]) = some (setPath t dp (.dir (removeChild cur n))) := by
  rw [rmAt_localize t dp [n] _ (by simp) hlook]
  rw [rmAt_single_dir, hc]
  rfl

theorem create_dest_to_match_dir (st : Store) (source dest_parent : SAFEntry)
    (pcs : List (String × Node))
    (hsk : source.file_type = .DIR)
    (hpk : dest_parent.file_type = .DIR)
    (h : lookupPath (st.tree dest_parent.uri.side) dest_parent.uri.path =
      some (.dir pcs)) :
    create_dest_to_match st source dest_parent =
      (.ok (some (source, ⟨⟨dest_parent.uri.side, dest_parent.uri.path ++ [source.name]⟩,
          source.name, .DIR, some (dest_parent.uri, .DIR), none, none⟩)),
        st.setTree dest_parent.uri.side
          (setPath (st.tree dest_parent.uri.side) dest_parent.uri.path
            (.dir (setChild pcs source.name (.dir [])))),
        [.mkdirOp dest_parent.uri source.name]) := by
  unfold create_dest_to_match
  rw [if_pos hsk, hpk]
  simp only [mkdir_ok st dest_parent.uri pcs source.name h]

theorem create_dest_to_match_file (st : Store) (source dest_parent : SAFEntry)
    (pcs : List (String × Node)) (c : List Nat) (m : Option Int)
    (hsk : source.file_type = .FILE)
    (hpk : dest_parent.file_type = .DIR)
    (hs : lookupPath (st.tree source.uri.side) source.uri.path = some (.file c m))
    (h : lookupPath (st.tree dest_parent.uri.side) dest_parent.uri.path =
      some (.dir pcs)) :
    create_dest_to_match st source dest_parent =
      (.ok none,
        ((st.setTree dest_parent.uri.side
          (setPath (st.tree dest_parent.uri.side) dest_parent.uri.path
            (.dir (setChild pcs source.name (.file c (some (st.now + 1))))))).tick).tick,
        [.readOp source.uri, .mkfileOp dest_parent.uri source.name,
          .writeOp ⟨dest_parent.uri.side, dest_parent.uri.path ++ [source.name]⟩ c]) := by
  unfold create_dest_to_match
  rw [if_neg (by simp [hsk]), hpk]
  simp only [saf_read_ok st source c m hsk hs]
  simp only [mkfile_ok st dest_parent.uri pcs source.name c h]
  rfl

theorem fileUpdate_skip (st : Store) (entry de : SAFEntry) (v w : Int)
    (hv : entry.modified = some v) (hl : entry.length = de.length)
    (hw : de.modified = some w) (hgt : v > w) :
    fileUpdate st entry de = ([], st, none) := by
  unfold fileUpdate
  simp only [hv]
  rw [if_pos hl]
  simp only [hw]
  rw [if_pos hgt]

theorem fileUpdate_crash (st : Store) (entry de : SAFEntry) (v : Int)
    (hv : entry.modified = some v) (hl : entry.length = de.length)
    (hw : de.modified = none) :
    fileUpdate st entry de = ([], st, some .typeError) := by
  unfold fileUpdate
  simp only [hv]
  rw [if_pos hl]
  simp only [hw]

theorem fileUpdate_transfer (st : Store) (entry de : SAFEntry)
    (c : List Nat) (m : Option Int) (c0 : List Nat) (m0 : Option Int)
    (hek : entry.file_type = .FILE) (hdk : de.file_type = .FILE)
    (hs : lookupPath (st.tree entry.uri.side) entry.uri.path = some (.file c m))
    (hd : lookupPath (st.tree de.uri.side) de.uri.path = some (.file c0 m0))
    (hcase : entry.modified = none ∨ ¬ entry.length = de.length ∨
      (∃ v w, entry.modified = some v ∧ de.modified = some w ∧ ¬ v > w)) :
    fileUpdate st entry de =
      ([.readOp entry.uri, .writeOp de.uri c],
        (st.setTree de.uri.side
          (setPath (st.tree de.uri.side) de.uri.path (.file c (some st.now)))).tick,
        none) := by
  unfold fileUpdate
  rcases hcase with hnone | hlen | ⟨v, w, hv, hw, hle⟩
  · simp only [hnone]
    simp only [saf_read_ok st entry c m hek hs]
    simp only [saf_write_ok st de c0 m0 c hdk hd]
    rfl
  · rcases hm : entry.modified with _ | v
    · simp only [hm]
      simp only [saf_read_ok st entry c m hek hs]
      simp only [saf_write_ok st de c0 m0 c hdk hd]
      rfl
    · simp only [hm]
      rw [if_neg hlen]
      simp only [saf_read_ok st entry c m hek hs]
      simp only [saf_write_ok st de c0 m0 c hdk hd]
      rfl
  · simp only [hv]
    by_cases hl : entry.length = de.length
    · rw [if_pos hl]
      simp only [hw]
      rw [if_neg hle]
      simp only [saf_read_ok st entry c m hek hs]
      simp only [saf_write_ok st de c0 m0 c hdk hd]
      rfl
    · rw [if_neg hl]
      simp only [saf_read_ok st entry c m hek hs]
      simp only [saf_write_ok st de c0 m0 c hdk hd]
      rfl

theorem dst_tick (st : Store) : st.tick.dst = st.dst := rfl

theorem tree_s (st : Store) : st.tree .s = st.src := rfl

theorem tree_d (st : Store) : st.tree .d = st.dst := rfl

theorem mem_lookupChild (cs : List (String × Node)) (n : String) (c : Node)
    (hnd : nodupKeys cs = true) (h : (n, c) ∈ cs) : lookupChild cs n = some c := by
  induction cs with
  | nil => cases h
  | cons hd tl ih =>
    obtain ⟨m, a⟩ := hd
    simp only [nodupKeys, Bool.and_eq_true, Bool.not_eq_true'] at hnd
    rcases List.mem_cons.mp h with heq | hmem
    · cases heq
      rw [lookupChild_cons, if_pos rfl]
    · rw [lookupChild_cons]
      by_cases hm : m = n
      · subst hm
        have : tl.any (fun p => p.1 = m) = true :=
          List.any_eq_true.mpr ⟨(m, c), hmem, by simp⟩
        rw [hnd.1] at this
        cases this
      · rw [if_neg hm]
        exact ih hnd.2 hmem


theorem mem_setChild (cs : List (String × Node)) (n : String) (t : Node)
    (q : String × Node) (h : q ∈ setChild cs n t) : q.2 = t ∨ q ∈ cs := by
  unfold setChild at h
  by_cases ha : cs.any (fun p => p.1 = n)
  · rw [if_pos ha] at h
    obtain ⟨r, hr, hrq⟩ := List.mem_map.mp h
    by_cases hk : r.1 = n
    · rw [if_pos hk] at hrq
      left
      rw [← hrq]
    · rw [if_neg hk] at hrq
      right
      rw [← hrq]
      exact hr
  · rw [if_neg ha] at h
    rcases List.mem_append.mp h with hl | hr
    · right; exact hl
    · left
      simp only [List.mem_singleton] at hr
      rw [hr]

theorem mem_removeChild (cs : List (String × Node)) (n : String)
    (q : String × Node) (h : q ∈ removeChild cs n) : q ∈ cs :=
  List.mem_of_mem_filter h

theorem mem_replaceChildNode (cs : List (String × Node)) (n : String) (t : Node)
    (q : String × Node) (h : q ∈ replaceChildNode cs n t) : q.2 = t ∨ q ∈ cs := by
  unfold replaceChildNode at h
  obtain ⟨r, hr, hrq⟩ := List.mem_map.mp h
  by_cases hk : r.1 = n
  · rw [if_pos hk] at hrq
    left
    rw [← hrq]
  · rw [if_neg hk] at hrq
    right
    rw [← hrq]
    exact hr

theorem Wf_dir_setChild (cs : List (String × Node)) (n : String) (t : Node)
    (hwf : Wf (.dir cs)) (ht : Wf t) : Wf (.dir (setChild cs n t)) := by
  obtain ⟨hnd, hall⟩ := (Wf_dir_iff cs).mp hwf
  rw [Wf_dir_iff]
  refine ⟨nodupKeys_setChild cs n t hnd, ?_⟩
  intro q hq
  rcases mem_setChild cs n t q hq with h2 | h2
  · rw [h2]; exact ht
  · exact hall q h2

theorem Wf_dir_removeChild (cs : List (String × Node)) (n : String)
    (hwf : Wf (.dir cs)) : Wf (.dir (removeChild cs n)) := by
  obtain ⟨hnd, hall⟩ := (Wf_dir_iff cs).mp hwf
  rw [Wf_dir_iff]
  exact ⟨nodupKeys_removeChild cs n hnd, fun q hq => hall q (mem_removeChild cs n q hq)⟩

theorem Wf_dir_replaceChildNode (cs : List (String × Node)) (n : String) (t : Node)
    (hwf : Wf (.dir cs)) (ht : Wf t) : Wf (.dir (replaceChildNode cs n t)) := by
  obtain ⟨hnd, hall⟩ := (Wf_dir_iff cs).mp hwf
  rw [Wf_dir_iff]
  refine ⟨nodupKeys_replaceChildNode cs n t hnd, ?_⟩
  intro q hq
  rcases mem_replaceChildNode cs n t q hq with h2 | h2
  · rw [h2]; exact ht
  · exact hall q h2

theorem processSrc_spec (s d : SAFEntry) (sp dp : List String)
    (scs dcs : List (String × Node)) (L : List (String × Node)) (st : Store)
    (cur : List (String × Node)) (tr : List Op) (P : List (SAFEntry × SAFEntry))
    (st' : Store)
    (hsuri : s.uri = ⟨.s, sp⟩) (hduri : d.uri = ⟨.d, dp⟩) (hdft : d.file_type = .DIR)
    (hsrc : lookupPath st.src sp = some (.dir scs))
    (hdst : lookupPath st.dst dp = some (.dir cur))
    (hwfd : Wf st.dst)
    (hLsub : ∀ q ∈ L, lookupChild scs q.1 = some q.2)
    (hLnd : (L.map Prod.fst).Nodup)
    (hcur : ∀ q ∈ L, lookupChild cur q.1 = lookupChild dcs q.1)
    (hrun : processSrc d (entriesOf d dcs) st (entriesOf s L) = (tr, P, st', none)) :
    ∃ cur',
      st'.src = st.src ∧
      st'.dst = setPath st.dst dp (.dir cur') ∧
      Wf st'.dst ∧
      lookupPath st'.dst dp = some (.dir cur') ∧
      (∀ n, n ∉ L.map Prod.fst → lookupChild cur' n = lookupChild cur n) ∧
      (∀ q ∈ L, srcOutcome dcs cur' q.1 q.2) ∧
      P = L.filterMap (pushOf s d) ∧
      (∀ lq, Op.rmOp lq ∈ tr → ∃ n, n ∈ L.map Prod.fst ∧ lq = ⟨.d, dp ++ [n]⟩) := by
  induction L generalizing st cur tr P st' with
  | nil =>
    simp only [entriesOf, List.map_nil, processSrc, Prod.mk.injEq] at hrun
    obtain ⟨rfl, rfl, rfl, -⟩ := hrun
    refine ⟨cur, rfl, (setPath_self st.dst dp (.dir cur) hwfd hdst).symm, hwfd, hdst,
      fun n _ => rfl, by simp, by simp, by simp⟩
  | cons q0 L' ih =>
    obtain ⟨n0, c0⟩ := q0
    rw [List.map_cons, List.nodup_cons] at hLnd
    obtain ⟨hn0, hLnd'⟩ := hLnd
    have hc0 : lookupChild scs n0 = some c0 := hLsub (n0, c0) (List.mem_cons_self _ _)
    have hcur0 : lookupChild cur n0 = lookupChild dcs n0 :=
      hcur (n0, c0) (List.mem_cons_self _ _)
    simp only [entriesOf, List.map_cons, processSrc] at hrun
    have hwfcur : Wf (Node.dir cur) := Wf_lookupPath st.dst dp _ hwfd hdst
    have hk := lookupKey_entryMap dcs d.uri d.file_type n0
    cases hdn : lookupChild dcs n0 with
    | none =>
      have hk0 : lookupKey (dcs.map (fun p => (p.1, entryOf d.uri d.file_type p.1 p.2))) n0 =
          none := by rw [hk, hdn]; rfl
      rw [hk0] at hrun
      cases c0 with
      | file cc cm =>
        have hsrcchild : lookupPath st.src (sp ++ [n0]) = some (Node.file cc cm) := by
          rw [lookupPath_append, hsrc]
          show lookupPath (Node.dir scs) [n0] = _
          rw [lookupPath_cons_dir_some scs n0 [] _ hc0, lookupPath_nil]
        have hcre := create_dest_to_match_file st
          (entryOf s.uri s.file_type n0 (.file cc cm)) d cur cc cm rfl hdft
          (by rw [entryOf_uri, hsuri]; exact hsrcchild)
          (by rw [hduri]; exact hdst)
        simp only [hcre, entryOf_name] at hrun
        have hside : d.uri.side = Side.d := by rw [hduri]
        have hpath : d.uri.path = dp := by rw [hduri]
        rw [hside, hpath, tree_d] at hrun
        set F := Node.file cc (some (st.now + 1)) with hF
        set cur1 := setChild cur n0 F with hcur1
        set ST1 := (st.setTree .d (setPath st.dst dp (.dir cur1))).tick.tick with hST1
        rcases hrec : processSrc d
            (dcs.map (fun p => (p.1, entryOf d.uri d.file_type p.1 p.2))) ST1
            (L'.map (fun p => (p.1, entryOf s.uri s.file_type p.1 p.2))) with
          ⟨tr2, ps2, st2, e2⟩
        simp only [hrec, Prod.mk.injEq] at hrun
        obtain ⟨htr, hPeq, hsteq, he2⟩ := hrun
        subst hsteq
        subst he2
        have hwf1 : Wf ST1.dst :=
          Wf_setPath st.dst dp _ hwfd (Wf_dir_setChild cur n0 F hwfcur (Wf_file _ _))
        have hlook1 : lookupPath ST1.dst dp = some (.dir cur1) :=
          lookupPath_setPath_self st.dst dp _ _ hdst
        obtain ⟨cur', ihsrc, ihdst, ihwf, ihlook, ihframe, ihout, ihP, ihrm⟩ :=
          ih ST1 cur1 tr2 ps2 st2 hsrc hlook1 hwf1
            (fun q hq => hLsub q (List.mem_cons_of_mem _ hq)) hLnd'
            (fun q hq => by
              rw [hcur1, lookupChild_setChild]
              rw [if_neg (show ¬ q.1 = n0 from fun hqn =>
                hn0 (by rw [← hqn]; exact List.mem_map.mpr ⟨q, hq, rfl⟩))]
              exact hcur q (List.mem_cons_of_mem _ hq))
            hrec
        refine ⟨cur', by rw [ihsrc]; rfl, ?_, ihwf, ihlook, ?_, ?_, ?_, ?_⟩
        · rw [ihdst]
          show setPath (setPath st.dst dp (.dir cur1)) dp (.dir cur') = _
          rw [setPath_setPath]
        · intro n hn
          simp only [List.map_cons, List.mem_cons] at hn
          push_neg at hn
          rw [ihframe n (by simpa using hn.2), hcur1, lookupChild_setChild,
            if_neg hn.1]
        · intro q hq
          rcases List.mem_cons.mp hq with rfl | hq'
          · show srcOutcome dcs cur' n0 (.file cc cm)
            refine ⟨cc, some (st.now + 1), ?_, Or.inl rfl, fun _ => rfl⟩
            rw [ihframe n0 (by simpa using hn0), hcur1, lookupChild_setChild, if_pos rfl]
          · exact ihout q hq'
        · rw [← hPeq, ihP]
          simp [pushOf]
        · intro lq hlq
          rw [← htr] at hlq
          rcases List.mem_append.mp hlq with h1 | h1
          · simp at h1
          · obtain ⟨n, hnmem, hneq⟩ := ihrm lq h1
            exact ⟨n, by simp [hnmem], hneq⟩
      | dir scn =>
        have hcre := create_dest_to_match_dir st
          (entryOf s.uri s.file_type n0 (.dir scn)) d cur rfl hdft
          (by rw [hduri]; exact hdst)
        simp only [hcre, entryOf_name] at hrun
        have hside : d.uri.side = Side.d := by rw [hduri]
        have hpath : d.uri.path = dp := by rw [hduri]
        rw [hside, hpath, tree_d] at hrun
        set cur1 := setChild cur n0 (Node.dir []) with hcur1
        set ST1 := st.setTree .d (setPath st.dst dp (.dir cur1)) with hST1
        rcases hrec : processSrc d
            (dcs.map (fun p => (p.1, entryOf d.uri d.file_type p.1 p.2))) ST1
            (L'.map (fun p => (p.1, entryOf s.uri s.file_type p.1 p.2))) with
          ⟨tr2, ps2, st2, e2⟩
        simp only [hrec, Prod.mk.injEq] at hrun
        obtain ⟨htr, hPeq, hsteq, he2⟩ := hrun
        subst hsteq
        subst he2
        have hwf1 : Wf ST1.dst :=
          Wf_setPath st.dst dp _ hwfd
            (Wf_dir_setChild cur n0 (Node.dir []) hwfcur ((Wf_dir_iff []).mpr ⟨rfl, by simp⟩))
        have hlook1 : lookupPath ST1.dst dp = some (.dir cur1) :=
          lookupPath_setPath_self st.dst dp _ _ hdst
        obtain ⟨cur', ihsrc, ihdst, ihwf, ihlook, ihframe, ihout, ihP, ihrm⟩ :=
          ih ST1 cur1 tr2 ps2 st2 hsrc hlook1 hwf1
            (fun q hq => hLsub q (List.mem_cons_of_mem _ hq)) hLnd'
            (fun q hq => by
              rw [hcur1, lookupChild_setChild]
              rw [if_neg (show ¬ q.1 = n0 from fun hqn =>
                hn0 (by rw [← hqn]; exact List.mem_map.mpr ⟨q, hq, rfl⟩))]
              exact hcur q (List.mem_cons_of_mem _ hq))
            hrec
        refine ⟨cur', by rw [ihsrc]; rfl, ?_, ihwf, ihlook, ?_, ?_, ?_, ?_⟩
        · rw [ihdst]
          show setPath (setPath st.dst dp (.dir cur1)) dp (.dir cur') = _
          rw [setPath_setPath]
        · intro n hn
          simp only [List.map_cons, List.mem_cons] at hn
          push_neg at hn
          rw [ihframe n (by simpa using hn.2), hcur1, lookupChild_setChild,
            if_neg hn.1]
        · intro q hq
          rcases List.mem_cons.mp hq with rfl | hq'
          · show srcOutcome dcs cur' n0 (.dir scn)
            simp only [srcOutcome, hdn]
            rw [ihframe n0 (by simpa using hn0), hcur1, lookupChild_setChild, if_pos rfl]
          · exact ihout q hq'
        · rw [← hPeq, ihP]
          simp only [List.filterMap_cons, pushOf]
          simp [dirDestEntry, hside, hpath, hdft]
        · intro lq hlq
          rw [← htr] at hlq
          rcases List.mem_append.mp hlq with h1 | h1
          · simp at h1
          · obtain ⟨n, hnmem, hneq⟩ := ihrm lq h1
            exact ⟨n, by simp [hnmem], hneq⟩
    | some dnode =>
      have hk1 : lookupKey (dcs.map (fun p => (p.1, entryOf d.uri d.file_type p.1 p.2))) n0 =
          some (entryOf d.uri d.file_type n0 dnode) := by rw [hk, hdn]; rfl
      simp only [hk1] at hrun
      have hside : d.uri.side = Side.d := by rw [hduri]
      have hpath : d.uri.path = dp := by rw [hduri]
      cases c0 with
      | dir scn =>
        cases dnode with
        | dir dcn =>
          -- same kind, both directories: push the pair, store untouched
          rw [if_neg (show ¬ ((entryOf s.uri s.file_type n0 (.dir scn)).file_type ≠
              (entryOf d.uri d.file_type n0 (.dir dcn)).file_type) by simp [entryOf]),
            if_pos (show (entryOf s.uri s.file_type n0 (.dir scn)).file_type = .DIR from rfl)]
            at hrun
          rcases hrec : processSrc d
              (dcs.map (fun p => (p.1, entryOf d.uri d.file_type p.1 p.2))) st
              (L'.map (fun p => (p.1, entryOf s.uri s.file_type p.1 p.2))) with
            ⟨tr2, ps2, st2, e2⟩
          simp only [hrec, Prod.mk.injEq] at hrun
          obtain ⟨htr, hPeq, hsteq, he2⟩ := hrun
          subst hsteq
          subst he2
          obtain ⟨cur', ihsrc, ihdst, ihwf, ihlook, ihframe, ihout, ihP, ihrm⟩ :=
            ih st cur tr2 ps2 st2 hsrc hdst hwfd
              (fun q hq => hLsub q (List.mem_cons_of_mem _ hq)) hLnd'
              (fun q hq => hcur q (List.mem_cons_of_mem _ hq))
              hrec
          refine ⟨cur', ihsrc, ihdst, ihwf, ihlook, ?_, ?_, ?_, ?_⟩
          · intro n hn
            simp only [List.map_cons, List.mem_cons] at hn
            push_neg at hn
            exact ihframe n (by simpa using hn.2)
          · intro q hq
            rcases List.mem_cons.mp hq with rfl | hq'
            · show srcOutcome dcs cur' n0 (.dir scn)
              simp only [srcOutcome, hdn]
              rw [ihframe n0 (by simpa using hn0), hcur0, hdn]
            · exact ihout q hq'
          · rw [← hPeq, ihP]
            simp [pushOf, dirDestEntry, entryOf]
          · intro lq hlq
            rw [← htr] at hlq
            obtain ⟨n, hnmem, hneq⟩ := ihrm lq hlq
            exact ⟨n, by simp [hnmem], hneq⟩
        | file c2 m2 =>
          -- kind mismatch: remove the destination file, then create the directory
          rw [if_pos (show (entryOf s.uri s.file_type n0 (.dir scn)).file_type ≠
              (entryOf d.uri d.file_type n0 (.file c2 m2)).file_type by simp [entryOf])]
            at hrun
          have hdchild : lookupChild cur n0 = some (Node.file c2 m2) := by
            rw [hcur0, hdn]
          have hrmt : rmAt (st.tree (entryOf d.uri d.file_type n0
              (.file c2 m2)).uri.side) (entryOf d.uri d.file_type n0
              (.file c2 m2)).uri.path =
              some (setPath st.dst dp (.dir (removeChild cur n0))) := by
            show rmAt (st.tree d.uri.side) (d.uri.path ++ [n0]) = _
            rw [hside, hpath]
            show rmAt st.dst (dp ++ [n0]) = _
            exact rmAt_child st.dst dp cur n0 _ hdst hdchild
          have hrmE := rm_ok st (entryOf d.uri d.file_type n0 (.file c2 m2))
            (setPath st.dst dp (.dir (removeChild cur n0))) hrmt
          simp only [hrmE, entryOf_uri, hside, hpath] at hrun
          set curb := removeChild cur n0 with hcurb
          set STB := st.setTree Side.d (setPath st.dst dp (.dir curb)) with hSTB
          have hSTBdst : STB.dst = setPath st.dst dp (.dir curb) := rfl
          have hSTBsrc : STB.src = st.src := rfl
          have hlookb : lookupPath STB.dst dp = some (.dir curb) :=
            lookupPath_setPath_self st.dst dp _ _ hdst
          have hwfb : Wf STB.dst :=
            Wf_setPath st.dst dp _ hwfd (Wf_dir_removeChild cur n0 hwfcur)
          have hcre := create_dest_to_match_dir STB
            (entryOf s.uri s.file_type n0 (.dir scn)) d curb rfl hdft
            (by rw [hduri]; exact hlookb)
          have htreeb : STB.tree Side.d = setPath st.dst dp (.dir curb) := rfl
          simp only [hcre, entryOf_name, hside, hpath, htreeb] at hrun
          set cur1 := setChild curb n0 (Node.dir []) with hcur1
          rcases hrec : processSrc d
              (dcs.map (fun p => (p.1, entryOf d.uri d.file_type p.1 p.2)))
              (STB.setTree Side.d (setPath (setPath st.dst dp (.dir curb)) dp (.dir cur1)))
              (L'.map (fun p => (p.1, entryOf s.uri s.file_type p.1 p.2))) with
            ⟨tr2, ps2, st2, e2⟩
          simp only [hrec, Prod.mk.injEq] at hrun
          obtain ⟨htr, hPeq, hsteq, he2⟩ := hrun
          subst hsteq
          subst he2
          have hs1dst : (STB.setTree Side.d
              (setPath (setPath st.dst dp (.dir curb)) dp (.dir cur1))).dst =
              setPath st.dst dp (.dir cur1) := by
            show setPath (setPath st.dst dp (.dir curb)) dp (.dir cur1) = _
            rw [setPath_setPath]
          have hs1src : (STB.setTree Side.d
              (setPath (setPath st.dst dp (.dir curb)) dp (.dir cur1))).src = st.src := rfl
          have hwf1 : Wf (setPath st.dst dp (.dir cur1)) :=
            Wf_setPath st.dst dp _ hwfd
              (Wf_dir_setChild curb n0 (Node.dir [])
                (Wf_dir_removeChild cur n0 hwfcur) ((Wf_dir_iff []).mpr ⟨rfl, by simp⟩))
          have hlook1 : lookupPath (setPath st.dst dp (.dir cur1)) dp = some (.dir cur1) :=
            lookupPath_setPath_self st.dst dp _ _ hdst
          obtain ⟨cur', ihsrc, ihdst, ihwf, ihlook, ihframe, ihout, ihP, ihrm⟩ :=
            ih (STB.setTree Side.d (setPath (setPath st.dst dp (.dir curb)) dp (.dir cur1)))
              cur1 tr2 ps2 st2 (by rw [hs1src]; exact hsrc) (by rw [hs1dst]; exact hlook1)
              (by rw [hs1dst]; exact hwf1)
              (fun q hq => hLsub q (List.mem_cons_of_mem _ hq)) hLnd'
              (fun q hq => by
                have hq1 : ¬ q.1 = n0 := fun hqn =>
                  hn0 (by rw [← hqn]; exact List.mem_map.mpr ⟨q, hq, rfl⟩)
                rw [hcur1, lookupChild_setChild, if_neg hq1, hcurb,
                  lookupChild_removeChild, if_neg hq1]
                exact hcur q (List.mem_cons_of_mem _ hq))
              hrec
          refine ⟨cur', by rw [ihsrc]; rfl, ?_, ihwf, ihlook, ?_, ?_, ?_, ?_⟩
          · rw [ihdst, hs1dst, setPath_setPath]
          · intro n hn
            simp only [List.map_cons, List.mem_cons] at hn
            push_neg at hn
            rw [ihframe n (by simpa using hn.2), hcur1, lookupChild_setChild,
              if_neg hn.1, hcurb, lookupChild_removeChild, if_neg hn.1]
          · intro q hq
            rcases List.mem_cons.mp hq with rfl | hq'
            · show srcOutcome dcs cur' n0 (.dir scn)
              simp only [srcOutcome, hdn]
              rw [ihframe n0 (by simpa using hn0), hcur1, lookupChild_setChild, if_pos rfl]
            · exact ihout q hq'
          · rw [← hPeq, ihP]
            simp only [List.filterMap_cons, pushOf]
            simp [dirDestEntry, hside, hpath, hdft]
          · intro lq hlq
            rw [← htr] at hlq
            simp only [List.cons_append, List.nil_append, List.mem_cons, Op.rmOp.injEq,
              reduceCtorEq, false_or] at hlq
            rcases hlq with h1 | h1
            · exact ⟨n0, by simp, h1⟩
            · obtain ⟨n, hnmem, hneq⟩ := ihrm lq h1
              exact ⟨n, by simp [hnmem], hneq⟩
      | file cc cm =>
        have hsrcchild : lookupPath st.src (sp ++ [n0]) = some (Node.file cc cm) := by
          rw [lookupPath_append, hsrc]
          show lookupPath (Node.dir scs) [n0] = _
          rw [lookupPath_cons_dir_some scs n0 [] _ hc0, lookupPath_nil]
        cases dnode with
        | dir dcn =>
          -- kind mismatch: remove the destination directory, then create the file
          rw [if_pos (show (entryOf s.uri s.file_type n0 (.file cc cm)).file_type ≠
              (entryOf d.uri d.file_type n0 (.dir dcn)).file_type by simp [entryOf])]
            at hrun
          have hdchild : lookupChild cur n0 = some (Node.dir dcn) := by
            rw [hcur0, hdn]
          have hrmt : rmAt (st.tree (entryOf d.uri d.file_type n0
              (.dir dcn)).uri.side) (entryOf d.uri d.file_type n0
              (.dir dcn)).uri.path =
              some (setPath st.dst dp (.dir (removeChild cur n0))) := by
            show rmAt (st.tree d.uri.side) (d.uri.path ++ [n0]) = _
            rw [hside, hpath]
            show rmAt st.dst (dp ++ [n0]) = _
            exact rmAt_child st.dst dp cur n0 _ hdst hdchild
          have hrmE := rm_ok st (entryOf d.uri d.file_type n0 (.dir dcn))
            (setPath st.dst dp (.dir (removeChild cur n0))) hrmt
          simp only [hrmE, entryOf_uri, hside, hpath] at hrun
          set curb := removeChild cur n0 with hcurb
          set STB := st.setTree Side.d (setPath st.dst dp (.dir curb)) with hSTB
          have hlookb : lookupPath STB.dst dp = some (.dir curb) :=
            lookupPath_setPath_self st.dst dp _ _ hdst
          have hcre := create_dest_to_match_file STB
            (entryOf s.uri s.file_type n0 (.file cc cm)) d curb cc cm rfl hdft
            (by rw [entryOf_uri, hsuri]; exact hsrcchild)
            (by rw [hduri]; exact hlookb)
          have htreeb : STB.tree Side.d = setPath st.dst dp (.dir curb) := rfl
          have hnowb : STB.now = st.now := rfl
          simp only [hcre, entryOf_name, hside, hpath, htreeb, hnowb] at hrun
          set F := Node.file cc (some (st.now + 1)) with hF
          set cur1 := setChild curb n0 F with hcur1
          rcases hrec : processSrc d
              (dcs.map (fun p => (p.1, entryOf d.uri d.file_type p.1 p.2)))
              (((STB.setTree Side.d
                (setPath (setPath st.dst dp (.dir curb)) dp (.dir cur1))).tick).tick)
              (L'.map (fun p => (p.1, entryOf s.uri s.file_type p.1 p.2))) with
            ⟨tr2, ps2, st2, e2⟩
          simp only [hrec, Prod.mk.injEq] at hrun
          obtain ⟨htr, hPeq, hsteq, he2⟩ := hrun
          subst hsteq
          subst he2
          have hs1dst : ((((STB.setTree Side.d
              (setPath (setPath st.dst dp (.dir curb)) dp (.dir cur1))).tick).tick)).dst =
              setPath st.dst dp (.dir cur1) := by
            show setPath (setPath st.dst dp (.dir curb)) dp (.dir cur1) = _
            rw [setPath_setPath]
          have hs1src : ((((STB.setTree Side.d
              (setPath (setPath st.dst dp (.dir curb)) dp (.dir cur1))).tick).tick)).src =
              st.src := rfl
          have hwf1 : Wf (setPath st.dst dp (.dir cur1)) :=
            Wf_setPath st.dst dp _ hwfd
              (Wf_dir_setChild curb n0 F
                (Wf_dir_removeChild cur n0 hwfcur) (Wf_file _ _))
          have hlook1 : lookupPath (setPath st.dst dp (.dir cur1)) dp = some (.dir cur1) :=
            lookupPath_setPath_self st.dst dp _ _ hdst
          obtain ⟨cur', ihsrc, ihdst, ihwf, ihlook, ihframe, ihout, ihP, ihrm⟩ :=
            ih (((STB.setTree Side.d
                (setPath (setPath st.dst dp (.dir curb)) dp (.dir cur1))).tick).tick)
              cur1 tr2 ps2 st2 (by rw [hs1src]; exact hsrc) (by rw [hs1dst]; exact hlook1)
              (by rw [hs1dst]; exact hwf1)
              (fun q hq => hLsub q (List.mem_cons_of_mem _ hq)) hLnd'
              (fun q hq => by
                have hq1 : ¬ q.1 = n0 := fun hqn =>
                  hn0 (by rw [← hqn]; exact List.mem_map.mpr ⟨q, hq, rfl⟩)
                rw [hcur1, lookupChild_setChild, if_neg hq1, hcurb,
                  lookupChild_removeChild, if_neg hq1]
                exact hcur q (List.mem_cons_of_mem _ hq))
              hrec
          refine ⟨cur', by rw [ihsrc]; rfl, ?_, ihwf, ihlook, ?_, ?_, ?_, ?_⟩
          · rw [ihdst, hs1dst, setPath_setPath]
          · intro n hn
            simp only [List.map_cons, List.mem_cons] at hn
            push_neg at hn
            rw [ihframe n (by simpa using hn.2), hcur1, lookupChild_setChild,
              if_neg hn.1, hcurb, lookupChild_removeChild, if_neg hn.1]
          · intro q hq
            rcases List.mem_cons.mp hq with rfl | hq'
            · show srcOutcome dcs cur' n0 (.file cc cm)
              refine ⟨cc, some (st.now + 1), ?_, Or.inl rfl, fun _ => rfl⟩
              rw [ihframe n0 (by simpa using hn0), hcur1, lookupChild_setChild, if_pos rfl]
            · exact ihout q hq'
          · rw [← hPeq, ihP]
            simp [pushOf]
          · intro lq hlq
            rw [← htr] at hlq
            simp only [List.cons_append, List.nil_append, List.mem_cons, Op.rmOp.injEq,
              reduceCtorEq, false_or] at hlq
            rcases hlq with h1 | h1
            · exact ⟨n0, by simp, h1⟩
            · obtain ⟨n, hnmem, hneq⟩ := ihrm lq h1
              exact ⟨n, by simp [hnmem], hneq⟩
        | file c2 m2 =>
          -- same kind, both files: apply the freshness policy
          rw [if_neg (show ¬ ((entryOf s.uri s.file_type n0 (.file cc cm)).file_type ≠
              (entryOf d.uri d.file_type n0 (.file c2 m2)).file_type) by simp [entryOf]),
            if_neg (show ¬ ((entryOf s.uri s.file_type n0 (.file cc cm)).file_type = .DIR)
              by simp [entryOf])] at hrun
          have hdchild : lookupChild cur n0 = some (Node.file c2 m2) := by
            rw [hcur0, hdn]
          have hdstchild : lookupPath st.dst (dp ++ [n0]) = some (Node.file c2 m2) := by
            rw [lookupPath_append, hdst]
            show lookupPath (Node.dir cur) [n0] = _
            rw [lookupPath_cons_dir_some cur n0 [] _ hdchild, lookupPath_nil]
          rcases (Option.eq_none_or_eq_some cm).symm with ⟨v, hcm⟩ | hcm
          ·
            by_cases hlen : cc.length = c2.length
            · rcases Option.eq_none_or_eq_some m2 with hm2 | ⟨w, hm2⟩
              ·
                have hfu := fileUpdate_crash st
                  (entryOf s.uri s.file_type n0 (.file cc cm))
                  (entryOf d.uri d.file_type n0 (.file c2 m2)) v
                  (by show cm = some v; exact hcm)
                  (by show some cc.length = some c2.length; rw [hlen])
                  (by show m2 = none; exact hm2)
                simp only [hfu] at hrun
                simp at hrun
              ·
                by_cases hgt : v > w
                · have hfu := fileUpdate_skip st
                    (entryOf s.uri s.file_type n0 (.file cc cm))
                    (entryOf d.uri d.file_type n0 (.file c2 m2)) v w
                    (by show cm = some v; exact hcm)
                    (by show some cc.length = some c2.length; rw [hlen])
                    (by show m2 = some w; exact hm2) hgt
                  simp only [hfu] at hrun
                  rcases hrec : processSrc d
                      (dcs.map (fun p => (p.1, entryOf d.uri d.file_type p.1 p.2))) st
                      (L'.map (fun p => (p.1, entryOf s.uri s.file_type p.1 p.2))) with
                    ⟨tr2, ps2, st2, e2⟩
                  simp only [hrec, Prod.mk.injEq] at hrun
                  obtain ⟨htr, hPeq, hsteq, he2⟩ := hrun
                  subst hsteq
                  subst he2
                  obtain ⟨cur', ihsrc, ihdst, ihwf, ihlook, ihframe, ihout, ihP, ihrm⟩ :=
                    ih st cur tr2 ps2 st2 hsrc hdst hwfd
                      (fun q hq => hLsub q (List.mem_cons_of_mem _ hq)) hLnd'
                      (fun q hq => hcur q (List.mem_cons_of_mem _ hq))
                      hrec
                  refine ⟨cur', ihsrc, ihdst, ihwf, ihlook, ?_, ?_, ?_, ?_⟩
                  · intro n hn
                    simp only [List.map_cons, List.mem_cons] at hn
                    push_neg at hn
                    exact ihframe n (by simpa using hn.2)
                  · intro q hq
                    rcases List.mem_cons.mp hq with rfl | hq'
                    · show srcOutcome dcs cur' n0 (.file cc cm)
                      refine ⟨c2, m2, ?_, ?_, ?_⟩
                      · rw [ihframe n0 (by simpa using hn0), hcur0, hdn]
                      · exact Or.inr ⟨hlen, v, w, hcm, hm2, hgt⟩
                      · intro _
                        rw [hm2]
                        rfl
                    · exact ihout q hq'
                  · rw [← hPeq, ihP]
                    simp [pushOf]
                  · intro lq hlq
                    rw [← htr] at hlq
                    obtain ⟨n, hnmem, hneq⟩ := ihrm lq hlq
                    exact ⟨n, by simp [hnmem], hneq⟩
                · have hfu := fileUpdate_transfer st
                    (entryOf s.uri s.file_type n0 (.file cc cm))
                    (entryOf d.uri d.file_type n0 (.file c2 m2)) cc cm c2 m2 rfl rfl
                    (by rw [entryOf_uri, hsuri]; exact hsrcchild)
                    (by rw [entryOf_uri, hduri]; exact hdstchild)
                    (Or.inr (Or.inr ⟨v, w, (by show cm = some v; exact hcm),
                      (by show m2 = some w; exact hm2), hgt⟩))
                  simp only [hfu, entryOf_uri, hside, hpath, tree_d] at hrun
                  have hsp : setPath st.dst (dp ++ [n0]) (Node.file cc (some st.now)) =
                      setPath st.dst dp (.dir (replaceChildNode cur n0
                        (Node.file cc (some st.now)))) := by
                    rw [setPath_append st.dst dp [n0] _ _ hdst,
                      setPath_cons_dir_some cur n0 [] _ _ hdchild, setPath_nil]
                  rw [hsp] at hrun
                  set F2 := Node.file cc (some st.now) with hF2
                  set cur1 := replaceChildNode cur n0 F2 with hcur1
                  rcases hrec : processSrc d
                      (dcs.map (fun p => (p.1, entryOf d.uri d.file_type p.1 p.2)))
                      ((st.setTree Side.d (setPath st.dst dp (.dir cur1))).tick)
                      (L'.map (fun p => (p.1, entryOf s.uri s.file_type p.1 p.2))) with
                    ⟨tr2, ps2, st2, e2⟩
                  simp only [hrec, Prod.mk.injEq] at hrun
                  obtain ⟨htr, hPeq, hsteq, he2⟩ := hrun
                  subst hsteq
                  subst he2
                  have hwf1 : Wf ((st.setTree Side.d
                      (setPath st.dst dp (.dir cur1))).tick).dst :=
                    Wf_setPath st.dst dp _ hwfd
                      (Wf_dir_replaceChildNode cur n0 F2 hwfcur (Wf_file _ _))
                  have hlook1 : lookupPath ((st.setTree Side.d
                      (setPath st.dst dp (.dir cur1))).tick).dst dp = some (.dir cur1) :=
                    lookupPath_setPath_self st.dst dp _ _ hdst
                  obtain ⟨cur', ihsrc, ihdst, ihwf, ihlook, ihframe, ihout, ihP, ihrm⟩ :=
                    ih ((st.setTree Side.d (setPath st.dst dp (.dir cur1))).tick)
                      cur1 tr2 ps2 st2 hsrc hlook1 hwf1
                      (fun q hq => hLsub q (List.mem_cons_of_mem _ hq)) hLnd'
                      (fun q hq => by
                        have hq1 : ¬ q.1 = n0 := fun hqn =>
                          hn0 (by rw [← hqn]; exact List.mem_map.mpr ⟨q, hq, rfl⟩)
                        rw [hcur1, lookupChild_replaceChildNode, if_neg hq1]
                        exact hcur q (List.mem_cons_of_mem _ hq))
                      hrec
                  refine ⟨cur', by rw [ihsrc]; rfl, ?_, ihwf, ihlook, ?_, ?_, ?_, ?_⟩
                  · rw [ihdst]
                    show setPath (setPath st.dst dp (.dir cur1)) dp (.dir cur') = _
                    rw [setPath_setPath]
                  · intro n hn
                    simp only [List.map_cons, List.mem_cons] at hn
                    push_neg at hn
                    rw [ihframe n (by simpa using hn.2), hcur1,
                      lookupChild_replaceChildNode, if_neg hn.1]
                  · intro q hq
                    rcases List.mem_cons.mp hq with rfl | hq'
                    · show srcOutcome dcs cur' n0 (.file cc cm)
                      refine ⟨cc, some st.now, ?_, Or.inl rfl, fun _ => rfl⟩
                      rw [ihframe n0 (by simpa using hn0), hcur1,
                        lookupChild_replaceChildNode, if_pos rfl, hdchild]
                      rfl
                    · exact ihout q hq'
                  · rw [← hPeq, ihP]
                    simp [pushOf]
                  · intro lq hlq
                    rw [← htr] at hlq
                    rcases List.mem_append.mp hlq with h1 | h1
                    · simp at h1
                    · obtain ⟨n, hnmem, hneq⟩ := ihrm lq h1
                      exact ⟨n, by simp [hnmem], hneq⟩
            · have hfu := fileUpdate_transfer st
                (entryOf s.uri s.file_type n0 (.file cc cm))
                (entryOf d.uri d.file_type n0 (.file c2 m2)) cc cm c2 m2 rfl rfl
                (by rw [entryOf_uri, hsuri]; exact hsrcchild)
                (by rw [entryOf_uri, hduri]; exact hdstchild)
                (Or.inr (Or.inl (fun h => hlen (Option.some.inj h))))
              simp only [hfu, entryOf_uri, hside, hpath, tree_d] at hrun
              have hsp : setPath st.dst (dp ++ [n0]) (Node.file cc (some st.now)) =
                  setPath st.dst dp (.dir (replaceChildNode cur n0
                    (Node.file cc (some st.now)))) := by
                rw [setPath_append st.dst dp [n0] _ _ hdst,
                  setPath_cons_dir_some cur n0 [] _ _ hdchild, setPath_nil]
              rw [hsp] at hrun
              set F2 := Node.file cc (some st.now) with hF2
              set cur1 := replaceChildNode cur n0 F2 with hcur1
              rcases hrec : processSrc d
                  (dcs.map (fun p => (p.1, entryOf d.uri d.file_type p.1 p.2)))
                  ((st.setTree Side.d (setPath st.dst dp (.dir cur1))).tick)
                  (L'.map (fun p => (p.1, entryOf s.uri s.file_type p.1 p.2))) with
                ⟨tr2, ps2, st2, e2⟩
              simp only [hrec, Prod.mk.injEq] at hrun
              obtain ⟨htr, hPeq, hsteq, he2⟩ := hrun
              subst hsteq
              subst he2
              have hwf1 : Wf ((st.setTree Side.d
                  (setPath st.dst dp (.dir cur1))).tick).dst :=
                Wf_setPath st.dst dp _ hwfd
                  (Wf_dir_replaceChildNode cur n0 F2 hwfcur (Wf_file _ _))
              have hlook1 : lookupPath ((st.setTree Side.d
                  (setPath st.dst dp (.dir cur1))).tick).dst dp = some (.dir cur1) :=
                lookupPath_setPath_self st.dst dp _ _ hdst
              obtain ⟨cur', ihsrc, ihdst, ihwf, ihlook, ihframe, ihout, ihP, ihrm⟩ :=
                ih ((st.setTree Side.d (setPath st.dst dp (.dir cur1))).tick)
                  cur1 tr2 ps2 st2 hsrc hlook1 hwf1
                  (fun q hq => hLsub q (List.mem_cons_of_mem _ hq)) hLnd'
                  (fun q hq => by
                    have hq1 : ¬ q.1 = n0 := fun hqn =>
                      hn0 (by rw [← hqn]; exact List.mem_map.mpr ⟨q, hq, rfl⟩)
                    rw [hcur1, lookupChild_replaceChildNode, if_neg hq1]
                    exact hcur q (List.mem_cons_of_mem _ hq))
                  hrec
              refine ⟨cur', by rw [ihsrc]; rfl, ?_, ihwf, ihlook, ?_, ?_, ?_, ?_⟩
              · rw [ihdst]
                show setPath (setPath st.dst dp (.dir cur1)) dp (.dir cur') = _
                rw [setPath_setPath]
              · intro n hn
                simp only [List.map_cons, List.mem_cons] at hn
                push_neg at hn
                rw [ihframe n (by simpa using hn.2), hcur1,
                  lookupChild_replaceChildNode, if_neg hn.1]
              · intro q hq
                rcases List.mem_cons.mp hq with rfl | hq'
                · show srcOutcome dcs cur' n0 (.file cc cm)
                  refine ⟨cc, some st.now, ?_, Or.inl rfl, fun _ => rfl⟩
                  rw [ihframe n0 (by simpa using hn0), hcur1,
                    lookupChild_replaceChildNode, if_pos rfl, hdchild]
                  rfl
                · exact ihout q hq'
              · rw [← hPeq, ihP]
                simp [pushOf]
              · intro lq hlq
                rw [← htr] at hlq
                rcases List.mem_append.mp hlq with h1 | h1
                · simp at h1
                · obtain ⟨n, hnmem, hneq⟩ := ihrm lq h1
                  exact ⟨n, by simp [hnmem], hneq⟩
          ·
            have hfu := fileUpdate_transfer st
              (entryOf s.uri s.file_type n0 (.file cc cm))
              (entryOf d.uri d.file_type n0 (.file c2 m2)) cc cm c2 m2 rfl rfl
              (by rw [entryOf_uri, hsuri]; exact hsrcchild)
              (by rw [entryOf_uri, hduri]; exact hdstchild)
              (Or.inl (by show cm = none; exact hcm))
            simp only [hfu, entryOf_uri, hside, hpath, tree_d] at hrun
            have hsp : setPath st.dst (dp ++ [n0]) (Node.file cc (some st.now)) =
                setPath st.dst dp (.dir (replaceChildNode cur n0
                  (Node.file cc (some st.now)))) := by
              rw [setPath_append st.dst dp [n0] _ _ hdst,
                setPath_cons_dir_some cur n0 [] _ _ hdchild, setPath_nil]
            rw [hsp] at hrun
            set F2 := Node.file cc (some st.now) with hF2
            set cur1 := replaceChildNode cur n0 F2 with hcur1
            rcases hrec : processSrc d
                (dcs.map (fun p => (p.1, entryOf d.uri d.file_type p.1 p.2)))
                ((st.setTree Side.d (setPath st.dst dp (.dir cur1))).tick)
                (L'.map (fun p => (p.1, entryOf s.uri s.file_type p.1 p.2))) with
              ⟨tr2, ps2, st2, e2⟩
            simp only [hrec, Prod.mk.injEq] at hrun
            obtain ⟨htr, hPeq, hsteq, he2⟩ := hrun
            subst hsteq
            subst he2
            have hwf1 : Wf ((st.setTree Side.d
                (setPath st.dst dp (.dir cur1))).tick).dst :=
              Wf_setPath st.dst dp _ hwfd
                (Wf_dir_replaceChildNode cur n0 F2 hwfcur (Wf_file _ _))
            have hlook1 : lookupPath ((st.setTree Side.d
                (setPath st.dst dp (.dir cur1))).tick).dst dp = some (.dir cur1) :=
              lookupPath_setPath_self st.dst dp _ _ hdst
            obtain ⟨cur', ihsrc, ihdst, ihwf, ihlook, ihframe, ihout, ihP, ihrm⟩ :=
              ih ((st.setTree Side.d (setPath st.dst dp (.dir cur1))).tick)
                cur1 tr2 ps2 st2 hsrc hlook1 hwf1
                (fun q hq => hLsub q (List.mem_cons_of_mem _ hq)) hLnd'
                (fun q hq => by
                  have hq1 : ¬ q.1 = n0 := fun hqn =>
                    hn0 (by rw [← hqn]; exact List.mem_map.mpr ⟨q, hq, rfl⟩)
                  rw [hcur1, lookupChild_replaceChildNode, if_neg hq1]
                  exact hcur q (List.mem_cons_of_mem _ hq))
                hrec
            refine ⟨cur', by rw [ihsrc]; rfl, ?_, ihwf, ihlook, ?_, ?_, ?_, ?_⟩
            · rw [ihdst]
              show setPath (setPath st.dst dp (.dir cur1)) dp (.dir cur') = _
              rw [setPath_setPath]
            · intro n hn
              simp only [List.map_cons, List.mem_cons] at hn
              push_neg at hn
              rw [ihframe n (by simpa using hn.2), hcur1,
                lookupChild_replaceChildNode, if_neg hn.1]
            · intro q hq
              rcases List.mem_cons.mp hq with rfl | hq'
              · show srcOutcome dcs cur' n0 (.file cc cm)
                refine ⟨cc, some st.now, ?_, Or.inl rfl, fun _ => rfl⟩
                rw [ihframe n0 (by simpa using hn0), hcur1,
                  lookupChild_replaceChildNode, if_pos rfl, hdchild]
                rfl
              · exact ihout q hq'
            · rw [← hPeq, ihP]
              simp [pushOf]
            · intro lq hlq
              rw [← htr] at hlq
              rcases List.mem_append.mp hlq with h1 | h1
              · simp at h1
              · obtain ⟨n, hnmem, hneq⟩ := ihrm lq h1
                exact ⟨n, by simp [hnmem], hneq⟩

theorem lookupKey_entriesOf_isSome (e : SAFEntry) (cs : List (String × Node)) (n : String) :
    (lookupKey (entriesOf e cs) n).isSome = (lookupChild cs n).isSome := by
  rw [entriesOf, lookupKey_entryMap]
  cases lookupChild cs n <;> rfl

theorem processDel_spec (s d : SAFEntry) (dp : List String)
    (scs dcs : List (String × Node)) (sm : List (String × SAFEntry))
    (M : List (String × Node)) (st : Store) (cur : List (String × Node))
    (hduri : d.uri = ⟨.d, dp⟩)
    (hsm : ∀ n, (lookupKey sm n).isSome = (lookupChild scs n).isSome)
    (hdst : lookupPath st.dst dp = some (.dir cur))
    (hwfd : Wf st.dst)
    (hMnd : (M.map Prod.fst).Nodup)
    (hcurM : ∀ q ∈ M, (lookupChild scs q.1).isSome = false →
      lookupChild cur q.1 = some q.2) :
    ∃ cur4 st4,
      processDel sm (entriesOf d M) st =
        (M.filterMap (fun q => if (lookupChild scs q.1).isSome then none
          else some (.rmOp ⟨Side.d, dp ++ [q.1]⟩)), st4, none) ∧
      st4.src = st.src ∧
      st4.dst = setPath st.dst dp (.dir cur4) ∧
      Wf st4.dst ∧
      lookupPath st4.dst dp = some (.dir cur4) ∧
      (∀ n, n ∉ M.map Prod.fst → lookupChild cur4 n = lookupChild cur n) ∧
      (∀ q ∈ M, lookupChild cur4 q.1 =
        if (lookupChild scs q.1).isSome then lookupChild cur q.1 else none) := by
  induction M generalizing st cur with
  | nil =>
    refine ⟨cur, st, ?_, rfl, (setPath_self st.dst dp (.dir cur) hwfd hdst).symm, hwfd,
      hdst, fun n _ => rfl, by simp⟩
    simp [entriesOf, processDel]
  | cons q0 M' ih =>
    obtain ⟨n0, c0⟩ := q0
    rw [List.map_cons, List.nodup_cons] at hMnd
    obtain ⟨hn0, hMnd'⟩ := hMnd
    have hstep : processDel sm (entriesOf d ((n0, c0) :: M')) st =
        (if (lookupKey sm n0).isSome then processDel sm (entriesOf d M') st
         else
          match rm st (entryOf d.uri d.file_type n0 c0) with
          | (.error err, st1, ops) => (ops, st1, some err)
          | (.ok _, st1, ops) =>
            match processDel sm (entriesOf d M') st1 with
            | (tr2, st2, e2) => (ops ++ tr2, st2, e2)) := by
      rw [entriesOf, List.map_cons]
      rfl
    cases hscn : (lookupChild scs n0).isSome with
    | true =>
      rw [hstep, if_pos (by rw [hsm, hscn])]
      obtain ⟨cur4, st4, ihrun, ihsrc, ihdst, ihwf, ihlook, ihframe, ihval⟩ :=
        ih st cur hdst hwfd hMnd' (fun q hq => hcurM q (List.mem_cons_of_mem _ hq))
      refine ⟨cur4, st4, ?_, ihsrc, ihdst, ihwf, ihlook, ?_, ?_⟩
      · rw [ihrun]
        simp [hscn]
      · intro n hn
        simp only [List.map_cons, List.mem_cons] at hn
        push_neg at hn
        exact ihframe n (by simpa using hn.2)
      · intro q hq
        rcases List.mem_cons.mp hq with rfl | hq'
        · rw [if_pos hscn]
          exact ihframe n0 (by simpa using hn0)
        · exact ihval q hq'
    | false =>
      rw [hstep, if_neg (by rw [hsm, hscn]; simp)]
      have hdchild : lookupChild cur n0 = some c0 :=
        hcurM (n0, c0) (List.mem_cons_self _ _) hscn
      have huri : (entryOf d.uri d.file_type n0 c0).uri = ⟨Side.d, dp ++ [n0]⟩ := by
        rw [entryOf_uri, hduri]
      have hrmt : rmAt (st.tree (entryOf d.uri d.file_type n0 c0).uri.side)
          (entryOf d.uri d.file_type n0 c0).uri.path =
          some (setPath st.dst dp (.dir (removeChild cur n0))) := by
        rw [huri]
        show rmAt st.dst (dp ++ [n0]) = _
        exact rmAt_child st.dst dp cur n0 _ hdst hdchild
      have hrmE : rm st (entryOf d.uri d.file_type n0 c0) =
          (Except.ok (), st.setTree Side.d (setPath st.dst dp (.dir (removeChild cur n0))),
           [Op.rmOp (⟨Side.d, dp ++ [n0]⟩ : Loc)]) := by
        have h := rm_ok st (entryOf d.uri d.file_type n0 c0)
          (setPath st.dst dp (.dir (removeChild cur n0))) hrmt
        rw [huri] at h
        exact h
      simp only [hrmE]
      have hdstb : (st.setTree Side.d (setPath st.dst dp (.dir (removeChild cur n0)))).dst =
          setPath st.dst dp (.dir (removeChild cur n0)) := rfl
      have hsrcb : (st.setTree Side.d (setPath st.dst dp (.dir (removeChild cur n0)))).src =
          st.src := rfl
      have hlookb : lookupPath (setPath st.dst dp (.dir (removeChild cur n0))) dp =
          some (.dir (removeChild cur n0)) :=
        lookupPath_setPath_self st.dst dp _ _ hdst
      have hwfb : Wf (setPath st.dst dp (.dir (removeChild cur n0))) :=
        Wf_setPath st.dst dp _ hwfd (Wf_dir_removeChild cur n0
          (Wf_lookupPath st.dst dp _ hwfd hdst))
      obtain ⟨cur4, st4, ihrun, ihsrc, ihdst, ihwf, ihlook, ihframe, ihval⟩ :=
        ih (st.setTree Side.d (setPath st.dst dp (.dir (removeChild cur n0))))
          (removeChild cur n0)
          (by rw [hdstb]; exact hlookb) (by rw [hdstb]; exact hwfb) hMnd'
          (fun q hq hq2 => by
            rw [lookupChild_removeChild,
              if_neg (show ¬ q.1 = n0 from fun hqn =>
                hn0 (by rw [← hqn]; exact List.mem_map.mpr ⟨q, hq, rfl⟩))]
            exact hcurM q (List.mem_cons_of_mem _ hq) hq2)
      refine ⟨cur4, st4, ?_, by rw [ihsrc, hsrcb], ?_, ihwf, ihlook, ?_, ?_⟩
      · rw [ihrun]
        simp [hscn]
      · rw [ihdst, hdstb, setPath_setPath]
      · intro n hn
        simp only [List.map_cons, List.mem_cons] at hn
        push_neg at hn
        rw [ihframe n (by simpa using hn.2), lookupChild_removeChild, if_neg hn.1]
      · intro q hq
        rcases List.mem_cons.mp hq with rfl | hq'
        · rw [if_neg (by rw [hscn]; simp)]
          rw [ihframe n0 (by simpa using hn0), lookupChild_removeChild, if_pos rfl]
        · rw [ihval q hq', lookupChild_removeChild,
            if_neg (show ¬ q.1 = n0 from fun hqn =>
              hn0 (by rw [← hqn]; exact List.mem_map.mpr ⟨q, hq', rfl⟩))]

theorem initSeg_self (a : List String) : initSeg a a = true := by
  induction a with
  | nil => rfl
  | cons x a' ih => simp [initSeg, ih]

theorem initSeg_append_self (a x : List String) : initSeg a (a ++ x) = true := by
  induction a with
  | nil => rfl
  | cons y a' ih => simp [initSeg, ih]

theorem initSeg_trans (a b c : List String) (h1 : initSeg a b = true)
    (h2 : initSeg b c = true) : initSeg a c = true := by
  induction a generalizing b c with
  | nil => rfl
  | cons x a' ih =>
    cases b with
    | nil => cases h1
    | cons y b' =>
      cases c with
      | nil => cases h2
      | cons z c' =>
        simp only [initSeg, Bool.and_eq_true, decide_eq_true_eq] at h1 h2 ⊢
        exact ⟨h1.1.trans h2.1, ih b' c' h1.2 h2.2⟩

theorem initSeg_append_left (a b c : List String) (h : initSeg (a ++ b) c = true) :
    initSeg a c = true :=
  initSeg_trans a (a ++ b) c (initSeg_append_self a b) h

theorem initSeg_snoc (r dp : List String) (n : String)
    (h : initSeg r (dp ++ [n]) = true) :
    initSeg r dp = true ∨ r = dp ++ [n] := by
  induction dp generalizing r with
  | nil =>
    cases r with
    | nil => exact Or.inl rfl
    | cons x r' =>
      cases r' with
      | nil =>
        simp only [List.nil_append, initSeg, Bool.and_eq_true, decide_eq_true_eq] at h
        exact Or.inr (by rw [h.1]; rfl)
      | cons y r'' =>
        simp only [List.nil_append, initSeg, Bool.and_eq_true] at h
        cases h.2
  | cons a dp' ih =>
    cases r with
    | nil => exact Or.inl rfl
    | cons x r' =>
      simp only [List.cons_append, initSeg, Bool.and_eq_true, decide_eq_true_eq] at h ⊢
      rcases ih r' h.2 with h2 | h2
      · exact Or.inl ⟨h.1, h2⟩
      · exact Or.inr (by rw [h.1, h2])

theorem initSeg_append_same (a b c : List String) :
    initSeg (a ++ b) (a ++ c) = initSeg b c := by
  induction a with
  | nil => rfl
  | cons x a' ih => simp [initSeg, ih]

theorem incomp_symm (a b : List String) (h : incomp a b) : incomp b a := ⟨h.2, h.1⟩

theorem incomp_child_left (dp r : List String) (n : String) (h : incomp dp r) :
    incomp (dp ++ [n]) r := by
  constructor
  · cases hx : initSeg (dp ++ [n]) r with
    | false => rfl
    | true => exact absurd (initSeg_append_left dp [n] r hx) (by simp [h.1])
  · cases hx : initSeg r (dp ++ [n]) with
    | false => rfl
    | true =>
      rcases initSeg_snoc r dp n hx with h2 | h2
      · exact absurd h2 (by simp [h.2])
      · rw [h2] at h
        exact absurd (initSeg_append_self dp [n]) (by simp [h.1])

theorem incomp_siblings (dp : List String) (n n' : String) (h : ¬ n = n') :
    incomp (dp ++ [n]) (dp ++ [n']) := by
  constructor
  · rw [initSeg_append_same]
    simp [initSeg, h]
  · rw [initSeg_append_same]
    simp only [initSeg, Bool.and_true]
    exact decide_eq_false (fun hx => h hx.symm)

theorem completes_absorb (src : Node) (s d : SAFEntry) (sp dp : List String)
    (hsuri : s.uri = ⟨.s, sp⟩) (hduri : d.uri = ⟨.d, dp⟩)
    (NL : List (String × Node)) :
    ∀ (t : Node) (cur' : List (String × Node))
      (rest : List (SAFEntry × SAFEntry)) (t' : Node),
    Wf t →
    (NL.map Prod.fst).Nodup →
    (∀ q ∈ NL, (∃ ccs, q.2 = Node.dir ccs) ∧
      lookupPath src (sp ++ [q.1]) = some q.2 ∧
      (∃ dds, lookupChild cur' q.1 = some (.dir dds))) →
    lookupPath t dp = some (.dir cur') →
    Completes src (NL.filterMap (pushOf s d) ++ rest) t t' →
    ∃ cur2,
      Wf (Node.dir cur2) ∧
      (∀ n, n ∉ NL.map Prod.fst → lookupChild cur2 n = lookupChild cur' n) ∧
      (∀ q ∈ NL, ∃ m, lookupChild cur2 q.1 = some m ∧
        MirrorsBy fileMatchS q.2 m ∧ Wf m) ∧
      Completes src rest (setPath t dp (.dir cur2)) t' := by
  induction NL with
  | nil =>
    intro t cur' rest t' hwft hnd hmem ht hC
    refine ⟨cur', Wf_lookupPath t dp _ hwft ht, fun n _ => rfl, by simp, ?_⟩
    rw [setPath_self t dp _ hwft ht]
    simpa using hC
  | cons q0 NL' ih =>
    intro t cur' rest t' hwft hnd hmem ht hC
    obtain ⟨n0, c0⟩ := q0
    obtain ⟨⟨ccs0, hc0⟩, hsrc0, dds0, hdds0⟩ := hmem (n0, c0) (List.mem_cons_self _ _)
    rw [List.map_cons, List.nodup_cons] at hnd
    obtain ⟨hn0, hnd'⟩ := hnd
    have hpush : pushOf s d (n0, c0) =
        some (entryOf s.uri s.file_type n0 c0, dirDestEntry d n0) := by
      show pushOf s d (n0, c0) = _
      rw [show ((n0, c0) : String × Node).2 = c0 from rfl] at hc0
      unfold pushOf
      rw [hc0]
    simp only [List.filterMap_cons, hpush, List.cons_append] at hC
    cases hC with
    | cons _ _ _ _ _ sT m hsT hmir hwfm hC2 =>
      have hp1 : (entryOf s.uri s.file_type n0 c0).uri.path = sp ++ [n0] := by
        rw [entryOf_uri, hsuri]
      rw [hp1] at hsT
      have hsTc0 : c0 = sT := by
        have := hsrc0.symm.trans hsT
        exact Option.some.inj this
      have hp2 : (dirDestEntry d n0).uri.path = dp ++ [n0] := by
        show d.uri.path ++ [n0] = dp ++ [n0]
        rw [hduri]
      rw [hp2] at hC2
      have hsp : setPath t (dp ++ [n0]) m =
          setPath t dp (.dir (replaceChildNode cur' n0 m)) := by
        rw [setPath_append t dp [n0] _ m ht,
          setPath_cons_dir_some cur' n0 [] m _ hdds0, setPath_nil]
      rw [hsp] at hC2
      have hwfcur : Wf (Node.dir cur') := Wf_lookupPath t dp _ hwft ht
      have hwfcur1 : Wf (Node.dir (replaceChildNode cur' n0 m)) :=
        Wf_dir_replaceChildNode cur' n0 m hwfcur hwfm
      have hwft1 : Wf (setPath t dp (.dir (replaceChildNode cur' n0 m))) :=
        Wf_setPath t dp _ hwft hwfcur1
      have ht1 : lookupPath (setPath t dp (.dir (replaceChildNode cur' n0 m))) dp =
          some (.dir (replaceChildNode cur' n0 m)) :=
        lookupPath_setPath_self t dp _ _ ht
      have hmem' : ∀ q ∈ NL', (∃ ccs, q.2 = Node.dir ccs) ∧
          lookupPath src (sp ++ [q.1]) = some q.2 ∧
          (∃ dds, lookupChild (replaceChildNode cur' n0 m) q.1 = some (.dir dds)) := by
        intro q hq
        obtain ⟨h1, h2, dds, h3⟩ := hmem q (List.mem_cons_of_mem _ hq)
        refine ⟨h1, h2, dds, ?_⟩
        rw [lookupChild_replaceChildNode,
          if_neg (show ¬ q.1 = n0 from fun hqn =>
            hn0 (by rw [← hqn]; exact List.mem_map.mpr ⟨q, hq, rfl⟩))]
        exact h3
      obtain ⟨cur2, hwf2, hframe2, hval2, hC3⟩ :=
        ih (setPath t dp (.dir (replaceChildNode cur' n0 m)))
          (replaceChildNode cur' n0 m) rest t' hwft1 hnd' hmem' ht1 hC2
      refine ⟨cur2, hwf2, ?_, ?_, ?_⟩
      · intro n hn
        simp only [List.map_cons, List.mem_cons] at hn
        push_neg at hn
        rw [hframe2 n (by simpa using hn.2), lookupChild_replaceChildNode, if_neg hn.1]
      · intro q hq
        rcases List.mem_cons.mp hq with rfl | hq'
        · refine ⟨m, ?_, ?_, hwfm⟩
          · rw [hframe2 n0 (by simpa using hn0), lookupChild_replaceChildNode,
              if_pos rfl, hdds0]
            rfl
          · show MirrorsBy fileMatchS (n0, c0).2 m
            rw [show ((n0, c0) : String × Node).2 = c0 from rfl, hsTc0]
            exact hmir
        · exact hval2 q hq'
      · rw [setPath_setPath] at hC3
        exact hC3

theorem lookupChild_isSome_iff_mem (cs : List (String × Node)) (n : String) :
    (lookupChild cs n).isSome = true ↔ n ∈ cs.map Prod.fst := by
  rw [lookupChild_isSome_any, List.any_eq_true]
  constructor
  · rintro ⟨p, hp, hpk⟩
    exact List.mem_map.mpr ⟨p, hp, by simpa using hpk⟩
  · intro hmem
    obtain ⟨p, hp, hpk⟩ := List.mem_map.mp hmem
    exact ⟨p, hp, by simp [hpk]⟩

theorem srcOutcome_congr (dcs a b : List (String × Node)) (n : String) (c : Node)
    (h : lookupChild b n = lookupChild a n) (ho : srcOutcome dcs a n c) :
    srcOutcome dcs b n c := by
  unfold srcOutcome at ho ⊢
  cases c with
  | file cc cm => rw [h]; exact ho
  | dir dd =>
    cases hdn : lookupChild dcs n with
    | none => simp only [hdn] at ho ⊢; rw [h]; exact ho
    | some x =>
      cases x with
      | file c1 m1 => simp only [hdn] at ho ⊢; rw [h]; exact ho
      | dir dcn => simp only [hdn] at ho ⊢; rw [h]; exact ho

theorem syncLevel_spec (st : Store) (s d : SAFEntry) (sp dp : List String)
    (scs dcs : List (String × Node)) (tr : List Op)
    (P : List (SAFEntry × SAFEntry)) (st' : Store)
    (hsuri : s.uri = ⟨.s, sp⟩) (hduri : d.uri = ⟨.d, dp⟩) (hdft : d.file_type = .DIR)
    (hsrc : lookupPath st.src sp = some (.dir scs))
    (hdst : lookupPath st.dst dp = some (.dir dcs))
    (hwfs : Wf st.src) (hwfd : Wf st.dst)
    (hrun : syncLevel st s d = (tr, P, st', none)) :
    ∃ cur' trS,
      st'.src = st.src ∧
      st'.dst = setPath st.dst dp (.dir cur') ∧
      Wf st'.dst ∧
      lookupPath st'.dst dp = some (.dir cur') ∧
      (∀ q ∈ scs, srcOutcome dcs cur' q.1 q.2) ∧
      (∀ n, n ∉ scs.map Prod.fst → lookupChild cur' n = none) ∧
      P = scs.filterMap (pushOf s d) ∧
      tr = .lsOp s.uri :: .lsOp d.uri :: (trS ++ dcs.filterMap (fun q =>
        if (lookupChild scs q.1).isSome then none
        else some (.rmOp ⟨Side.d, dp ++ [q.1]⟩))) ∧
      (∀ lq, Op.rmOp lq ∈ trS → ∃ n, n ∈ scs.map Prod.fst ∧ lq = ⟨.d, dp ++ [n]⟩) := by
  have hwfscs : Wf (Node.dir scs) := Wf_lookupPath st.src sp _ hwfs hsrc
  have hwfdcs : Wf (Node.dir dcs) := Wf_lookupPath st.dst dp _ hwfd hdst
  have hndscs : nodupKeys scs = true := ((Wf_dir_iff scs).mp hwfscs).1
  have hnddcs : nodupKeys dcs = true := ((Wf_dir_iff dcs).mp hwfdcs).1
  have hls1 := ls_map_ok st s scs (by rw [hsuri]; exact hsrc) hndscs
  have hls2 := ls_map_ok st d dcs (by rw [hduri]; exact hdst) hnddcs
  simp only [syncLevel, hls1, hls2] at hrun
  rw [show (scs.map (fun p => (p.1, entryOf s.uri s.file_type p.1 p.2))) =
      entriesOf s scs from rfl,
    show (dcs.map (fun p => (p.1, entryOf d.uri d.file_type p.1 p.2))) =
      entriesOf d dcs from rfl] at hrun
  rcases hps : processSrc d (entriesOf d dcs) st (entriesOf s scs) with ⟨tr3, ps, st3, e3⟩
  simp only [hps] at hrun
  cases e3 with
  | some err => simp at hrun
  | none =>
  obtain ⟨cur3, hsrc3, hdst3, hwf3, hlook3, hframe3, hout3, hP3, hrm3⟩ :=
    processSrc_spec s d sp dp scs dcs scs st dcs tr3 ps st3 hsuri hduri hdft hsrc hdst hwfd
      (fun q hq => mem_lookupChild scs q.1 q.2 hndscs (by rw [Prod.mk.eta]; exact hq))
      ((nodupKeys_iff_nodup scs).mp hndscs)
      (fun q _ => rfl)
      hps
  obtain ⟨cur4, st4, hpdE, hsrc4, hdst4, hwf4, hlook4, hframe4, hval4⟩ :=
    processDel_spec s d dp scs dcs (entriesOf s scs) dcs st3 cur3 hduri
      (fun n => lookupKey_entriesOf_isSome s scs n)
      hlook3 hwf3 ((nodupKeys_iff_nodup dcs).mp hnddcs)
      (fun q hq hq2 => by
        have hnot : q.1 ∉ scs.map Prod.fst := fun hmem => by
          rw [(lookupChild_isSome_iff_mem scs q.1).mpr hmem] at hq2
          cases hq2
        rw [hframe3 q.1 hnot]
        exact mem_lookupChild dcs q.1 q.2 hnddcs (by rw [Prod.mk.eta]; exact hq))
  simp only [hpdE, Prod.mk.injEq] at hrun
  obtain ⟨htr, hP, hst4, -⟩ := hrun
  have hcur43 : ∀ n, n ∈ scs.map Prod.fst ∨ n ∉ dcs.map Prod.fst →
      lookupChild cur4 n = lookupChild cur3 n := by
    intro n hcase
    by_cases hmem : n ∈ dcs.map Prod.fst
    · obtain ⟨p, hp, hpk⟩ := List.mem_map.mp hmem
      have hv := hval4 p hp
      rw [hpk] at hv
      rcases hcase with hs | hd
      · rw [hv, if_pos ((lookupChild_isSome_iff_mem scs n).mpr hs)]
      · exact absurd hmem hd
    · exact hframe4 n hmem
  subst hst4
  refine ⟨cur4, tr3, ?_, ?_, hwf4, hlook4, ?_, ?_, ?_, ?_, hrm3⟩
  · rw [hsrc4, hsrc3]
  · rw [hdst4, hdst3, setPath_setPath]
  · intro q hq
    refine srcOutcome_congr dcs cur3 cur4 q.1 q.2
      (hcur43 q.1 (Or.inl (List.mem_map.mpr ⟨q, hq, rfl⟩))) (hout3 q hq)
  · intro n hn
    by_cases hmem : n ∈ dcs.map Prod.fst
    · obtain ⟨p, hp, hpk⟩ := List.mem_map.mp hmem
      have hv := hval4 p hp
      rw [hpk] at hv
      rw [hv, if_neg (fun hs => hn ((lookupChild_isSome_iff_mem scs n).mp hs))]
    · rw [hcur43 n (Or.inr hmem), hframe3 n hn]
      cases hln : lookupChild dcs n with
      | none => rfl
      | some c => exact absurd ((lookupChild_isSome_iff_mem dcs n).mp (by rw [hln]; rfl)) hmem
  · rw [← hP, hP3]
  · rw [← htr]
    simp

theorem srcOutcome_file_extract (dcs cur' : List (String × Node)) (n : String)
    (cc : List Nat) (cm : Option Int) (h : srcOutcome dcs cur' n (.file cc cm)) :
    ∃ c1 m1, lookupChild cur' n = some (.file c1 m1) ∧ fileMatchS cc cm c1 m1 := h

theorem srcOutcome_dir_extract (dcs cur' : List (String × Node)) (n : String)
    (ccs : List (String × Node)) (h : srcOutcome dcs cur' n (.dir ccs)) :
    ∃ dds, lookupChild cur' n = some (.dir dds) := by
  unfold srcOutcome at h
  rcases hdn : lookupChild dcs n with _ | c
  · simp only [hdn] at h
    exact ⟨[], h⟩
  · cases c with
    | file c1 m1 => simp only [hdn] at h; exact ⟨[], h⟩
    | dir dcn => simp only [hdn] at h; exact ⟨dcn, h⟩

theorem pushOf_dir (s d : SAFEntry) (q : String × Node)
    (ccs : List (String × Node)) (h : q.2 = Node.dir ccs) :
    pushOf s d q = some (entryOf s.uri s.file_type q.1 (.dir ccs), dirDestEntry d q.1) := by
  unfold pushOf
  rw [h]

theorem pushOf_file (s d : SAFEntry) (q : String × Node)
    (cc : List Nat) (cm : Option Int) (h : q.2 = Node.file cc cm) :
    pushOf s d q = none := by
  unfold pushOf
  rw [h]

theorem pushOf_dest_path (s d : SAFEntry) (q : String × Node)
    (pr : SAFEntry × SAFEntry) (h : pushOf s d q = some pr) :
    pr.2.uri.path = d.uri.path ++ [q.1] := by
  cases hc : q.2 with
  | file cc cm => rw [pushOf_file s d q cc cm hc] at h; cases h
  | dir ccs =>
    rw [pushOf_dir s d q ccs hc] at h
    injection h with h
    rw [← h]
    rfl

theorem pairwise_filterMap_of {α β : Type} (R : α → α → Prop) (S : β → β → Prop)
    (f : α → Option β) (l : List α)
    (h : ∀ a a', R a a' → ∀ b, f a = some b → ∀ b', f a' = some b' → S b b')
    (hp : l.Pairwise R) : (l.filterMap f).Pairwise S := by
  induction l with
  | nil => exact List.Pairwise.nil
  | cons a l' ih =>
    rw [List.pairwise_cons] at hp
    rw [List.filterMap_cons]
    cases hfa : f a with
    | none => exact ih hp.2
    | some b =>
      show (b :: l'.filterMap f).Pairwise S
      rw [List.pairwise_cons]
      refine ⟨?_, ih hp.2⟩
      intro c hc
      obtain ⟨a', ha', hfa'⟩ := List.mem_filterMap.mp hc
      exact h a a' (hp.1 a' ha') b hfa c hfa'

theorem filterMap_pushOf_filter (s d : SAFEntry) (l : List (String × Node)) :
    (l.filter (fun q => isDirNode q.2)).filterMap (pushOf s d) =
      l.filterMap (pushOf s d) := by
  induction l with
  | nil => rfl
  | cons q l' ih =>
    cases hq : q.2 with
    | file cc cm =>
      have hcond : isDirNode q.2 = false := by rw [hq]; rfl
      rw [List.filter_cons, List.filterMap_cons, pushOf_file s d q cc cm hq]
      simp only [hcond, Bool.false_eq_true, if_false]
      exact ih
    | dir ccs =>
      have hcond : isDirNode q.2 = true := by rw [hq]; rfl
      rw [List.filter_cons, List.filterMap_cons, pushOf_dir s d q ccs hq]
      simp only [hcond, if_true]
      rw [List.filterMap_cons, pushOf_dir s d q ccs hq, ih]

theorem lookupPath_child (t : Node) (p : List String) (cs : List (String × Node))
    (n : String) (c : Node) (ht : lookupPath t p = some (.dir cs))
    (hc : lookupChild cs n = some c) : lookupPath t (p ++ [n]) = some c := by
  rw [lookupPath_append, ht]
  show lookupPath (Node.dir cs) [n] = some c
  rw [lookupPath_cons_dir_some cs n [] c hc, lookupPath_nil]

theorem syncStep_dirs (st : Store) (s d : SAFEntry) (hs : s.file_type = .DIR)
    (hd : d.file_type = .DIR) :
    syncStep st s d = match syncLevel st s d with
      | (tr, ps, st3, e3) => (tr, ps.reverse, st3, e3) := by
  unfold syncStep
  rw [if_pos hs, if_neg (by rw [hd]; simp)]

theorem syncLoop_completes (fuel : Nat) :
    ∀ (st : Store) (stack : List (SAFEntry × SAFEntry)) (tr : List Op)
      (done : List (SAFEntry × SAFEntry)) (st' : Store),
    Wf st.src → Wf st.dst →
    (∀ p ∈ stack, StackInv st p) →
    stack.Pairwise (fun p q => incomp p.2.uri.path q.2.uri.path) →
    syncLoop fuel st stack = (tr, done, st', none) →
    st'.src = st.src ∧ Wf st'.dst ∧ Completes st.src stack st.dst st'.dst := by
  induction fuel with
  | zero =>
    intro st stack tr done st' hwfs hwfd hinv hpw hrun
    cases stack with
    | nil =>
      simp only [syncLoop, Prod.mk.injEq] at hrun
      obtain ⟨-, -, hst, -⟩ := hrun
      rw [← hst]
      exact ⟨rfl, hwfd, Completes.nil _⟩
    | cons p rest => simp [syncLoop] at hrun
  | succ fuel ih =>
    intro st stack tr done st' hwfs hwfd hinv hpw hrun
    cases stack with
    | nil =>
      simp only [syncLoop, Prod.mk.injEq] at hrun
      obtain ⟨-, -, hst, -⟩ := hrun
      rw [← hst]
      exact ⟨rfl, hwfd, Completes.nil _⟩
    | cons p rest =>
    obtain ⟨s, d⟩ := p
    have hSI := hinv (s, d) (List.mem_cons_self _ _)
    unfold StackInv at hSI
    obtain ⟨hs1, hd1, hs2, hd2, ⟨scs, hscs⟩, ⟨dcs, hdcs⟩⟩ := hSI
    rw [List.pairwise_cons] at hpw
    obtain ⟨hpwhd, hpwtl⟩ := hpw
    have hsuri : s.uri = ⟨Side.s, s.uri.path⟩ := by rw [← hs1]
    have hduri : d.uri = ⟨Side.d, d.uri.path⟩ := by rw [← hd1]
    simp only [syncLoop] at hrun
    rw [syncStep_dirs st s d hs2 hd2] at hrun
    rcases hsl : syncLevel st s d with ⟨trL, psL, st1, e1⟩
    simp only [hsl] at hrun
    cases e1 with
    | some err => simp at hrun
    | none =>
    rcases hloop : syncLoop fuel st1 (psL.reverse ++ rest) with ⟨tr2, done2, st2, e2⟩
    simp only [hloop, Prod.mk.injEq] at hrun
    obtain ⟨htr, hdone, hst2, he2⟩ := hrun
    subst he2
    subst st2
    obtain ⟨cur', trS, hsrc1, hdst1, hwf1, hlook1, hout, hnone, hP, htrace, hrmS⟩ :=
      syncLevel_spec st s d s.uri.path d.uri.path scs dcs trL psL st1
        hsuri hduri hd2 hscs hdcs hwfs hwfd hsl
    have hwfscs : Wf (Node.dir scs) := Wf_lookupPath st.src s.uri.path _ hwfs hscs
    have hndscs : nodupKeys scs = true := ((Wf_dir_iff scs).mp hwfscs).1
    have hndscsN : (scs.map Prod.fst).Nodup := (nodupKeys_iff_nodup scs).mp hndscs
    have hmemP : ∀ pr ∈ psL, ∃ n ccs, (n, Node.dir ccs) ∈ scs ∧
        pr = (entryOf s.uri s.file_type n (.dir ccs), dirDestEntry d n) := by
      intro pr hpr
      rw [hP] at hpr
      obtain ⟨q, hq, hfq⟩ := List.mem_filterMap.mp hpr
      cases hc : q.2 with
      | file cc cm => rw [pushOf_file s d q cc cm hc] at hfq; cases hfq
      | dir ccs =>
        rw [pushOf_dir s d q ccs hc] at hfq
        injection hfq with hfq
        exact ⟨q.1, ccs, by rw [← hc, Prod.mk.eta]; exact hq, hfq.symm⟩
    have hcurdir : ∀ n ccs, (n, Node.dir ccs) ∈ scs →
        ∃ dds, lookupChild cur' n = some (.dir dds) := by
      intro n ccs hmem
      exact srcOutcome_dir_extract dcs cur' n ccs (hout (n, .dir ccs) hmem)
    have hinv1 : ∀ p2 ∈ psL.reverse ++ rest, StackInv st1 p2 := by
      intro p2 hp2
      rcases List.mem_append.mp hp2 with hl | hr
      · rw [List.mem_reverse] at hl
        obtain ⟨n, ccs, hmem, hpr⟩ := hmemP p2 hl
        subst hpr
        obtain ⟨dds, hdds⟩ := hcurdir n ccs hmem
        refine ⟨hs1, hd1, rfl, rfl, ⟨ccs, ?_⟩, ⟨dds, ?_⟩⟩
        · rw [hsrc1]
          show lookupPath st.src (s.uri.path ++ [n]) = some (Node.dir ccs)
          exact lookupPath_child st.src s.uri.path scs n _ hscs
            (mem_lookupChild scs n _ hndscs hmem)
        · show lookupPath st1.dst (d.uri.path ++ [n]) = some (Node.dir dds)
          exact lookupPath_child st1.dst d.uri.path cur' n _ hlook1 hdds
      · have hSI2 := hinv p2 (List.mem_cons_of_mem _ hr)
        unfold StackInv at hSI2 ⊢
        obtain ⟨a1, a2, a3, a4, ⟨sc2, hsc2⟩, ⟨dc2, hdc2⟩⟩ := hSI2
        have hinc := hpwhd p2 hr
        refine ⟨a1, a2, a3, a4, ⟨sc2, by rw [hsrc1]; exact hsc2⟩, ⟨dc2, ?_⟩⟩
        rw [hdst1, lookupPath_setPath_frame st.dst d.uri.path p2.2.uri.path _
          hinc.1 hinc.2]
        exact hdc2
    have hpw1 : (psL.reverse ++ rest).Pairwise
        (fun p q => incomp p.2.uri.path q.2.uri.path) := by
      rw [List.pairwise_append]
      refine ⟨?_, hpwtl, ?_⟩
      · rw [List.pairwise_reverse, hP]
        refine pairwise_filterMap_of (fun a b => ¬ a.1 = b.1) _ (pushOf s d) scs ?_
          ((List.pairwise_map).mp hndscsN)
        intro a a' hne b hfb b' hfb'
        rw [pushOf_dest_path s d a' b' hfb', pushOf_dest_path s d a b hfb]
        exact incomp_siblings d.uri.path a'.1 a.1 (fun hx => hne hx.symm)
      · intro a ha b hb
        rw [List.mem_reverse] at ha
        obtain ⟨n, ccs, hmem, hpr⟩ := hmemP a ha
        have hap : a.2.uri.path = d.uri.path ++ [n] := by rw [hpr]; rfl
        rw [hap]
        exact incomp_child_left d.uri.path b.2.uri.path n (hpwhd b hb)
    have hwfs1 : Wf st1.src := by rw [hsrc1]; exact hwfs
    obtain ⟨hsrc2, hwf2, hC2⟩ := ih st1 (psL.reverse ++ rest) tr2 done2 st'
      hwfs1 hwf1 hinv1 hpw1 hloop
    refine ⟨by rw [hsrc2, hsrc1], hwf2, ?_⟩
    rw [hsrc1, hdst1] at hC2
    have hNL : psL.reverse =
        ((scs.reverse).filter (fun q => isDirNode q.2)).filterMap (pushOf s d) := by
      rw [filterMap_pushOf_filter, List.filterMap_reverse, ← hP]
    rw [hNL] at hC2
    have hNLmem : ∀ q ∈ (scs.reverse).filter (fun q => isDirNode q.2),
        q ∈ scs ∧ isDirNode q.2 = true := by
      intro q hq
      have h2 := List.mem_filter.mp hq
      exact ⟨List.mem_reverse.mp h2.1, h2.2⟩
    have hNLnd : (((scs.reverse).filter (fun q => isDirNode q.2)).map Prod.fst).Nodup := by
      have hsub : List.Sublist
          (((scs.reverse).filter (fun q => isDirNode q.2)).map Prod.fst)
          (scs.reverse.map Prod.fst) :=
        (List.filter_sublist _).map Prod.fst
      have hnr : (scs.reverse.map Prod.fst).Nodup := by
        rw [List.map_reverse]
        exact List.nodup_reverse.mpr hndscsN
      exact hnr.sublist hsub
    have hwfcur : Wf (Node.dir cur') := Wf_lookupPath st1.dst d.uri.path _ hwf1 hlook1
    obtain ⟨cur2, hwf2d, hframe2, hval2, hC3⟩ :=
      completes_absorb st.src s d s.uri.path d.uri.path hsuri hduri
        ((scs.reverse).filter (fun q => isDirNode q.2))
        (setPath st.dst d.uri.path (.dir cur')) cur' rest st'.dst
        (Wf_setPath st.dst d.uri.path _ hwfd hwfcur)
        hNLnd
        (fun q hq => by
          obtain ⟨hqs, hqd⟩ := hNLmem q hq
          obtain ⟨ccs, hccs⟩ : ∃ ccs, q.2 = Node.dir ccs := by
            cases hcq : q.2 with
            | file cc cm => rw [hcq] at hqd; cases hqd
            | dir ccs => exact ⟨ccs, rfl⟩
          refine ⟨⟨ccs, hccs⟩, ?_, ?_⟩
          · exact lookupPath_child st.src s.uri.path scs q.1 _ hscs
              (mem_lookupChild scs q.1 q.2 hndscs (by rw [Prod.mk.eta]; exact hqs))
          · exact hcurdir q.1 ccs (by rw [← hccs, Prod.mk.eta]; exact hqs))
        (lookupPath_setPath_self st.dst d.uri.path _ _ hdcs)
        hC2
    rw [setPath_setPath] at hC3
    have hfileNotNL : ∀ n cc cm, lookupChild scs n = some (.file cc cm) →
        n ∉ ((scs.reverse).filter (fun q => isDirNode q.2)).map Prod.fst := by
      intro n cc cm hc hmem2
      obtain ⟨q, hq, hq1⟩ := List.mem_map.mp hmem2
      obtain ⟨hqs, hqd⟩ := hNLmem q hq
      have hlk := mem_lookupChild scs q.1 q.2 hndscs (by rw [Prod.mk.eta]; exact hqs)
      rw [hq1, hc] at hlk
      injection hlk with hlk
      rw [← hlk] at hqd
      cases hqd
    have hnotNL : ∀ n, lookupChild scs n = none →
        n ∉ ((scs.reverse).filter (fun q => isDirNode q.2)).map Prod.fst := by
      intro n hc hmem2
      obtain ⟨q, hq, hq1⟩ := List.mem_map.mp hmem2
      obtain ⟨hqs, -⟩ := hNLmem q hq
      have hlk := mem_lookupChild scs q.1 q.2 hndscs (by rw [Prod.mk.eta]; exact hqs)
      rw [hq1, hc] at hlk
      cases hlk
    have hNLname : ∀ n ccs, lookupChild scs n = some (.dir ccs) →
        (n, Node.dir ccs) ∈ (scs.reverse).filter (fun q => isDirNode q.2) := by
      intro n ccs hc
      rw [List.mem_filter]
      exact ⟨List.mem_reverse.mpr (lookupChild_mem scs n _ hc), rfl⟩
    have hmirror : MirrorsBy fileMatchS (Node.dir scs) (Node.dir cur2) := by
      refine MirrorsBy.dir scs cur2 ?_ ?_
      · intro n
        constructor
        · intro hs
          obtain ⟨c, hc⟩ := Option.isSome_iff_exists.mp hs
          cases c with
          | file cc cm =>
            obtain ⟨c1, m1, hcur, -⟩ := srcOutcome_file_extract dcs cur' n cc cm
              (hout (n, .file cc cm) (lookupChild_mem scs n _ hc))
            rw [hframe2 n (hfileNotNL n cc cm hc), hcur]
            rfl
          | dir ccs =>
            obtain ⟨m, hm, -, -⟩ := hval2 (n, .dir ccs) (hNLname n ccs hc)
            exact Option.isSome_iff_exists.mpr ⟨m, hm⟩
        · intro hs2
          cases hx : lookupChild scs n with
          | some c => rfl
          | none =>
            have hnm : n ∉ scs.map Prod.fst := fun hm => by
              have hy := (lookupChild_isSome_iff_mem scs n).mpr hm
              rw [hx] at hy
              cases hy
            rw [hframe2 n (hnotNL n hx), hnone n hnm] at hs2
            cases hs2
      · intro n sc dc hsc hdc
        cases sc with
        | file cc cm =>
          obtain ⟨c1, m1, hcur, hfm⟩ := srcOutcome_file_extract dcs cur' n cc cm
            (hout (n, .file cc cm) (lookupChild_mem scs n _ hsc))
          rw [hframe2 n (hfileNotNL n cc cm hsc), hcur] at hdc
          injection hdc with hdc2
          rw [← hdc2]
          exact MirrorsBy.file cc cm c1 m1 hfm
        | dir ccs =>
          obtain ⟨m, hm, hmir, -⟩ := hval2 (n, .dir ccs) (hNLname n ccs hsc)
          have hmd : some m = some dc := hm.symm.trans hdc
          injection hmd with hmd
          rw [← hmd]
          exact hmir
    exact Completes.cons s d rest st.dst st'.dst (Node.dir scs) (Node.dir cur2)
      hscs hmirror hwf2d hC3

theorem Completes_nil_eq (src : Node) (t t' : Node) (h : Completes src [] t t') : t' = t := by
  cases h
  rfl

theorem Completes_cons_inv (src : Node) (s d : SAFEntry)
    (rest : List (SAFEntry × SAFEntry)) (t t' : Node)
    (h : Completes src ((s, d) :: rest) t t') :
    ∃ sT m, lookupPath src s.uri.path = some sT ∧ MirrorsBy fileMatchS sT m ∧ Wf m ∧
      Completes src rest (setPath t d.uri.path m) t' := by
  cases h with
  | cons _ _ _ _ _ sT m h1 h2 h3 h4 => exact ⟨sT, m, h1, h2, h3, h4⟩

theorem MirrorsBy_mono (R R' : List Nat → Option Int → List Nat → Option Int → Prop)
    (h : ∀ c m c' m', R c m c' m' → R' c m c' m')
    (t t' : Node) (hm : MirrorsBy R t t') : MirrorsBy R' t t' := by
  induction hm with
  | file c m c' m' hr => exact .file _ _ _ _ (h _ _ _ _ hr)
  | dir scs dcs hiff hrec ih => exact .dir _ _ hiff (fun n sc dc h1 h2 => ih n sc dc h1 h2)

/-- C1: convergence.  For any finite source tree rooted at a directory, a
successful run of sync on directory root entries leaves the source store
untouched and replaces the destination subtree with one that mirrors the
source subtree: same names and kinds everywhere, and every destination
file content equal to the source content, except for files skipped by the
freshness heuristic, which still agree in length. -/
theorem sync_converges (fuel : Nat) (st : Store) (root_source root_dest : SAFEntry)
    (sp dp : List String) (scs dcs : List (String × Node))
    (tr : List Op) (done : List (SAFEntry × SAFEntry)) (st' : Store)
    (hsuri : root_source.uri = ⟨.s, sp⟩) (hduri : root_dest.uri = ⟨.d, dp⟩)
    (hsft : root_source.file_type = .DIR) (hdft : root_dest.file_type = .DIR)
    (hsrc : lookupPath st.src sp = some (.dir scs))
    (hdst : lookupPath st.dst dp = some (.dir dcs))
    (hwfs : Wf st.src) (hwfd : Wf st.dst)
    (hrun : sync fuel st root_source root_dest = (tr, done, st', none)) :
    st'.src = st.src ∧
    ∃ m, lookupPath st'.dst dp = some m ∧ Mirrors (.dir scs) m := by
  have hinv : ∀ p ∈ [(root_source, root_dest)], StackInv st p := by
    intro p hp
    rw [List.mem_singleton] at hp
    subst hp
    refine ⟨by rw [hsuri], by rw [hduri], hsft, hdft, ⟨scs, ?_⟩, ⟨dcs, ?_⟩⟩
    · show lookupPath st.src root_source.uri.path = _
      rw [hsuri]
      exact hsrc
    · show lookupPath st.dst root_dest.uri.path = _
      rw [hduri]
      exact hdst
  obtain ⟨hsrc', hwf', hC⟩ := syncLoop_completes fuel st [(root_source, root_dest)]
    tr done st' hwfs hwfd hinv (List.pairwise_singleton _ _) hrun
  obtain ⟨sT, m, hsT, hmir, hwfm, hC2⟩ :=
    Completes_cons_inv st.src root_source root_dest [] st.dst st'.dst hC
  have hdsteq : st'.dst = setPath st.dst root_dest.uri.path m :=
    Completes_nil_eq st.src _ st'.dst hC2
  rw [hsuri] at hsT
  have hsTeq : Node.dir scs = sT := Option.some.inj (hsrc.symm.trans hsT)
  refine ⟨hsrc', m, ?_, ?_⟩
  · rw [hdsteq, hduri]
    exact lookupPath_setPath_self st.dst dp _ _ hdst
  · rw [hsTeq]
    exact MirrorsBy_mono fileMatchS fileMatch (fun c mm c' m' hx => hx.1) sT m hmir

theorem sync_converges_witness :
    (sync 5 exStore exRootS exRootD).2.2.1.src =
      Node.dir [("a", .dir []), ("f", .file [1] none)] ∧
    ∃ m, lookupPath (sync 5 exStore exRootS exRootD).2.2.1.dst [] = some m ∧
      Mirrors (Node.dir [("a", .dir []), ("f", .file [1] none)]) m :=
  sync_converges 5 exStore exRootS exRootD [] []
    [("a", .dir []), ("f", .file [1] none)] []
    (sync 5 exStore exRootS exRootD).1
    (sync 5 exStore exRootS exRootD).2.1
    (sync 5 exStore exRootS exRootD).2.2.1
    rfl rfl rfl rfl rfl rfl ⟨2, rfl⟩ ⟨1, rfl⟩ rfl

theorem c3_counterexample :
    (sync 5 exStore exRootS exRootD).2.2.2 = none ∧
    (sync 5 (sync 5 exStore exRootS exRootD).2.2.1 exRootS exRootD).2.2.2 = none ∧
    ((sync 5 (sync 5 exStore exRootS exRootD).2.2.1 exRootS exRootD).1.any
      (fun op => op.isMutating)) = true := ⟨rfl, rfl, rfl⟩

/-- C2 (amended): for a same-name FILE pair, the transfer is skipped,
leaving the destination untouched, iff the source modification time is
known, the lengths agree, the destination modification time is also known
and the source is strictly newer.  When the source time is known and the
lengths agree but the destination time is unknown, the comparison raises
TypeError before any provider call and the destination is left untouched
rather than overwritten.  In every remaining case the full source content
is read and the destination overwritten. -/
theorem c2_file_update_policy (st : Store) (entry de : SAFEntry)
    (c : List Nat) (m : Option Int) (c0 : List Nat) (m0 : Option Int)
    (hek : entry.file_type = .FILE) (hdk : de.file_type = .FILE)
    (hs : lookupPath (st.tree entry.uri.side) entry.uri.path = some (.file c m))
    (hd : lookupPath (st.tree de.uri.side) de.uri.path = some (.file c0 m0)) :
    (∀ v w, entry.modified = some v → entry.length = de.length →
      de.modified = some w → v > w →
      fileUpdate st entry de = ([], st, none)) ∧
    (∀ v, entry.modified = some v → entry.length = de.length →
      de.modified = none →
      fileUpdate st entry de = ([], st, some .typeError)) ∧
    ((entry.modified = none ∨ ¬ entry.length = de.length ∨
      (∃ v w, entry.modified = some v ∧ de.modified = some w ∧ ¬ v > w)) →
      fileUpdate st entry de =
        ([.readOp entry.uri, .writeOp de.uri c],
          (st.setTree de.uri.side
            (setPath (st.tree de.uri.side) de.uri.path (.file c (some st.now)))).tick,
          none)) :=
  ⟨fun v w hv hl hw hgt => fileUpdate_skip st entry de v w hv hl hw hgt,
   fun v hv hl hw => fileUpdate_crash st entry de v hv hl hw,
   fun hcase => fileUpdate_transfer st entry de c m c0 m0 hek hdk hs hd hcase⟩

theorem c2_file_update_policy_witness :
    (∀ v w, exEntryRS.modified = some v → exEntryRS.length = exEntryRD.length →
      exEntryRD.modified = some w → v > w →
      fileUpdate exStoreTN exEntryRS exEntryRD = ([], exStoreTN, none)) ∧
    (∀ v, exEntryRS.modified = some v → exEntryRS.length = exEntryRD.length →
      exEntryRD.modified = none →
      fileUpdate exStoreTN exEntryRS exEntryRD = ([], exStoreTN, some .typeError)) ∧
    ((exEntryRS.modified = none ∨ ¬ exEntryRS.length = exEntryRD.length ∨
      (∃ v w, exEntryRS.modified = some v ∧ exEntryRD.modified = some w ∧ ¬ v > w)) →
      fileUpdate exStoreTN exEntryRS exEntryRD =
        ([.readOp exEntryRS.uri, .writeOp exEntryRD.uri [1, 2]],
          (exStoreTN.setTree exEntryRD.uri.side
            (setPath (exStoreTN.tree exEntryRD.uri.side) exEntryRD.uri.path
              (.file [1, 2] (some exStoreTN.now)))).tick,
          none)) :=
  c2_file_update_policy exStoreTN exEntryRS exEntryRD [1, 2] (some 5) [3, 4] none
    rfl rfl rfl rfl

theorem c2_counterexample :
    sync 2 exStoreTN exRootS exRootD =
      ([.lsOp ⟨.s, []⟩, .lsOp ⟨.d, []⟩], [(exRootS, exRootD)], exStoreTN,
        some .typeError) ∧
    lookupPath exStoreTN.src ["r"] = some (.file [1, 2] (some 5)) ∧
    lookupPath exStoreTN.dst ["r"] = some (.file [3, 4] none) ∧
    exEntryRS.length = exEntryRD.length := ⟨rfl, rfl, rfl, rfl⟩

/-- C4: deletion completeness and ordering.  After a successful
reconciliation of a directory level, no destination child survives under a
name absent from the source listing; the trace opens with the two listing
calls, then the source-driven actions (whose removals touch only names
present in the source listing), and closes with the destination-only
removals, which are computed from the name sets of the two initial
listings of that level. -/
theorem c4_deletion_completeness (st : Store) (s d : SAFEntry) (sp dp : List String)
    (scs dcs : List (String × Node)) (tr : List Op)
    (P : List (SAFEntry × SAFEntry)) (st' : Store)
    (hsuri : s.uri = ⟨.s, sp⟩) (hduri : d.uri = ⟨.d, dp⟩) (hdft : d.file_type = .DIR)
    (hsrc : lookupPath st.src sp = some (.dir scs))
    (hdst : lookupPath st.dst dp = some (.dir dcs))
    (hwfs : Wf st.src) (hwfd : Wf st.dst)
    (hrun : syncLevel st s d = (tr, P, st', none)) :
    ∃ cur' trS,
      lookupPath st'.dst dp = some (.dir cur') ∧
      (∀ n, n ∈ dcs.map Prod.fst → n ∉ scs.map Prod.fst →
        lookupChild cur' n = none) ∧
      tr = .lsOp s.uri :: .lsOp d.uri :: (trS ++ dcs.filterMap (fun q =>
        if (lookupChild scs q.1).isSome then none
        else some (.rmOp ⟨Side.d, dp ++ [q.1]⟩))) ∧
      (∀ lq, Op.rmOp lq ∈ trS → ∃ n, n ∈ scs.map Prod.fst ∧ lq = ⟨.d, dp ++ [n]⟩) := by
  obtain ⟨cur', trS, h1, h2, h3, h4, h5, h6, h7, h8, h9⟩ :=
    syncLevel_spec st s d sp dp scs dcs tr P st' hsuri hduri hdft hsrc hdst hwfs hwfd hrun
  exact ⟨cur', trS, h4, fun n _ hn => h6 n hn, h8, h9⟩

theorem c4_deletion_completeness_witness :
    ∃ cur' trS,
      lookupPath (syncLevel exStoreDel exRootS exRootD).2.2.1.dst [] =
        some (.dir cur') ∧
      (∀ n, n ∈ ([("k", Node.file [2] (some 0)), ("old", Node.dir [])].map Prod.fst) →
        n ∉ ([("k", Node.file [1] (some 1))].map Prod.fst) →
        lookupChild cur' n = none) ∧
      (syncLevel exStoreDel exRootS exRootD).1 =
        .lsOp exRootS.uri :: .lsOp exRootD.uri :: (trS ++
          ([("k", Node.file [2] (some 0)), ("old", Node.dir [])].filterMap (fun q =>
            if (lookupChild [("k", Node.file [1] (some 1))] q.1).isSome then none
            else some (.rmOp ⟨Side.d, [] ++ [q.1]⟩)))) ∧
      (∀ lq, Op.rmOp lq ∈ trS →
        ∃ n, n ∈ ([("k", Node.file [1] (some 1))].map Prod.fst) ∧
          lq = ⟨.d, [] ++ [n]⟩) :=
  c4_deletion_completeness exStoreDel exRootS exRootD [] []
    [("k", .file [1] (some 1))] [("k", .file [2] (some 0)), ("old", .dir [])]
    (syncLevel exStoreDel exRootS exRootD).1
    (syncLevel exStoreDel exRootS exRootD).2.1
    (syncLevel exStoreDel exRootS exRootD).2.2.1
    rfl rfl rfl rfl rfl ⟨2, rfl⟩ ⟨3, rfl⟩ rfl

/-- C7: precondition violations raise ValueError before any provider call.
Creating a directory or file under a non-directory parent, writing to a
non-file, and reading a non-file each return the invalid-argument error
with an empty trace and an unchanged store. -/
theorem c7_preconditions (st : Store) (puri : Loc) (ptype : SAFType) (name : String)
    (content : Option (List Nat)) (e1 e2 : SAFEntry) (c : List Nat)
    (hp : ¬ ptype = .DIR) (h1 : ¬ e1.file_type = .FILE) (h2 : ¬ e2.file_type = .FILE) :
    mkdir st puri ptype name =
      (.error (.valueError "Trying to create a directory inside a non-directory"),
        st, []) ∧
    mkfile st puri ptype name content =
      (.error (.valueError "Trying to create a file inside a non-directory"),
        st, []) ∧
    saf_write st e1 c =
      (.error (.valueError "Trying to write to a non-file"), st, []) ∧
    saf_read st e2 = (.error (.valueError "Trying to read a non-file"), []) := by
  refine ⟨?_, ?_, ?_, ?_⟩
  · unfold mkdir
    rw [if_pos hp]
  · unfold mkfile
    rw [if_pos hp]
  · unfold saf_write
    rw [if_pos h1]
  · unfold saf_read
    rw [if_pos h2]

theorem c7_preconditions_witness :
    mkdir exStore ⟨.d, []⟩ .FILE "z" =
      (.error (.valueError "Trying to create a directory inside a non-directory"),
        exStore, []) ∧
    mkfile exStore ⟨.d, []⟩ .FILE "z" (some [1]) =
      (.error (.valueError "Trying to create a file inside a non-directory"),
        exStore, []) ∧
    saf_write exStore exRootD [1] =
      (.error (.valueError "Trying to write to a non-file"), exStore, []) ∧
    saf_read exStore exRootD =
      (.error (.valueError "Trying to read a non-file"), []) :=
  c7_preconditions exStore ⟨.d, []⟩ .FILE "z" (some [1]) exRootD exRootD [1]
    (by decide) (by decide) (by decide)

/-- C8: LIFO traversal.  The work list is seeded with exactly the root
pair; each iteration pops the pair at the top of the list, and the pairs
the step pushes are placed on top of the remaining list, so the pair
popped next is always the most recently pushed pending pair. -/
theorem c8_lifo :
    (∀ (fuel : Nat) (st : Store) (rs rd : SAFEntry),
      sync fuel st rs rd = syncLoop fuel st [(rs, rd)]) ∧
    (∀ (fuel : Nat) (st : Store) (s d : SAFEntry)
      (rest : List (SAFEntry × SAFEntry)) (tr : List Op)
      (ps : List (SAFEntry × SAFEntry)) (st1 : Store),
      syncStep st s d = (tr, ps, st1, none) →
      syncLoop (fuel + 1) st ((s, d) :: rest) =
        match syncLoop fuel st1 (ps ++ rest) with
        | (tr2, done2, st2, e2) => (tr ++ tr2, (s, d) :: done2, st2, e2)) ∧
    (∀ (fuel : Nat) (st : Store) (s d : SAFEntry)
      (rest : List (SAFEntry × SAFEntry)) (tr : List Op)
      (ps : List (SAFEntry × SAFEntry)) (st1 : Store) (err : Err),
      syncStep st s d = (tr, ps, st1, some err) →
      syncLoop (fuel + 1) st ((s, d) :: rest) = (tr, [(s, d)], st1, some err)) := by
  refine ⟨fun fuel st rs rd => rfl, ?_, ?_⟩
  · intro fuel st s d rest tr ps st1 hstep
    simp only [syncLoop, hstep]
  · intro fuel st s d rest tr ps st1 err hstep
    simp only [syncLoop, hstep]

theorem c8_lifo_witness :
    syncLoop 2 exStore [(exRootS, exRootD)] =
      match syncLoop 1 (syncStep exStore exRootS exRootD).2.2.1
          ((syncStep exStore exRootS exRootD).2.1 ++ []) with
      | (tr2, done2, st2, e2) =>
        ((syncStep exStore exRootS exRootD).1 ++ tr2,
          (exRootS, exRootD) :: done2, st2, e2) :=
  c8_lifo.2.1 1 exStore exRootS exRootD []
    (syncStep exStore exRootS exRootD).1
    (syncStep exStore exRootS exRootD).2.1
    (syncStep exStore exRootS exRootD).2.2.1 rfl

/-- C5: type-mismatch correction.  After a successful reconciliation of a
directory level, every name whose kinds differ between the two listings
holds, in the destination, a node of the source's kind: an empty directory
when the source child is a directory (the old file is gone), or a file
related to the source file (the old children are gone).  Moreover, when a
popped pair's destination is not a directory, the step first removes the
destination entry, then recreates a directory with the same name under the
destination entry's parent and reconciles the level against the new
entry's locator. -/
theorem c5_type_mismatch (st : Store) (s d : SAFEntry) (sp dp : List String)
    (scs dcs : List (String × Node)) (tr : List Op)
    (P : List (SAFEntry × SAFEntry)) (st' : Store)
    (hsuri : s.uri = ⟨.s, sp⟩) (hduri : d.uri = ⟨.d, dp⟩) (hdft : d.file_type = .DIR)
    (hsrc : lookupPath st.src sp = some (.dir scs))
    (hdst : lookupPath st.dst dp = some (.dir dcs))
    (hwfs : Wf st.src) (hwfd : Wf st.dst)
    (hrun : syncLevel st s d = (tr, P, st', none)) :
    (∃ cur', lookupPath st'.dst dp = some (.dir cur') ∧
      ∀ n sc dc, lookupChild scs n = some sc → lookupChild dcs n = some dc →
        ¬ nodeType sc = nodeType dc →
        ((∀ ccs, sc = .dir ccs → lookupChild cur' n = some (.dir [])) ∧
         (∀ cc cm, sc = .file cc cm → ∃ c1 m1,
            lookupChild cur' n = some (.file c1 m1) ∧ fileMatchS cc cm c1 m1))) ∧
    (∀ (st2 : Store) (s2 d2 : SAFEntry) (t2 : Node) (ploc : Loc) (ptype : SAFType),
      s2.file_type = .DIR → ¬ d2.file_type = .DIR →
      rmAt (st2.tree d2.uri.side) d2.uri.path = some t2 →
      d2.parent = some (ploc, ptype) →
      syncStep st2 s2 d2 =
        match mkdir (st2.setTree d2.uri.side t2) ploc ptype d2.name with
        | (.error err, st3, ops2) => ([.rmOp d2.uri] ++ ops2, [], st3, some err)
        | (.ok nd, st3, ops2) =>
          match syncLevel st3 s2 nd with
          | (trL, ps, st4, e4) =>
            ([.rmOp d2.uri] ++ ops2 ++ trL, ps.reverse, st4, e4)) := by
  constructor
  · obtain ⟨cur', trS, h1, h2, h3, h4, h5, h6, h7, h8, h9⟩ :=
      syncLevel_spec st s d sp dp scs dcs tr P st' hsuri hduri hdft hsrc hdst
        hwfs hwfd hrun
    refine ⟨cur', h4, ?_⟩
    intro n sc dc hsc hdc hne
    cases sc with
    | file cc cm =>
      refine ⟨(fun ccs hx => by cases hx), ?_⟩
      intro cc2 cm2 hx
      injection hx with hx1 hx2
      subst hx1
      subst hx2
      exact srcOutcome_file_extract dcs cur' n cc cm
        (h5 (n, .file cc cm) (lookupChild_mem scs n _ hsc))
    | dir ccs =>
      refine ⟨?_, (fun cc cm hx => by cases hx)⟩
      intro ccs2 hx
      have ho := h5 (n, .dir ccs) (lookupChild_mem scs n _ hsc)
      unfold srcOutcome at ho
      cases dc with
      | dir dd => exact absurd rfl hne
      | file c1 m1 =>
        simp only [hdc] at ho
        exact ho
  · intro st2 s2 d2 t2 ploc ptype hs2 hd2 hrm hpar
    unfold syncStep
    rw [if_pos hs2, if_pos hd2]
    simp only [rm_ok st2 d2 t2 hrm, hpar]

theorem c5_type_mismatch_witness :
    (∃ cur',
      lookupPath (syncLevel exStoreMM exRootS exRootD).2.2.1.dst [] =
        some (.dir cur') ∧
      ∀ n sc dc,
        lookupChild [("x", Node.dir []), ("y", Node.file [7] (some 1))] n = some sc →
        lookupChild [("x", Node.file [9] (some 2)),
          ("y", Node.dir [("junk", Node.file [] none)])] n = some dc →
        ¬ nodeType sc = nodeType dc →
        ((∀ ccs, sc = .dir ccs → lookupChild cur' n = some (.dir [])) ∧
         (∀ cc cm, sc = .file cc cm → ∃ c1 m1,
            lookupChild cur' n = some (.file c1 m1) ∧ fileMatchS cc cm c1 m1))) ∧
    (∀ (st2 : Store) (s2 d2 : SAFEntry) (t2 : Node) (ploc : Loc) (ptype : SAFType),
      s2.file_type = .DIR → ¬ d2.file_type = .DIR →
      rmAt (st2.tree d2.uri.side) d2.uri.path = some t2 →
      d2.parent = some (ploc, ptype) →
      syncStep st2 s2 d2 =
        match mkdir (st2.setTree d2.uri.side t2) ploc ptype d2.name with
        | (.error err, st3, ops2) => ([.rmOp d2.uri] ++ ops2, [], st3, some err)
        | (.ok nd, st3, ops2) =>
          match syncLevel st3 s2 nd with
          | (trL, ps, st4, e4) =>
            ([.rmOp d2.uri] ++ ops2 ++ trL, ps.reverse, st4, e4)) :=
  c5_type_mismatch exStoreMM exRootS exRootD [] []
    [("x", .dir []), ("y", .file [7] (some 1))]
    [("x", .file [9] (some 2)), ("y", .dir [("junk", .file [] none)])]
    (syncLevel exStoreMM exRootS exRootD).1
    (syncLevel exStoreMM exRootS exRootD).2.1
    (syncLevel exStoreMM exRootS exRootD).2.2.1
    rfl rfl rfl rfl rfl ⟨3, rfl⟩ ⟨3, rfl⟩ rfl

/-- C6: the materializer contract.  Under a directory destination parent,
create_dest_to_match creates an empty directory bearing the source's name
and returns the pair of the source and the new entry when the source is a
directory; when the source is a file it reads the full source content,
creates a file with the source's name holding exactly that content, and
returns nothing. -/
theorem c6_materializer (st : Store) (source dest_parent : SAFEntry)
    (pcs : List (String × Node))
    (hpk : dest_parent.file_type = .DIR)
    (h : lookupPath (st.tree dest_parent.uri.side) dest_parent.uri.path =
      some (.dir pcs)) :
    (source.file_type = .DIR →
      create_dest_to_match st source dest_parent =
        (.ok (some (source,
            ⟨⟨dest_parent.uri.side, dest_parent.uri.path ++ [source.name]⟩,
              source.name, .DIR, some (dest_parent.uri, .DIR), none, none⟩)),
          st.setTree dest_parent.uri.side
            (setPath (st.tree dest_parent.uri.side) dest_parent.uri.path
              (.dir (setChild pcs source.name (.dir [])))),
          [.mkdirOp dest_parent.uri source.name])) ∧
    (∀ c m, source.file_type = .FILE →
      lookupPath (st.tree source.uri.side) source.uri.path = some (.file c m) →
      create_dest_to_match st source dest_parent =
        (.ok none,
          ((st.setTree dest_parent.uri.side
            (setPath (st.tree dest_parent.uri.side) dest_parent.uri.path
              (.dir (setChild pcs source.name
                (.file c (some (st.now + 1))))))).tick).tick,
          [.readOp source.uri, .mkfileOp dest_parent.uri source.name,
            .writeOp ⟨dest_parent.uri.side,
              dest_parent.uri.path ++ [source.name]⟩ c])) :=
  ⟨fun hsk => create_dest_to_match_dir st source dest_parent pcs hsk hpk h,
   fun c m hsk hs => create_dest_to_match_file st source dest_parent pcs c m
     hsk hpk hs h⟩

theorem c6_materializer_witness :
    (exSrcQ.file_type = .DIR →
      create_dest_to_match exStoreQ exSrcQ exRootD =
        (.ok (some (exSrcQ,
            ⟨⟨exRootD.uri.side, exRootD.uri.path ++ [exSrcQ.name]⟩,
              exSrcQ.name, .DIR, some (exRootD.uri, .DIR), none, none⟩)),
          exStoreQ.setTree exRootD.uri.side
            (setPath (exStoreQ.tree exRootD.uri.side) exRootD.uri.path
              (.dir (setChild [("q", .file [5] (some 0))] exSrcQ.name (.dir [])))),
          [.mkdirOp exRootD.uri exSrcQ.name])) ∧
    (∀ c m, exSrcQ.file_type = .FILE →
      lookupPath (exStoreQ.tree exSrcQ.uri.side) exSrcQ.uri.path =
        some (.file c m) →
      create_dest_to_match exStoreQ exSrcQ exRootD =
        (.ok none,
          ((exStoreQ.setTree exRootD.uri.side
            (setPath (exStoreQ.tree exRootD.uri.side) exRootD.uri.path
              (.dir (setChild [("q", .file [5] (some 0))] exSrcQ.name
                (.file c (some (exStoreQ.now + 1))))))).tick).tick,
          [.readOp exSrcQ.uri, .mkfileOp exRootD.uri exSrcQ.name,
            .writeOp ⟨exRootD.uri.side,
              exRootD.uri.path ++ [exSrcQ.name]⟩ c])) :=
  c6_materializer exStoreQ exSrcQ exRootD [("q", .file [5] (some 0))] rfl rfl

theorem mkdir_ret (st : Store) (puri : Loc) (ptype : SAFType) (name : String)
    (nd : SAFEntry) (st1 : Store) (ops : List Op)
    (h : mkdir st puri ptype name = (.ok nd, st1, ops)) :
    nd = ⟨⟨puri.side, puri.path ++ [name]⟩, name, .DIR, some (puri, ptype),
      none, none⟩ := by
  unfold mkdir at h
  by_cases hp : ptype ≠ .DIR
  · rw [if_pos hp] at h
    simp at h
  · rw [if_neg hp] at h
    rcases hm : nodeModify (st.tree puri.side) puri.path
        (insertDirChild name (.dir [])) with _ | t'
    · simp only [hm] at h
      simp at h
    · simp only [hm, Prod.mk.injEq, Except.ok.injEq] at h
      exact h.1.symm

theorem create_dest_to_match_push (st : Store) (source dest_parent : SAFEntry)
    (r : SAFEntry × SAFEntry) (st1 : Store) (ops : List Op)
    (h : create_dest_to_match st source dest_parent = (.ok (some r), st1, ops)) :
    r.1 = source ∧ source.file_type = .DIR ∧ r.2.file_type = .DIR ∧
    r.2.uri.side = dest_parent.uri.side ∧
    r.2.parent = some (dest_parent.uri, dest_parent.file_type) := by
  unfold create_dest_to_match at h
  by_cases hsk : source.file_type = .DIR
  · rw [if_pos hsk] at h
    rcases hm : mkdir st dest_parent.uri dest_parent.file_type source.name
      with ⟨mr, st2, ops2⟩
    simp only [hm] at h
    cases mr with
    | error err => simp at h
    | ok nd =>
      simp only [Prod.mk.injEq, Except.ok.injEq, Option.some.injEq] at h
      obtain ⟨hr, -, -⟩ := h
      have hnd := mkdir_ret st dest_parent.uri dest_parent.file_type source.name
        nd st2 ops2 hm
      rw [← hr, hnd]
      exact ⟨rfl, hsk, rfl, rfl, rfl⟩
  · rw [if_neg hsk] at h
    rcases hrd : saf_read st source with ⟨rr, ops0⟩
    simp only [hrd] at h
    cases rr with
    | error err => simp at h
    | ok c =>
      rcases hmf : mkfile st dest_parent.uri dest_parent.file_type source.name
        (some c) with ⟨fr, st2, ops2⟩
      simp only [hmf] at h
      cases fr with
      | error err => simp at h
      | ok nd => simp at h

theorem processSrc_pushes_dir (d : SAFEntry) (dm : List (String × SAFEntry)) :
    ∀ (l : List (String × SAFEntry)) (st : Store) (tr : List Op)
      (ps : List (SAFEntry × SAFEntry)) (st' : Store) (e : Option Err),
    processSrc d dm st l = (tr, ps, st', e) →
    ∀ pr ∈ ps, pr.1.file_type = .DIR := by
  intro l
  induction l with
  | nil =>
    intro st tr ps st' e h pr hpr
    simp only [processSrc, Prod.mk.injEq] at h
    obtain ⟨-, hps, -, -⟩ := h
    rw [← hps] at hpr
    cases hpr
  | cons q rest ih =>
    intro st tr ps st' e h pr hpr
    obtain ⟨n, entry⟩ := q
    simp only [processSrc] at h
    cases hk : lookupKey dm n with
    | none =>
      simp only [hk] at h
      rcases hcre : create_dest_to_match st entry d with ⟨r, st1, ops⟩
      simp only [hcre] at h
      cases r with
      | error err =>
        simp only [Prod.mk.injEq] at h
        obtain ⟨-, hps, -, -⟩ := h
        rw [← hps] at hpr
        cases hpr
      | ok ropt =>
        rcases hrec : processSrc d dm st1 rest with ⟨tr2, ps2, st2, e2⟩
        simp only [hrec, Prod.mk.injEq] at h
        obtain ⟨-, hps, -, -⟩ := h
        rw [← hps] at hpr
        cases ropt with
        | none =>
          rcases List.mem_append.mp hpr with h1 | h1
          · cases h1
          · exact ih st1 tr2 ps2 st2 e2 hrec pr h1
        | some prr =>
          rcases List.mem_append.mp hpr with h1 | h1
          · have hpr1 : pr = prr := by simpa using h1
            obtain ⟨hr1, hr2, -, -, -⟩ :=
              create_dest_to_match_push st entry d prr st1 ops hcre
            rw [hpr1, hr1]
            exact hr2
          · exact ih st1 tr2 ps2 st2 e2 hrec pr h1
    | some de =>
      simp only [hk] at h
      by_cases hne : entry.file_type ≠ de.file_type
      · rw [if_pos hne] at h
        rcases hrm : rm st de with ⟨rr, st1, ops⟩
        simp only [hrm] at h
        cases rr with
        | error err =>
          simp only [Prod.mk.injEq] at h
          obtain ⟨-, hps, -, -⟩ := h
          rw [← hps] at hpr
          cases hpr
        | ok u =>
          rcases hcre : create_dest_to_match st1 entry d with ⟨r2, st2, ops2⟩
          simp only [hcre] at h
          cases r2 with
          | error err =>
            simp only [Prod.mk.injEq] at h
            obtain ⟨-, hps, -, -⟩ := h
            rw [← hps] at hpr
            cases hpr
          | ok ropt =>
            rcases hrec : processSrc d dm st2 rest with ⟨tr3, ps3, st3, e3⟩
            simp only [hrec, Prod.mk.injEq] at h
            obtain ⟨-, hps, -, -⟩ := h
            rw [← hps] at hpr
            cases ropt with
            | none =>
              rcases List.mem_append.mp hpr with h1 | h1
              · cases h1
              · exact ih st2 tr3 ps3 st3 e3 hrec pr h1
            | some prr =>
              rcases List.mem_append.mp hpr with h1 | h1
              · have hpr1 : pr = prr := by simpa using h1
                obtain ⟨hr1, hr2, -, -, -⟩ :=
                  create_dest_to_match_push st1 entry d prr st2 ops2 hcre
                rw [hpr1, hr1]
                exact hr2
              · exact ih st2 tr3 ps3 st3 e3 hrec pr h1
      · rw [if_neg hne] at h
        by_cases hdirx : entry.file_type = .DIR
        · rw [if_pos hdirx] at h
          rcases hrec : processSrc d dm st rest with ⟨tr2, ps2, st2, e2⟩
          simp only [hrec, Prod.mk.injEq] at h
          obtain ⟨-, hps, -, -⟩ := h
          rw [← hps] at hpr
          rcases List.mem_cons.mp hpr with h1 | h1
          · rw [h1]
            exact hdirx
          · exact ih st tr2 ps2 st2 e2 hrec pr h1
        · rw [if_neg hdirx] at h
          rcases hfu : fileUpdate st entry de with ⟨ops, st1, e1⟩
          simp only [hfu] at h
          cases e1 with
          | some err =>
            simp only [Prod.mk.injEq] at h
            obtain ⟨-, hps, -, -⟩ := h
            rw [← hps] at hpr
            cases hpr
          | none =>
            rcases hrec : processSrc d dm st1 rest with ⟨tr2, ps2, st2, e2⟩
            simp only [hrec, Prod.mk.injEq] at h
            obtain ⟨-, hps, -, -⟩ := h
            rw [← hps] at hpr
            exact ih st1 tr2 ps2 st2 e2 hrec pr hpr

theorem syncLevel_pushes_dir (st : Store) (s d : SAFEntry) (tr : List Op)
    (ps : List (SAFEntry × SAFEntry)) (st' : Store) (e : Option Err)
    (h : syncLevel st s d = (tr, ps, st', e)) :
    ∀ pr ∈ ps, pr.1.file_type = .DIR := by
  intro pr hpr
  unfold syncLevel at h
  rcases h1 : ls_map st s with ⟨r1, ops1⟩
  simp only [h1] at h
  cases r1 with
  | error err =>
    simp only [Prod.mk.injEq] at h
    obtain ⟨-, hps, -, -⟩ := h
    rw [← hps] at hpr
    cases hpr
  | ok sm =>
    rcases h2 : ls_map st d with ⟨r2, ops2⟩
    simp only [h2] at h
    cases r2 with
    | error err =>
      simp only [Prod.mk.injEq] at h
      obtain ⟨-, hps, -, -⟩ := h
      rw [← hps] at hpr
      cases hpr
    | ok dm =>
      rcases h3 : processSrc d dm st sm with ⟨tr3, ps3, st3, e3⟩
      simp only [h3] at h
      cases e3 with
      | some err =>
        simp only [Prod.mk.injEq] at h
        obtain ⟨-, hps, -, -⟩ := h
        rw [← hps] at hpr
        exact processSrc_pushes_dir d dm sm st tr3 ps3 st3 (some err) h3 pr hpr
      | none =>
        rcases h4 : processDel sm dm st3 with ⟨tr4, st4, e4⟩
        simp only [h4, Prod.mk.injEq] at h
        obtain ⟨-, hps, -, -⟩ := h
        rw [← hps] at hpr
        exact processSrc_pushes_dir d dm sm st tr3 ps3 st3 none h3 pr hpr

theorem syncStep_pushes_dir (st : Store) (s d : SAFEntry) (tr : List Op)
    (ps : List (SAFEntry × SAFEntry)) (st' : Store) (e : Option Err)
    (h : syncStep st s d = (tr, ps, st', e)) :
    ∀ pr ∈ ps, pr.1.file_type = .DIR := by
  intro pr hpr
  unfold syncStep at h
  by_cases hs : s.file_type = .DIR
  · rw [if_pos hs] at h
    by_cases hd : d.file_type ≠ .DIR
    · rw [if_pos hd] at h
      rcases hrm : rm st d with ⟨rr, st1, ops⟩
      simp only [hrm] at h
      cases rr with
      | error err =>
        simp only [Prod.mk.injEq] at h
        obtain ⟨-, hps, -, -⟩ := h
        rw [← hps] at hpr
        cases hpr
      | ok u =>
        cases hpar : d.parent with
        | none =>
          simp only [hpar, Prod.mk.injEq] at h
          obtain ⟨-, hps, -, -⟩ := h
          rw [← hps] at hpr
          cases hpr
        | some pp =>
          obtain ⟨ploc, ptype⟩ := pp
          simp only [hpar] at h
          rcases hmk : mkdir st1 ploc ptype d.name with ⟨mr, st2, ops2⟩
          simp only [hmk] at h
          cases mr with
          | error err =>
            simp only [Prod.mk.injEq] at h
            obtain ⟨-, hps, -, -⟩ := h
            rw [← hps] at hpr
            cases hpr
          | ok nd =>
            rcases hsl : syncLevel st2 s nd with ⟨trL, psL, st3, e3⟩
            simp only [hsl, Prod.mk.injEq] at h
            obtain ⟨-, hps, -, -⟩ := h
            rw [← hps] at hpr
            rw [List.mem_reverse] at hpr
            exact syncLevel_pushes_dir st2 s nd trL psL st3 e3 hsl pr hpr
    · rw [if_neg hd] at h
      rcases hsl : syncLevel st s d with ⟨trL, psL, st3, e3⟩
      simp only [hsl, Prod.mk.injEq] at h
      obtain ⟨-, hps, -, -⟩ := h
      rw [← hps] at hpr
      rw [List.mem_reverse] at hpr
      exact syncLevel_pushes_dir st s d trL psL st3 e3 hsl pr hpr
  · rw [if_neg hs] at h
    simp only [Prod.mk.injEq] at h
    obtain ⟨-, hps, -, -⟩ := h
    rw [← hps] at hpr
    cases hpr

theorem syncLoop_done_dir (fuel : Nat) :
    ∀ (st : Store) (stack : List (SAFEntry × SAFEntry)) (tr : List Op)
      (done : List (SAFEntry × SAFEntry)) (st' : Store) (e : Option Err),
    (∀ p ∈ stack, p.1.file_type = .DIR) →
    syncLoop fuel st stack = (tr, done, st', e) →
    ∀ p ∈ done, p.1.file_type = .DIR := by
  induction fuel with
  | zero =>
    intro st stack tr done st' e hstack h p hp
    cases stack with
    | nil =>
      simp only [syncLoop, Prod.mk.injEq] at h
      obtain ⟨-, hd, -, -⟩ := h
      rw [← hd] at hp
      cases hp
    | cons q rest =>
      simp only [syncLoop, Prod.mk.injEq] at h
      obtain ⟨-, hd, -, -⟩ := h
      rw [← hd] at hp
      cases hp
  | succ fuel ih =>
    intro st stack tr done st' e hstack h p hp
    cases stack with
    | nil =>
      simp only [syncLoop, Prod.mk.injEq] at h
      obtain ⟨-, hd, -, -⟩ := h
      rw [← hd] at hp
      cases hp
    | cons q rest =>
      obtain ⟨s, d⟩ := q
      simp only [syncLoop] at h
      rcases hstep : syncStep st s d with ⟨trS, ps, st1, e1⟩
      simp only [hstep] at h
      cases e1 with
      | some err =>
        simp only [Prod.mk.injEq] at h
        obtain ⟨-, hd, -, -⟩ := h
        rw [← hd] at hp
        rcases List.mem_singleton.mp hp with rfl
        exact hstack (s, d) (List.mem_cons_self _ _)
      | none =>
        rcases hloop : syncLoop fuel st1 (ps ++ rest) with ⟨tr2, done2, st2, e2⟩
        simp only [hloop, Prod.mk.injEq] at h
        obtain ⟨-, hd, -, -⟩ := h
        rw [← hd] at hp
        rcases List.mem_cons.mp hp with rfl | hp2
        · exact hstack (s, d) (List.mem_cons_self _ _)
        · refine ih st1 (ps ++ rest) tr2 done2 st2 e2 ?_ hloop p hp2
          intro p2 hp2m
          rcases List.mem_append.mp hp2m with hl | hr
          · exact syncStep_pushes_dir st s d trS ps st1 none hstep p2 hl
          · exact hstack p2 (List.mem_cons_of_mem _ hr)

/-- C9: the work-list DIR invariant.  When the root source entry is a
directory, every pair sync ever pops off the work list has a DIR source:
the seed pair does, and the loop only ever pushes directory-to-directory
pairs, so the silent non-DIR-source branch is never taken. -/
theorem c9_worklist_dir (fuel : Nat) (st : Store) (root_source root_dest : SAFEntry)
    (tr : List Op) (done : List (SAFEntry × SAFEntry)) (st' : Store) (e : Option Err)
    (hroot : root_source.file_type = .DIR)
    (hrun : sync fuel st root_source root_dest = (tr, done, st', e)) :
    ∀ p ∈ done, p.1.file_type = .DIR := by
  refine syncLoop_done_dir fuel st [(root_source, root_dest)] tr done st' e ?_ hrun
  intro p hp
  rcases List.mem_singleton.mp hp with rfl
  exact hroot

theorem c9_worklist_dir_witness :
    (exRootS, exRootD).1.file_type = SAFType.DIR :=
  c9_worklist_dir 5 exStore exRootS exRootD
    (sync 5 exStore exRootS exRootD).1
    (sync 5 exStore exRootS exRootD).2.1
    (sync 5 exStore exRootS exRootD).2.2.1
    (sync 5 exStore exRootS exRootD).2.2.2
    rfl rfl (exRootS, exRootD) (by decide)

theorem lookupKey_mem (l : List (String × SAFEntry)) (n : String) (e : SAFEntry)
    (h : lookupKey l n = some e) : (n, e) ∈ l := by
  induction l with
  | nil => cases h
  | cons q rest ih =>
    obtain ⟨m, v⟩ := q
    rw [lookupKey_cons] at h
    by_cases hm : m = n
    · rw [if_pos hm] at h
      injection h with h
      rw [← h, ← hm]
      exact List.mem_cons_self _ _
    · rw [if_neg hm] at h
      exact List.mem_cons_of_mem _ (ih h)

theorem mem_insertLWW (m : List (String × SAFEntry)) (k : String) (v : SAFEntry)
    (p : String × SAFEntry) (h : p ∈ insertLWW m k v) : p.2 = v ∨ p ∈ m := by
  unfold insertLWW at h
  by_cases ha : m.any (fun q => q.1 = k)
  · rw [if_pos ha] at h
    obtain ⟨q, hq, hqe⟩ := List.mem_map.mp h
    by_cases hk : q.1 = k
    · rw [if_pos hk] at hqe
      left
      rw [← hqe]
    · rw [if_neg hk] at hqe
      right
      rw [← hqe]
      exact hq
  · rw [if_neg ha] at h
    rcases List.mem_append.mp h with h1 | h1
    · right
      exact h1
    · left
      rcases List.mem_singleton.mp h1 with rfl
      rfl

theorem mem_lsFold_aux (S : List SAFEntry) :
    ∀ (l : List SAFEntry) (acc : List (String × SAFEntry)),
    (∀ p ∈ acc, p.2 ∈ S) → (∀ x ∈ l, x ∈ S) →
    ∀ p ∈ l.foldl (fun m e => insertLWW m e.name e) acc, p.2 ∈ S := by
  intro l
  induction l with
  | nil => intro acc hacc _ p hp; exact hacc p hp
  | cons e l' ih =>
    intro acc hacc hl p hp
    refine ih (insertLWW acc e.name e) ?_ (fun x hx => hl x (List.mem_cons_of_mem _ hx)) p hp
    intro q hq
    rcases mem_insertLWW acc e.name e q hq with h1 | h1
    · rw [h1]
      exact hl e (List.mem_cons_self _ _)
    · exact hacc q h1

theorem mem_lsFold (l : List SAFEntry) (p : String × SAFEntry)
    (h : p ∈ lsFold l) : p.2 ∈ l :=
  mem_lsFold_aux l l [] (fun q hq => by cases hq) (fun x hx => hx) p h

theorem entryOf_parent (puri : Loc) (ptype : SAFType) (n : String) (t : Node) :
    (entryOf puri ptype n t).parent = some (puri, ptype) := by
  cases t <;> rfl

theorem ls_map_entries (st : Store) (e : SAFEntry) (r : List (String × SAFEntry))
    (ops : List Op) (h : ls_map st e = (.ok r, ops)) :
    ∀ p ∈ r, p.2.uri.side = e.uri.side ∧
      (∀ pl pt, p.2.parent = some (pl, pt) → pl = e.uri) := by
  intro p hp
  unfold ls_map at h
  rcases hls : ls st e with ⟨lr, ops0⟩
  simp only [hls] at h
  cases lr with
  | error err => simp at h
  | ok l =>
    simp only [Prod.mk.injEq, Except.ok.injEq] at h
    obtain ⟨hr, -⟩ := h
    rw [← hr] at hp
    have hmem : p.2 ∈ l := mem_lsFold l p hp
    unfold ls at hls
    rcases hlk : lookupPath (st.tree e.uri.side) e.uri.path with _ | t
    · simp only [hlk] at hls
      simp at hls
    · cases t with
      | file c m =>
        simp only [hlk] at hls
        simp at hls
      | dir cs =>
        simp only [hlk, Prod.mk.injEq, Except.ok.injEq] at hls
        obtain ⟨hl2, -⟩ := hls
        rw [← hl2] at hmem
        obtain ⟨q, -, hqe⟩ := List.mem_map.mp hmem
        rw [← hqe]
        refine ⟨by rw [entryOf_uri], ?_⟩
        intro pl pt hpar
        rw [entryOf_parent] at hpar
        injection hpar with hpar
        injection hpar with h1 h2
        exact h1.symm

theorem ls_ops_none (st : Store) (e : SAFEntry) (r : Except Err (List SAFEntry))
    (ops : List Op) (h : ls st e = (r, ops)) :
    ∀ op ∈ ops, op.isMutating = false := by
  intro op hop
  unfold ls at h
  rcases hlk : lookupPath (st.tree e.uri.side) e.uri.path with _ | t
  · simp only [hlk, Prod.mk.injEq] at h
    obtain ⟨-, hops⟩ := h
    rw [← hops] at hop
    rcases List.mem_singleton.mp hop with rfl
    rfl
  · cases t with
    | file c m =>
      simp only [hlk, Prod.mk.injEq] at h
      obtain ⟨-, hops⟩ := h
      rw [← hops] at hop
      rcases List.mem_singleton.mp hop with rfl
      rfl
    | dir cs =>
      simp only [hlk, Prod.mk.injEq] at h
      obtain ⟨-, hops⟩ := h
      rw [← hops] at hop
      rcases List.mem_singleton.mp hop with rfl
      rfl

theorem ls_map_ops_none (st : Store) (e : SAFEntry)
    (r : Except Err (List (String × SAFEntry))) (ops : List Op)
    (h : ls_map st e = (r, ops)) :
    ∀ op ∈ ops, op.isMutating = false := by
  unfold ls_map at h
  rcases hls : ls st e with ⟨lr, ops0⟩
  simp only [hls] at h
  cases lr with
  | error err =>
    simp only [Prod.mk.injEq] at h
    obtain ⟨-, hops⟩ := h
    rw [← hops]
    exact ls_ops_none st e (.error err) ops0 hls
  | ok l =>
    simp only [Prod.mk.injEq] at h
    obtain ⟨-, hops⟩ := h
    rw [← hops]
    exact ls_ops_none st e (.ok l) ops0 hls

theorem mkdir_side (st : Store) (puri : Loc) (ptype : SAFType) (name : String)
    (r : Except Err SAFEntry) (st1 : Store) (ops : List Op)
    (h : mkdir st puri ptype name = (r, st1, ops)) :
    (∀ op ∈ ops, op.side = puri.side) ∧ (puri.side = Side.d → st1.src = st.src) := by
  unfold mkdir at h
  by_cases hp : ptype ≠ .DIR
  · rw [if_pos hp] at h
    simp only [Prod.mk.injEq] at h
    obtain ⟨-, hst, hops⟩ := h
    rw [← hops, ← hst]
    exact ⟨(fun op hop => by cases hop), fun _ => rfl⟩
  · rw [if_neg hp] at h
    rcases hm : nodeModify (st.tree puri.side) puri.path
        (insertDirChild name (.dir [])) with _ | t'
    · simp only [hm, Prod.mk.injEq] at h
      obtain ⟨-, hst, hops⟩ := h
      rw [← hops, ← hst]
      refine ⟨?_, fun _ => rfl⟩
      intro op hop
      rcases List.mem_singleton.mp hop with rfl
      rfl
    · simp only [hm, Prod.mk.injEq] at h
      obtain ⟨-, hst, hops⟩ := h
      rw [← hops, ← hst]
      refine ⟨?_, ?_⟩
      · intro op hop
        rcases List.mem_singleton.mp hop with rfl
        rfl
      · intro hside
        rw [hside]
        rfl

theorem saf_write_side (st : Store) (e : SAFEntry) (c : List Nat)
    (r : Except Err Unit) (st1 : Store) (ops : List Op)
    (h : saf_write st e c = (r, st1, ops)) :
    (∀ op ∈ ops, op.side = e.uri.side) ∧
    (e.uri.side = Side.d → st1.src = st.src) := by
  unfold saf_write at h
  by_cases hf : e.file_type ≠ .FILE
  · rw [if_pos hf] at h
    simp only [Prod.mk.injEq] at h
    obtain ⟨-, hst, hops⟩ := h
    rw [← hops, ← hst]
    exact ⟨(fun op hop => by cases hop), fun _ => rfl⟩
  · rw [if_neg hf] at h
    rcases hm : nodeModify (st.tree e.uri.side) e.uri.path
        (fun t => match t with
          | .file _ _ => some (.file c (some st.now))
          | .dir _ => none) with _ | t'
    · simp only [hm, Prod.mk.injEq] at h
      obtain ⟨-, hst, hops⟩ := h
      rw [← hops, ← hst]
      refine ⟨?_, fun _ => rfl⟩
      intro op hop
      rcases List.mem_singleton.mp hop with rfl
      rfl
    · simp only [hm, Prod.mk.injEq] at h
      obtain ⟨-, hst, hops⟩ := h
      rw [← hops, ← hst]
      refine ⟨?_, ?_⟩
      · intro op hop
        rcases List.mem_singleton.mp hop with rfl
        rfl
      · intro hside
        rw [hside]
        rfl

theorem rm_side (st : Store) (e : SAFEntry)
    (r : Except Err Unit) (st1 : Store) (ops : List Op)
    (h : rm st e = (r, st1, ops)) :
    (∀ op ∈ ops, op.side = e.uri.side) ∧
    (e.uri.side = Side.d → st1.src = st.src) := by
  unfold rm at h
  rcases hm : rmAt (st.tree e.uri.side) e.uri.path with _ | t'
  · simp only [hm, Prod.mk.injEq] at h
    obtain ⟨-, hst, hops⟩ := h
    rw [← hops, ← hst]
    refine ⟨?_, fun _ => rfl⟩
    intro op hop
    rcases List.mem_singleton.mp hop with rfl
    rfl
  · simp only [hm, Prod.mk.injEq] at h
    obtain ⟨-, hst, hops⟩ := h
    rw [← hops, ← hst]
    refine ⟨?_, ?_⟩
    · intro op hop
      rcases List.mem_singleton.mp hop with rfl
      rfl
    · intro hside
      rw [hside]
      rfl

theorem saf_read_ops_none (st : Store) (e : SAFEntry)
    (r : Except Err (List Nat)) (ops : List Op)
    (h : saf_read st e = (r, ops)) :
    ∀ op ∈ ops, op.isMutating = false := by
  intro op hop
  unfold saf_read at h
  by_cases hf : e.file_type ≠ .FILE
  · rw [if_pos hf] at h
    simp only [Prod.mk.injEq] at h
    obtain ⟨-, hops⟩ := h
    rw [← hops] at hop
    cases hop
  · rw [if_neg hf] at h
    rcases hlk : lookupPath (st.tree e.uri.side) e.uri.path with _ | t
    · simp only [hlk, Prod.mk.injEq] at h
      obtain ⟨-, hops⟩ := h
      rw [← hops] at hop
      rcases List.mem_singleton.mp hop with rfl
      rfl
    · cases t with
      | file c m =>
        simp only [hlk, Prod.mk.injEq] at h
        obtain ⟨-, hops⟩ := h
        rw [← hops] at hop
        rcases List.mem_singleton.mp hop with rfl
        rfl
      | dir cs =>
        simp only [hlk, Prod.mk.injEq] at h
        obtain ⟨-, hops⟩ := h
        rw [← hops] at hop
        rcases List.mem_singleton.mp hop with rfl
        rfl

theorem mkfile_side (st : Store) (puri : Loc) (ptype : SAFType) (name : String)
    (content : Option (List Nat)) (r : Except Err SAFEntry) (st1 : Store)
    (ops : List Op) (h : mkfile st puri ptype name content = (r, st1, ops)) :
    (∀ op ∈ ops, op.side = puri.side) ∧ (puri.side = Side.d → st1.src = st.src) := by
  unfold mkfile at h
  by_cases hp : ptype ≠ .DIR
  · rw [if_pos hp] at h
    simp only [Prod.mk.injEq] at h
    obtain ⟨-, hst, hops⟩ := h
    rw [← hops, ← hst]
    exact ⟨(fun op hop => by cases hop), fun _ => rfl⟩
  · rw [if_neg hp] at h
    rcases hm : nodeModify (st.tree puri.side) puri.path
        (insertDirChild name (.file [] (some st.now))) with _ | t'
    · simp only [hm, Prod.mk.injEq] at h
      obtain ⟨-, hst, hops⟩ := h
      rw [← hops, ← hst]
      refine ⟨?_, fun _ => rfl⟩
      intro op hop
      rcases List.mem_singleton.mp hop with rfl
      rfl
    · simp only [hm] at h
      cases content with
      | none =>
        simp only [Prod.mk.injEq] at h
        obtain ⟨-, hst, hops⟩ := h
        rw [← hops, ← hst]
        refine ⟨?_, ?_⟩
        · intro op hop
          rcases List.mem_singleton.mp hop with rfl
          rfl
        · intro hside
          rw [hside]
          rfl
      | some c =>
        rcases hw : saf_write ((st.setTree puri.side t').tick)
            ⟨⟨puri.side, puri.path ++ [name]⟩, name, .FILE, some (puri, ptype),
              none, none⟩ c with ⟨wr, st2, ops2⟩
        simp only [hw] at h
        obtain ⟨hws, hwsrc⟩ := saf_write_side _ _ c wr st2 ops2 hw
        have hcore : (∀ op ∈ Op.mkfileOp puri name :: ops2, op.side = puri.side) ∧
            (puri.side = Side.d → st2.src = st.src) := by
          refine ⟨?_, ?_⟩
          · intro op hop
            rcases List.mem_cons.mp hop with rfl | hop2
            · rfl
            · exact hws op hop2
          · intro hside
            rw [hwsrc hside]
            rw [hside]
            rfl
        cases wr with
        | ok u =>
          simp only [Prod.mk.injEq] at h
          obtain ⟨-, hst, hops⟩ := h
          rw [← hops, ← hst]
          exact hcore
        | error err =>
          simp only [Prod.mk.injEq] at h
          obtain ⟨-, hst, hops⟩ := h
          rw [← hops, ← hst]
          exact hcore

theorem fileUpdate_side (st : Store) (entry de : SAFEntry) (ops : List Op)
    (st1 : Store) (e : Option Err)
    (h : fileUpdate st entry de = (ops, st1, e)) :
    (∀ op ∈ ops, op.isMutating = true → op.side = de.uri.side) ∧
    (de.uri.side = Side.d → st1.src = st.src) := by
  unfold fileUpdate at h
  cases hmod : entry.modified with
  | none =>
    simp only [hmod] at h
    rcases hrd : saf_read st entry with ⟨rr, ops0⟩
    simp only [hrd] at h
    cases rr with
    | error err =>
      simp only [Prod.mk.injEq] at h
      obtain ⟨hops, hst, -⟩ := h
      rw [← hops, ← hst]
      refine ⟨?_, fun _ => rfl⟩
      intro op hop hmut
      rw [saf_read_ops_none st entry (.error err) ops0 hrd op hop] at hmut
      cases hmut
    | ok c =>
      rcases hw : saf_write st de c with ⟨wr, st2, ops2⟩
      simp only [hw] at h
      obtain ⟨hws, hwsrc⟩ := saf_write_side st de c wr st2 ops2 hw
      cases wr with
      | ok u =>
        simp only [Prod.mk.injEq] at h
        obtain ⟨hops, hst, -⟩ := h
        rw [← hops, ← hst]
        refine ⟨?_, hwsrc⟩
        intro op hop hmut
        rcases List.mem_append.mp hop with h1 | h1
        · rw [saf_read_ops_none st entry (.ok c) ops0 hrd op h1] at hmut
          cases hmut
        · exact hws op h1
      | error err =>
        simp only [Prod.mk.injEq] at h
        obtain ⟨hops, hst, -⟩ := h
        rw [← hops, ← hst]
        refine ⟨?_, hwsrc⟩
        intro op hop hmut
        rcases List.mem_append.mp hop with h1 | h1
        · rw [saf_read_ops_none st entry (.ok c) ops0 hrd op h1] at hmut
          cases hmut
        · exact hws op h1
  | some v =>
    simp only [hmod] at h
    by_cases hl : entry.length = de.length
    · rw [if_pos hl] at h
      cases hdm : de.modified with
      | none =>
        simp only [hdm, Prod.mk.injEq] at h
        obtain ⟨hops, hst, -⟩ := h
        rw [← hops, ← hst]
        exact ⟨(fun op hop => by cases hop), fun _ => rfl⟩
      | some w =>
        simp only [hdm] at h
        by_cases hgt : v > w
        · rw [if_pos hgt] at h
          simp only [Prod.mk.injEq] at h
          obtain ⟨hops, hst, -⟩ := h
          rw [← hops, ← hst]
          exact ⟨(fun op hop => by cases hop), fun _ => rfl⟩
        · rw [if_neg hgt] at h
          rcases hrd : saf_read st entry with ⟨rr, ops0⟩
          simp only [hrd] at h
          cases rr with
          | error err =>
            simp only [Prod.mk.injEq] at h
            obtain ⟨hops, hst, -⟩ := h
            rw [← hops, ← hst]
            refine ⟨?_, fun _ => rfl⟩
            intro op hop hmut
            rw [saf_read_ops_none st entry (.error err) ops0 hrd op hop] at hmut
            cases hmut
          | ok c =>
            rcases hw : saf_write st de c with ⟨wr, st2, ops2⟩
            simp only [hw] at h
            obtain ⟨hws, hwsrc⟩ := saf_write_side st de c wr st2 ops2 hw
            cases wr with
            | ok u =>
              simp only [Prod.mk.injEq] at h
              obtain ⟨hops, hst, -⟩ := h
              rw [← hops, ← hst]
              refine ⟨?_, hwsrc⟩
              intro op hop hmut
              rcases List.mem_append.mp hop with h1 | h1
              · rw [saf_read_ops_none st entry (.ok c) ops0 hrd op h1] at hmut
                cases hmut
              · exact hws op h1
            | error err =>
              simp only [Prod.mk.injEq] at h
              obtain ⟨hops, hst, -⟩ := h
              rw [← hops, ← hst]
              refine ⟨?_, hwsrc⟩
              intro op hop hmut
              rcases List.mem_append.mp hop with h1 | h1
              · rw [saf_read_ops_none st entry (.ok c) ops0 hrd op h1] at hmut
                cases hmut
              · exact hws op h1
    · rw [if_neg hl] at h
      rcases hrd : saf_read st entry with ⟨rr, ops0⟩
      simp only [hrd] at h
      cases rr with
      | error err =>
        simp only [Prod.mk.injEq] at h
        obtain ⟨hops, hst, -⟩ := h
        rw [← hops, ← hst]
        refine ⟨?_, fun _ => rfl⟩
        intro op hop hmut
        rw [saf_read_ops_none st entry (.error err) ops0 hrd op hop] at hmut
        cases hmut
      | ok c =>
        rcases hw : saf_write st de c with ⟨wr, st2, ops2⟩
        simp only [hw] at h
        obtain ⟨hws, hwsrc⟩ := saf_write_side st de c wr st2 ops2 hw
        cases wr with
        | ok u =>
          simp only [Prod.mk.injEq] at h
          obtain ⟨hops, hst, -⟩ := h
          rw [← hops, ← hst]
          refine ⟨?_, hwsrc⟩
          intro op hop hmut
          rcases List.mem_append.mp hop with h1 | h1
          · rw [saf_read_ops_none st entry (.ok c) ops0 hrd op h1] at hmut
            cases hmut
          · exact hws op h1
        | error err =>
          simp only [Prod.mk.injEq] at h
          obtain ⟨hops, hst, -⟩ := h
          rw [← hops, ← hst]
          refine ⟨?_, hwsrc⟩
          intro op hop hmut
          rcases List.mem_append.mp hop with h1 | h1
          · rw [saf_read_ops_none st entry (.ok c) ops0 hrd op h1] at hmut
            cases hmut
          · exact hws op h1

theorem create_dest_to_match_side (st : Store) (source dest_parent : SAFEntry)
    (r : Except Err (Option (SAFEntry × SAFEntry))) (st1 : Store) (ops : List Op)
    (h : create_dest_to_match st source dest_parent = (r, st1, ops)) :
    (∀ op ∈ ops, op.isMutating = true → op.side = dest_parent.uri.side) ∧
    (dest_parent.uri.side = Side.d → st1.src = st.src) := by
  unfold create_dest_to_match at h
  by_cases hsk : source.file_type = .DIR
  · rw [if_pos hsk] at h
    rcases hm : mkdir st dest_parent.uri dest_parent.file_type source.name
      with ⟨mr, st2, ops2⟩
    simp only [hm] at h
    obtain ⟨hms, hmsrc⟩ := mkdir_side st dest_parent.uri dest_parent.file_type
      source.name mr st2 ops2 hm
    cases mr with
    | ok nd =>
      simp only [Prod.mk.injEq] at h
      obtain ⟨-, hst, hops⟩ := h
      rw [← hops, ← hst]
      exact ⟨fun op hop _ => hms op hop, hmsrc⟩
    | error err =>
      simp only [Prod.mk.injEq] at h
      obtain ⟨-, hst, hops⟩ := h
      rw [← hops, ← hst]
      exact ⟨fun op hop _ => hms op hop, hmsrc⟩
  · rw [if_neg hsk] at h
    rcases hrd : saf_read st source with ⟨rr, ops0⟩
    simp only [hrd] at h
    cases rr with
    | error err =>
      simp only [Prod.mk.injEq] at h
      obtain ⟨-, hst, hops⟩ := h
      rw [← hops, ← hst]
      refine ⟨?_, fun _ => rfl⟩
      intro op hop hmut
      rw [saf_read_ops_none st source (.error err) ops0 hrd op hop] at hmut
      cases hmut
    | ok c =>
      rcases hmf : mkfile st dest_parent.uri dest_parent.file_type source.name
        (some c) with ⟨fr, st2, ops2⟩
      simp only [hmf] at h
      obtain ⟨hfs, hfsrc⟩ := mkfile_side st dest_parent.uri dest_parent.file_type
        source.name (some c) fr st2 ops2 hmf
      cases fr with
      | ok nd =>
        simp only [Prod.mk.injEq] at h
        obtain ⟨-, hst, hops⟩ := h
        rw [← hops, ← hst]
        refine ⟨?_, hfsrc⟩
        intro op hop hmut
        rcases List.mem_append.mp hop with h1 | h1
        · rw [saf_read_ops_none st source (.ok c) ops0 hrd op h1] at hmut
          cases hmut
        · exact hfs op h1
      | error err =>
        simp only [Prod.mk.injEq] at h
        obtain ⟨-, hst, hops⟩ := h
        rw [← hops, ← hst]
        refine ⟨?_, hfsrc⟩
        intro op hop hmut
        rcases List.mem_append.mp hop with h1 | h1
        · rw [saf_read_ops_none st source (.ok c) ops0 hrd op h1] at hmut
          cases hmut
        · exact hfs op h1

theorem processSrc_side (d : SAFEntry) (dm : List (String × SAFEntry))
    (hd : d.uri.side = Side.d)
    (hdm : ∀ p ∈ dm, p.2.uri.side = Side.d ∧
      ∀ pl pt, p.2.parent = some (pl, pt) → pl.side = Side.d) :
    ∀ (l : List (String × SAFEntry)) (st : Store) (tr : List Op)
      (ps : List (SAFEntry × SAFEntry)) (st' : Store) (e : Option Err),
    processSrc d dm st l = (tr, ps, st', e) →
    (∀ op ∈ tr, op.isMutating = true → op.side = Side.d) ∧
    st'.src = st.src ∧
    (∀ pr ∈ ps, pr.2.uri.side = Side.d ∧
      ∀ pl pt, pr.2.parent = some (pl, pt) → pl.side = Side.d) := by
  intro l
  induction l with
  | nil =>
    intro st tr ps st' e h
    simp only [processSrc, Prod.mk.injEq] at h
    obtain ⟨htr, hps, hst, -⟩ := h
    rw [← htr, ← hps, ← hst]
    exact ⟨(fun op hop => by cases hop), rfl, (fun pr hpr => by cases hpr)⟩
  | cons q rest ih =>
    intro st tr ps st' e h
    obtain ⟨n, entry⟩ := q
    simp only [processSrc] at h
    cases hk : lookupKey dm n with
    | none =>
      simp only [hk] at h
      rcases hcre : create_dest_to_match st entry d with ⟨r, st1, ops⟩
      simp only [hcre] at h
      obtain ⟨hcs, hcsrc⟩ := create_dest_to_match_side st entry d r st1 ops hcre
      cases r with
      | error err =>
        simp only [Prod.mk.injEq] at h
        obtain ⟨htr, hps, hst, -⟩ := h
        rw [← htr, ← hps, ← hst]
        refine ⟨?_, hcsrc hd, (fun pr hpr => by cases hpr)⟩
        intro op hop hmut
        rw [← hd]
        exact hcs op hop hmut
      | ok ropt =>
        rcases hrec : processSrc d dm st1 rest with ⟨tr2, ps2, st2, e2⟩
        simp only [hrec, Prod.mk.injEq] at h
        obtain ⟨htr, hps, hst, -⟩ := h
        obtain ⟨ihtr, ihsrc, ihps⟩ := ih st1 tr2 ps2 st2 e2 hrec
        rw [← htr, ← hps, ← hst]
        refine ⟨?_, by rw [ihsrc, hcsrc hd], ?_⟩
        · intro op hop hmut
          rcases List.mem_append.mp hop with h1 | h1
          · rw [← hd]
            exact hcs op h1 hmut
          · exact ihtr op h1 hmut
        · intro pr hpr
          cases ropt with
          | none =>
            rcases List.mem_append.mp hpr with h1 | h1
            · cases h1
            · exact ihps pr h1
          | some prr =>
            rcases List.mem_append.mp hpr with h1 | h1
            · have hpr1 : pr = prr := by simpa using h1
              obtain ⟨-, -, -, hside, hpar⟩ :=
                create_dest_to_match_push st entry d prr st1 ops hcre
              subst hpr1
              refine ⟨by rw [hside, hd], ?_⟩
              intro pl pt hplt
              rw [hpar] at hplt
              injection hplt with hplt
              injection hplt with h1 h2
              rw [← h1]
              exact hd
            · exact ihps pr h1
    | some de =>
      simp only [hk] at h
      obtain ⟨hdes, hdep⟩ := hdm (n, de) (lookupKey_mem dm n de hk)
      by_cases hne : entry.file_type ≠ de.file_type
      · rw [if_pos hne] at h
        rcases hrm : rm st de with ⟨rr, st1, ops⟩
        simp only [hrm] at h
        obtain ⟨hrs, hrsrc⟩ := rm_side st de rr st1 ops hrm
        cases rr with
        | error err =>
          simp only [Prod.mk.injEq] at h
          obtain ⟨htr, hps, hst, -⟩ := h
          rw [← htr, ← hps, ← hst]
          refine ⟨?_, hrsrc hdes, (fun pr hpr => by cases hpr)⟩
          intro op hop hmut
          rw [← hdes]
          exact hrs op hop
        | ok u =>
          rcases hcre : create_dest_to_match st1 entry d with ⟨r2, st2, ops2⟩
          simp only [hcre] at h
          obtain ⟨hcs, hcsrc⟩ := create_dest_to_match_side st1 entry d r2 st2 ops2 hcre
          cases r2 with
          | error err =>
            simp only [Prod.mk.injEq] at h
            obtain ⟨htr, hps, hst, -⟩ := h
            rw [← htr, ← hps, ← hst]
            refine ⟨?_, by rw [hcsrc hd, hrsrc hdes], (fun pr hpr => by cases hpr)⟩
            intro op hop hmut
            rcases List.mem_append.mp hop with h1 | h1
            · rw [← hdes]
              exact hrs op h1
            · rw [← hd]
              exact hcs op h1 hmut
          | ok ropt =>
            rcases hrec : processSrc d dm st2 rest with ⟨tr3, ps3, st3, e3⟩
            simp only [hrec, Prod.mk.injEq] at h
            obtain ⟨htr, hps, hst, -⟩ := h
            obtain ⟨ihtr, ihsrc, ihps⟩ := ih st2 tr3 ps3 st3 e3 hrec
            rw [← htr, ← hps, ← hst]
            refine ⟨?_, by rw [ihsrc, hcsrc hd, hrsrc hdes], ?_⟩
            · intro op hop hmut
              rcases List.mem_append.mp hop with h1 | h1
              · rcases List.mem_append.mp h1 with h2 | h2
                · rw [← hdes]
                  exact hrs op h2
                · rw [← hd]
                  exact hcs op h2 hmut
              · exact ihtr op h1 hmut
            · intro pr hpr
              cases ropt with
              | none =>
                rcases List.mem_append.mp hpr with h1 | h1
                · cases h1
                · exact ihps pr h1
              | some prr =>
                rcases List.mem_append.mp hpr with h1 | h1
                · have hpr1 : pr = prr := by simpa using h1
                  obtain ⟨-, -, -, hside, hpar⟩ :=
                    create_dest_to_match_push st1 entry d prr st2 ops2 hcre
                  subst hpr1
                  refine ⟨by rw [hside, hd], ?_⟩
                  intro pl pt hplt
                  rw [hpar] at hplt
                  injection hplt with hplt
                  injection hplt with h1 h2
                  rw [← h1]
                  exact hd
                · exact ihps pr h1
      · rw [if_neg hne] at h
        by_cases hdirx : entry.file_type = .DIR
        · rw [if_pos hdirx] at h
          rcases hrec : processSrc d dm st rest with ⟨tr2, ps2, st2, e2⟩
          simp only [hrec, Prod.mk.injEq] at h
          obtain ⟨htr, hps, hst, -⟩ := h
          obtain ⟨ihtr, ihsrc, ihps⟩ := ih st tr2 ps2 st2 e2 hrec
          rw [← htr, ← hps, ← hst]
          refine ⟨ihtr, ihsrc, ?_⟩
          intro pr hpr
          rcases List.mem_cons.mp hpr with rfl | h1
          · exact ⟨hdes, hdep⟩
          · exact ihps pr h1
        · rw [if_neg hdirx] at h
          rcases hfu : fileUpdate st entry de with ⟨ops, st1, e1⟩
          simp only [hfu] at h
          obtain ⟨hfs, hfsrc⟩ := fileUpdate_side st entry de ops st1 e1 hfu
          cases e1 with
          | some err =>
            simp only [Prod.mk.injEq] at h
            obtain ⟨htr, hps, hst, -⟩ := h
            rw [← htr, ← hps, ← hst]
            refine ⟨?_, hfsrc hdes, (fun pr hpr => by cases hpr)⟩
            intro op hop hmut
            rw [← hdes]
            exact hfs op hop hmut
          | none =>
            rcases hrec : processSrc d dm st1 rest with ⟨tr2, ps2, st2, e2⟩
            simp only [hrec, Prod.mk.injEq] at h
            obtain ⟨htr, hps, hst, -⟩ := h
            obtain ⟨ihtr, ihsrc, ihps⟩ := ih st1 tr2 ps2 st2 e2 hrec
            rw [← htr, ← hps, ← hst]
            refine ⟨?_, by rw [ihsrc, hfsrc hdes], ihps⟩
            intro op hop hmut
            rcases List.mem_append.mp hop with h1 | h1
            · rw [← hdes]
              exact hfs op h1 hmut
            · exact ihtr op h1 hmut

theorem processDel_side (sm : List (String × SAFEntry)) :
    ∀ (l : List (String × SAFEntry)) (st : Store) (tr : List Op)
      (st' : Store) (e : Option Err),
    (∀ p ∈ l, p.2.uri.side = Side.d) →
    processDel sm l st = (tr, st', e) →
    (∀ op ∈ tr, op.isMutating = true → op.side = Side.d) ∧ st'.src = st.src := by
  intro l
  induction l with
  | nil =>
    intro st tr st' e hl h
    simp only [processDel, Prod.mk.injEq] at h
    obtain ⟨htr, hst, -⟩ := h
    rw [← htr, ← hst]
    exact ⟨(fun op hop => by cases hop), rfl⟩
  | cons q rest ih =>
    intro st tr st' e hl h
    obtain ⟨n, de⟩ := q
    have hdes : de.uri.side = Side.d := hl (n, de) (List.mem_cons_self _ _)
    simp only [processDel] at h
    by_cases hk : (lookupKey sm n).isSome
    · rw [if_pos hk] at h
      exact ih st tr st' e (fun p hp => hl p (List.mem_cons_of_mem _ hp)) h
    · rw [if_neg hk] at h
      rcases hrm : rm st de with ⟨rr, st1, ops⟩
      simp only [hrm] at h
      obtain ⟨hrs, hrsrc⟩ := rm_side st de rr st1 ops hrm
      cases rr with
      | error err =>
        simp only [Prod.mk.injEq] at h
        obtain ⟨htr, hst, -⟩ := h
        rw [← htr, ← hst]
        refine ⟨?_, hrsrc hdes⟩
        intro op hop hmut
        rw [← hdes]
        exact hrs op hop
      | ok u =>
        rcases hrec : processDel sm rest st1 with ⟨tr2, st2, e2⟩
        simp only [hrec, Prod.mk.injEq] at h
        obtain ⟨htr, hst, -⟩ := h
        obtain ⟨ihtr, ihsrc⟩ :=
          ih st1 tr2 st2 e2 (fun p hp => hl p (List.mem_cons_of_mem _ hp)) hrec
        rw [← htr, ← hst]
        refine ⟨?_, by rw [ihsrc, hrsrc hdes]⟩
        intro op hop hmut
        rcases List.mem_append.mp hop with h1 | h1
        · rw [← hdes]
          exact hrs op h1
        · exact ihtr op h1 hmut

theorem syncLevel_side (st : Store) (s d : SAFEntry) (tr : List Op)
    (ps : List (SAFEntry × SAFEntry)) (st' : Store) (e : Option Err)
    (hd : d.uri.side = Side.d)
    (h : syncLevel st s d = (tr, ps, st', e)) :
    (∀ op ∈ tr, op.isMutating = true → op.side = Side.d) ∧
    st'.src = st.src ∧
    (∀ pr ∈ ps, pr.2.uri.side = Side.d ∧
      ∀ pl pt, pr.2.parent = some (pl, pt) → pl.side = Side.d) := by
  unfold syncLevel at h
  rcases h1 : ls_map st s with ⟨r1, ops1⟩
  simp only [h1] at h
  have hops1 := ls_map_ops_none st s r1 ops1 h1
  cases r1 with
  | error err =>
    simp only [Prod.mk.injEq] at h
    obtain ⟨htr, hps, hst, -⟩ := h
    rw [← htr, ← hps, ← hst]
    refine ⟨?_, rfl, (fun pr hpr => by cases hpr)⟩
    intro op hop hmut
    rw [hops1 op hop] at hmut
    cases hmut
  | ok sm =>
    rcases h2 : ls_map st d with ⟨r2, ops2⟩
    simp only [h2] at h
    have hops2 := ls_map_ops_none st d r2 ops2 h2
    cases r2 with
    | error err =>
      simp only [Prod.mk.injEq] at h
      obtain ⟨htr, hps, hst, -⟩ := h
      rw [← htr, ← hps, ← hst]
      refine ⟨?_, rfl, (fun pr hpr => by cases hpr)⟩
      intro op hop hmut
      rcases List.mem_append.mp hop with hx | hx
      · rw [hops1 op hx] at hmut
        cases hmut
      · rw [hops2 op hx] at hmut
        cases hmut
    | ok dm =>
      have hdm : ∀ p ∈ dm, p.2.uri.side = Side.d ∧
          ∀ pl pt, p.2.parent = some (pl, pt) → pl.side = Side.d := by
        intro p hp
        obtain ⟨hside, hpar⟩ := ls_map_entries st d dm ops2 h2 p hp
        refine ⟨by rw [hside, hd], ?_⟩
        intro pl pt hplt
        rw [hpar pl pt hplt]
        exact hd
      rcases h3 : processSrc d dm st sm with ⟨tr3, ps3, st3, e3⟩
      simp only [h3] at h
      obtain ⟨hstr, hssrc, hsps⟩ := processSrc_side d dm hd hdm sm st tr3 ps3 st3 e3 h3
      cases e3 with
      | some err =>
        simp only [Prod.mk.injEq] at h
        obtain ⟨htr, hps, hst, -⟩ := h
        rw [← htr, ← hps, ← hst]
        refine ⟨?_, hssrc, hsps⟩
        intro op hop hmut
        rcases List.mem_append.mp hop with hx | hx
        · rcases List.mem_append.mp hx with hy | hy
          · rw [hops1 op hy] at hmut
            cases hmut
          · rw [hops2 op hy] at hmut
            cases hmut
        · exact hstr op hx hmut
      | none =>
        rcases h4 : processDel sm dm st3 with ⟨tr4, st4, e4⟩
        simp only [h4, Prod.mk.injEq] at h
        obtain ⟨htr, hps, hst, -⟩ := h
        obtain ⟨hdtr, hdsrc⟩ := processDel_side sm dm st3 tr4 st4 e4
          (fun p hp => (hdm p hp).1) h4
        rw [← htr, ← hps, ← hst]
        refine ⟨?_, by rw [hdsrc, hssrc], hsps⟩
        intro op hop hmut
        rcases List.mem_append.mp hop with hx | hx
        · rcases List.mem_append.mp hx with hy | hy
          · rcases List.mem_append.mp hy with hz | hz
            · rw [hops1 op hz] at hmut
              cases hmut
            · rw [hops2 op hz] at hmut
              cases hmut
          · exact hstr op hy hmut
        · exact hdtr op hx hmut

theorem syncStep_side (st : Store) (s d : SAFEntry) (tr : List Op)
    (ps : List (SAFEntry × SAFEntry)) (st' : Store) (e : Option Err)
    (hd : d.uri.side = Side.d)
    (hdp : ∀ pl pt, d.parent = some (pl, pt) → pl.side = Side.d)
    (h : syncStep st s d = (tr, ps, st', e)) :
    (∀ op ∈ tr, op.isMutating = true → op.side = Side.d) ∧
    st'.src = st.src ∧
    (∀ pr ∈ ps, pr.2.uri.side = Side.d ∧
      ∀ pl pt, pr.2.parent = some (pl, pt) → pl.side = Side.d) := by
  unfold syncStep at h
  by_cases hs : s.file_type = .DIR
  · rw [if_pos hs] at h
    by_cases hdne : d.file_type ≠ .DIR
    · rw [if_pos hdne] at h
      rcases hrm : rm st d with ⟨rr, st1, ops⟩
      simp only [hrm] at h
      obtain ⟨hrs, hrsrc⟩ := rm_side st d rr st1 ops hrm
      cases rr with
      | error err =>
        simp only [Prod.mk.injEq] at h
        obtain ⟨htr, hps, hst, -⟩ := h
        rw [← htr, ← hps, ← hst]
        refine ⟨?_, hrsrc hd, (fun pr hpr => by cases hpr)⟩
        intro op hop hmut
        rw [← hd]
        exact hrs op hop
      | ok u =>
        cases hpar : d.parent with
        | none =>
          simp only [hpar, Prod.mk.injEq] at h
          obtain ⟨htr, hps, hst, -⟩ := h
          rw [← htr, ← hps, ← hst]
          refine ⟨?_, hrsrc hd, (fun pr hpr => by cases hpr)⟩
          intro op hop hmut
          rw [← hd]
          exact hrs op hop
        | some pp =>
          obtain ⟨ploc, ptype⟩ := pp
          have hpl : ploc.side = Side.d := hdp ploc ptype hpar
          simp only [hpar] at h
          rcases hmk : mkdir st1 ploc ptype d.name with ⟨mr, st2, ops2⟩
          simp only [hmk] at h
          obtain ⟨hms, hmsrc⟩ := mkdir_side st1 ploc ptype d.name mr st2 ops2 hmk
          cases mr with
          | error err =>
            simp only [Prod.mk.injEq] at h
            obtain ⟨htr, hps, hst, -⟩ := h
            rw [← htr, ← hps, ← hst]
            refine ⟨?_, by rw [hmsrc hpl, hrsrc hd], (fun pr hpr => by cases hpr)⟩
            intro op hop hmut
            rcases List.mem_append.mp hop with hx | hx
            · rw [← hd]
              exact hrs op hx
            · rw [← hpl]
              exact hms op hx
          | ok nd =>
            have hnd := mkdir_ret st1 ploc ptype d.name nd st2 ops2 hmk
            rcases hsl : syncLevel st2 s nd with ⟨trL, psL, st3, e3⟩
            simp only [hsl, Prod.mk.injEq] at h
            obtain ⟨htr, hps, hst, -⟩ := h
            obtain ⟨hltr, hlsrc, hlps⟩ := syncLevel_side st2 s nd trL psL st3 e3
              (by rw [hnd]; exact hpl) hsl
            rw [← htr, ← hps, ← hst]
            refine ⟨?_, by rw [hlsrc, hmsrc hpl, hrsrc hd], ?_⟩
            · intro op hop hmut
              rcases List.mem_append.mp hop with hx | hx
              · rcases List.mem_append.mp hx with hy | hy
                · rw [← hd]
                  exact hrs op hy
                · rw [← hpl]
                  exact hms op hy
              · exact hltr op hx hmut
            · intro pr hpr
              rw [List.mem_reverse] at hpr
              exact hlps pr hpr
    · rw [if_neg hdne] at h
      rcases hsl : syncLevel st s d with ⟨trL, psL, st3, e3⟩
      simp only [hsl, Prod.mk.injEq] at h
      obtain ⟨htr, hps, hst, -⟩ := h
      obtain ⟨hltr, hlsrc, hlps⟩ := syncLevel_side st s d trL psL st3 e3 hd hsl
      rw [← htr, ← hps, ← hst]
      refine ⟨hltr, hlsrc, ?_⟩
      intro pr hpr
      rw [List.mem_reverse] at hpr
      exact hlps pr hpr
  · rw [if_neg hs] at h
    simp only [Prod.mk.injEq] at h
    obtain ⟨htr, hps, hst, -⟩ := h
    rw [← htr, ← hps, ← hst]
    exact ⟨(fun op hop => by cases hop), rfl, (fun pr hpr => by cases hpr)⟩

theorem syncLoop_side (fuel : Nat) :
    ∀ (st : Store) (stack : List (SAFEntry × SAFEntry)) (tr : List Op)
      (done : List (SAFEntry × SAFEntry)) (st' : Store) (e : Option Err),
    (∀ p ∈ stack, p.2.uri.side = Side.d ∧
      ∀ pl pt, p.2.parent = some (pl, pt) → pl.side = Side.d) →
    syncLoop fuel st stack = (tr, done, st', e) →
    (∀ op ∈ tr, op.isMutating = true → op.side = Side.d) ∧ st'.src = st.src := by
  induction fuel with
  | zero =>
    intro st stack tr done st' e hstack h
    cases stack with
    | nil =>
      simp only [syncLoop, Prod.mk.injEq] at h
      obtain ⟨htr, -, hst, -⟩ := h
      rw [← htr, ← hst]
      exact ⟨(fun op hop => by cases hop), rfl⟩
    | cons q rest =>
      simp only [syncLoop, Prod.mk.injEq] at h
      obtain ⟨htr, -, hst, -⟩ := h
      rw [← htr, ← hst]
      exact ⟨(fun op hop => by cases hop), rfl⟩
  | succ fuel ih =>
    intro st stack tr done st' e hstack h
    cases stack with
    | nil =>
      simp only [syncLoop, Prod.mk.injEq] at h
      obtain ⟨htr, -, hst, -⟩ := h
      rw [← htr, ← hst]
      exact ⟨(fun op hop => by cases hop), rfl⟩
    | cons q rest =>
      obtain ⟨s, d⟩ := q
      obtain ⟨hd, hdp⟩ := hstack (s, d) (List.mem_cons_self _ _)
      simp only [syncLoop] at h
      rcases hstep : syncStep st s d with ⟨trS, ps, st1, e1⟩
      simp only [hstep] at h
      obtain ⟨hstr, hssrc, hsps⟩ := syncStep_side st s d trS ps st1 e1 hd hdp hstep
      cases e1 with
      | some err =>
        simp only [Prod.mk.injEq] at h
        obtain ⟨htr, -, hst, -⟩ := h
        rw [← htr, ← hst]
        exact ⟨hstr, hssrc⟩
      | none =>
        rcases hloop : syncLoop fuel st1 (ps ++ rest) with ⟨tr2, done2, st2, e2⟩
        simp only [hloop, Prod.mk.injEq] at h
        obtain ⟨htr, -, hst, -⟩ := h
        have hstack2 : ∀ p ∈ ps ++ rest, p.2.uri.side = Side.d ∧
            ∀ pl pt, p.2.parent = some (pl, pt) → pl.side = Side.d := by
          intro p hp
          rcases List.mem_append.mp hp with hx | hx
          · exact hsps p hx
          · exact hstack p (List.mem_cons_of_mem _ hx)
        obtain ⟨ihtr, ihsrc⟩ := ih st1 (ps ++ rest) tr2 done2 st2 e2 hstack2 hloop
        rw [← htr, ← hst]
        refine ⟨?_, by rw [ihsrc, hssrc]⟩
        intro op hop hmut
        rcases List.mem_append.mp hop with hx | hx
        · exact hstr op hx hmut
        · exact ihtr op hx hmut

/-- C10: the source tree is never mutated.  For every run of sync on a
destination root entry of the destination store, completed or aborted,
every mutating provider operation in the trace addresses the destination
side, and the source tree is unchanged at the end. -/
theorem c10_source_never_mutated (fuel : Nat) (st : Store)
    (root_source root_dest : SAFEntry) (tr : List Op)
    (done : List (SAFEntry × SAFEntry)) (st' : Store) (e : Option Err)
    (hd : root_dest.uri.side = Side.d)
    (hdp : ∀ pl pt, root_dest.parent = some (pl, pt) → pl.side = Side.d)
    (hrun : sync fuel st root_source root_dest = (tr, done, st', e)) :
    st'.src = st.src ∧ ∀ op ∈ tr, op.isMutating = true → op.side = Side.d := by
  have hstack : ∀ p ∈ [(root_source, root_dest)], p.2.uri.side = Side.d ∧
      ∀ pl pt, p.2.parent = some (pl, pt) → pl.side = Side.d := by
    intro p hp
    rcases List.mem_singleton.mp hp with rfl
    exact ⟨hd, hdp⟩
  obtain ⟨htr, hsrc⟩ := syncLoop_side fuel st [(root_source, root_dest)]
    tr done st' e hstack hrun
  exact ⟨hsrc, htr⟩

theorem c10_source_never_mutated_witness :
    (sync 2 exStoreTN exRootS exRootD).2.2.1.src = exStoreTN.src ∧
    ∀ op ∈ (sync 2 exStoreTN exRootS exRootD).1,
      op.isMutating = true → op.side = Side.d :=
  c10_source_never_mutated 2 exStoreTN exRootS exRootD
    (sync 2 exStoreTN exRootS exRootD).1
    (sync 2 exStoreTN exRootS exRootD).2.1
    (sync 2 exStoreTN exRootS exRootD).2.2.1
    (sync 2 exStoreTN exRootS exRootD).2.2.2
    rfl (fun pl pt h => Option.noConfusion h) rfl

theorem kindAt_cons_some (cs : List (String × Node)) (y : String) (ys : List String)
    (c : Node) (hc : lookupChild cs y = some c) :
    kindAt (.dir cs) (y :: ys) = kindAt c ys := by
  unfold kindAt
  rw [lookupPath_cons_dir_some cs y ys c hc]

theorem kindAt_cons_none (cs : List (String × Node)) (y : String) (ys : List String)
    (hc : lookupChild cs y = none) :
    kindAt (.dir cs) (y :: ys) = none := by
  unfold kindAt
  rw [lookupPath_cons_dir_none cs y ys hc]
  rfl

theorem contentsAt_cons_some (cs : List (String × Node)) (y : String)
    (ys : List String) (c : Node) (hc : lookupChild cs y = some c) :
    contentsAt (.dir cs) (y :: ys) = contentsAt c ys := by
  unfold contentsAt
  rw [lookupPath_cons_dir_some cs y ys c hc]

theorem contentsAt_cons_none (cs : List (String × Node)) (y : String)
    (ys : List String) (hc : lookupChild cs y = none) :
    contentsAt (.dir cs) (y :: ys) = none := by
  unfold contentsAt
  rw [lookupPath_cons_dir_none cs y ys hc]

theorem sameShape_refl (t : Node) : sameShape t t := fun _ => ⟨rfl, rfl⟩

theorem sameShape_trans (a b c : Node) (h1 : sameShape a b) (h2 : sameShape b c) :
    sameShape a c := fun q =>
  ⟨(h1 q).1.trans (h2 q).1, (h1 q).2.trans (h2 q).2⟩

theorem sameShape_write (p : List String) :
    ∀ (t : Node) (c : List Nat) (m m0 : Option Int),
    lookupPath t p = some (.file c m0) →
    sameShape t (setPath t p (.file c m)) := by
  induction p with
  | nil =>
    intro t c m m0 h
    rw [lookupPath_nil] at h
    injection h with h
    subst h
    intro q
    cases q with
    | nil => exact ⟨rfl, rfl⟩
    | cons x xs => exact ⟨rfl, rfl⟩
  | cons y p' ih =>
    intro t c m m0 h
    cases t with
    | file cc mm => rw [lookupPath_cons_file] at h; cases h
    | dir cs =>
      cases hc : lookupChild cs y with
      | none => rw [lookupPath_cons_dir_none cs y p' hc] at h; cases h
      | some ch =>
        rw [lookupPath_cons_dir_some cs y p' ch hc] at h
        rw [setPath_cons_dir_some cs y p' _ ch hc]
        intro q
        cases q with
        | nil => exact ⟨rfl, rfl⟩
        | cons z zs =>
          by_cases hz : z = y
          · subst hz
            have hrc : lookupChild (replaceChildNode cs z (setPath ch p' (.file c m))) z =
                some (setPath ch p' (.file c m)) := by
              rw [lookupChild_replaceChildNode, if_pos rfl, hc]
              rfl
            constructor
            · rw [kindAt_cons_some cs z zs ch hc, kindAt_cons_some _ z zs _ hrc]
              exact (ih ch c m m0 h zs).1
            · rw [contentsAt_cons_some cs z zs ch hc,
                contentsAt_cons_some _ z zs _ hrc]
              exact (ih ch c m m0 h zs).2
          · have hrc : lookupChild (replaceChildNode cs y (setPath ch p' (.file c m))) z =
                lookupChild cs z := by
              rw [lookupChild_replaceChildNode, if_neg hz]
            cases hcz : lookupChild cs z with
            | none =>
              constructor
              · rw [kindAt_cons_none cs z zs hcz,
                  kindAt_cons_none _ z zs (by rw [hrc, hcz])]
              · rw [contentsAt_cons_none cs z zs hcz,
                  contentsAt_cons_none _ z zs (by rw [hrc, hcz])]
            | some cz =>
              constructor
              · rw [kindAt_cons_some cs z zs cz hcz,
                  kindAt_cons_some _ z zs cz (by rw [hrc, hcz])]
              · rw [contentsAt_cons_some cs z zs cz hcz,
                  contentsAt_cons_some _ z zs cz (by rw [hrc, hcz])]

theorem MirrorsBy_dir_elim (R : List Nat → Option Int → List Nat → Option Int → Prop)
    (scs dcs : List (String × Node))
    (h : MirrorsBy R (.dir scs) (.dir dcs)) :
    (∀ n, (lookupChild scs n).isSome ↔ (lookupChild dcs n).isSome) ∧
    (∀ n sc dc, lookupChild scs n = some sc → lookupChild dcs n = some dc →
      MirrorsBy R sc dc) := by
  cases h with
  | dir _ _ hiff hrec => exact ⟨hiff, hrec⟩

theorem MirrorsBy_file_elim (R : List Nat → Option Int → List Nat → Option Int → Prop)
    (cc : List Nat) (cm : Option Int) (dc : Node)
    (h : MirrorsBy R (.file cc cm) dc) :
    ∃ c1 m1, dc = .file c1 m1 ∧ R cc cm c1 m1 := by
  cases h with
  | file _ _ c1 m1 hr => exact ⟨c1, m1, rfl, hr⟩

theorem MirrorsBy_dirNode_elim (R : List Nat → Option Int → List Nat → Option Int → Prop)
    (ccs : List (String × Node)) (dc : Node)
    (h : MirrorsBy R (.dir ccs) dc) :
    ∃ dds, dc = .dir dds := by
  cases h with
  | dir _ dds _ _ => exact ⟨dds, rfl⟩

theorem processDel_noop (sm : List (String × SAFEntry)) :
    ∀ (M : List (String × SAFEntry)) (st : Store),
    (∀ q ∈ M, (lookupKey sm q.1).isSome = true) →
    processDel sm M st = ([], st, none) := by
  intro M
  induction M with
  | nil => intro st _; rfl
  | cons q rest ih =>
    intro st hM
    obtain ⟨n, de⟩ := q
    show processDel sm ((n, de) :: rest) st = ([], st, none)
    rw [processDel, if_pos (hM (n, de) (List.mem_cons_self _ _))]
    exact ih st (fun p hp => hM p (List.mem_cons_of_mem _ hp))

theorem processSrc_second (s d : SAFEntry) (sp dp : List String)
    (scs dcs : List (String × Node))
    (hsuri : s.uri = ⟨.s, sp⟩) (hduri : d.uri = ⟨.d, dp⟩) :
    ∀ (L : List (String × Node)) (st : Store) (cur : List (String × Node))
      (tr : List Op) (P : List (SAFEntry × SAFEntry)) (st' : Store),
    lookupPath st.src sp = some (.dir scs) →
    lookupPath st.dst dp = some (.dir cur) →
    Wf st.dst →
    (L.map Prod.fst).Nodup →
    (∀ q ∈ L, lookupChild scs q.1 = some q.2) →
    (∀ q ∈ L, lookupChild cur q.1 = lookupChild dcs q.1) →
    (∀ q ∈ L, ∃ dc, lookupChild dcs q.1 = some dc ∧ MirrorsBy fileMatchS q.2 dc) →
    processSrc d (entriesOf d dcs) st (entriesOf s L) = (tr, P, st', none) →
    ∃ cur',
      st'.src = st.src ∧
      st'.dst = setPath st.dst dp (.dir cur') ∧
      Wf st'.dst ∧
      lookupPath st'.dst dp = some (.dir cur') ∧
      sameShape st.dst st'.dst ∧
      (∀ n, n ∉ L.map Prod.fst → lookupChild cur' n = lookupChild cur n) ∧
      (∀ q ∈ L, ∀ ccs, q.2 = Node.dir ccs →
        lookupChild cur' q.1 = lookupChild cur q.1) ∧
      P = L.filterMap (pushOf s d) ∧
      (∀ lq n2, Op.mkdirOp lq n2 ∉ tr) ∧
      (∀ lq n2, Op.mkfileOp lq n2 ∉ tr) ∧
      (∀ lq, Op.rmOp lq ∉ tr) ∧
      (∀ lq c, Op.writeOp lq c ∈ tr → contentsAt st.dst lq.path = some c) := by
  intro L
  induction L with
  | nil =>
    intro st cur tr P st' hsrc hdst hwfd hLnd hLsub hcur hmirL hrun
    simp only [entriesOf, List.map_nil, processSrc, Prod.mk.injEq] at hrun
    obtain ⟨htr, hP, hst, -⟩ := hrun
    rw [← htr, ← hP, ← hst]
    exact ⟨cur, rfl, (setPath_self st.dst dp (.dir cur) hwfd hdst).symm, hwfd, hdst,
      sameShape_refl _, fun n _ => rfl, (fun q hq => by cases hq), by simp,
      (fun lq n2 h => by cases h), (fun lq n2 h => by cases h),
      (fun lq h => by cases h), (fun lq c h => by cases h)⟩
  | cons q0 L' ih =>
    intro st cur tr P st' hsrc hdst hwfd hLnd hLsub hcur hmirL hrun
    obtain ⟨n0, c0⟩ := q0
    rw [List.map_cons, List.nodup_cons] at hLnd
    obtain ⟨hn0, hLnd'⟩ := hLnd
    have hc0 : lookupChild scs n0 = some c0 := hLsub (n0, c0) (List.mem_cons_self _ _)
    have hcur0 : lookupChild cur n0 = lookupChild dcs n0 :=
      hcur (n0, c0) (List.mem_cons_self _ _)
    obtain ⟨dc, hdc, hm0⟩ := hmirL (n0, c0) (List.mem_cons_self _ _)
    have hwfcur : Wf (Node.dir cur) := Wf_lookupPath st.dst dp _ hwfd hdst
    simp only [entriesOf, List.map_cons, processSrc] at hrun
    have hk := lookupKey_entryMap dcs d.uri d.file_type n0
    have hk1 : lookupKey (dcs.map (fun p => (p.1, entryOf d.uri d.file_type p.1 p.2)))
        n0 = some (entryOf d.uri d.file_type n0 dc) := by rw [hk, hdc]; rfl
    simp only [hk1] at hrun
    have hside : d.uri.side = Side.d := by rw [hduri]
    have hpath : d.uri.path = dp := by rw [hduri]
    cases c0 with
    | dir scn =>
      obtain ⟨dds, hdceq⟩ := MirrorsBy_dirNode_elim fileMatchS scn dc hm0
      subst hdceq
      rw [if_neg (show ¬ ((entryOf s.uri s.file_type n0 (.dir scn)).file_type ≠
          (entryOf d.uri d.file_type n0 (.dir dds)).file_type) by simp [entryOf]),
        if_pos (show (entryOf s.uri s.file_type n0 (.dir scn)).file_type = .DIR from rfl)]
        at hrun
      rcases hrec : processSrc d
          (dcs.map (fun p => (p.1, entryOf d.uri d.file_type p.1 p.2))) st
          (L'.map (fun p => (p.1, entryOf s.uri s.file_type p.1 p.2))) with
        ⟨tr2, ps2, st2, e2⟩
      simp only [hrec, Prod.mk.injEq] at hrun
      obtain ⟨htr, hPeq, hsteq, he2⟩ := hrun
      subst hsteq
      subst he2
      obtain ⟨cur', ihsrc, ihdst, ihwf, ihlook, ihshape, ihframe, ihdir, ihP,
          ihmd, ihmf, ihrm, ihwr⟩ :=
        ih st cur tr2 ps2 st2 hsrc hdst hwfd hLnd'
          (fun q hq => hLsub q (List.mem_cons_of_mem _ hq))
          (fun q hq => hcur q (List.mem_cons_of_mem _ hq))
          (fun q hq => hmirL q (List.mem_cons_of_mem _ hq))
          hrec
      refine ⟨cur', ihsrc, ihdst, ihwf, ihlook, ihshape, ?_, ?_, ?_, ?_, ?_, ?_, ?_⟩
      · intro n hn
        simp only [List.map_cons, List.mem_cons] at hn
        push_neg at hn
        exact ihframe n (by simpa using hn.2)
      · intro q hq
        rcases List.mem_cons.mp hq with rfl | hq'
        · intro ccs hx
          exact ihframe n0 (by simpa using hn0)
        · exact ihdir q hq'
      · rw [← hPeq, ihP]
        simp [pushOf, dirDestEntry, entryOf]
      · intro lq n2
        rw [← htr]
        exact ihmd lq n2
      · intro lq n2
        rw [← htr]
        exact ihmf lq n2
      · intro lq
        rw [← htr]
        exact ihrm lq
      · intro lq c hlq
        rw [← htr] at hlq
        exact ihwr lq c hlq
    | file cc cm =>
      obtain ⟨c1, m1, hdceq, hfm⟩ := MirrorsBy_file_elim fileMatchS cc cm dc hm0
      subst hdceq
      have hsrcchild : lookupPath st.src (sp ++ [n0]) = some (Node.file cc cm) := by
        rw [lookupPath_append, hsrc]
        show lookupPath (Node.dir scs) [n0] = _
        rw [lookupPath_cons_dir_some scs n0 [] _ hc0, lookupPath_nil]
      have hdchild : lookupChild cur n0 = some (Node.file c1 m1) := by
        rw [hcur0, hdc]
      have hdstchild : lookupPath st.dst (dp ++ [n0]) = some (Node.file c1 m1) := by
        rw [lookupPath_append, hdst]
        show lookupPath (Node.dir cur) [n0] = _
        rw [lookupPath_cons_dir_some cur n0 [] _ hdchild, lookupPath_nil]
      rw [if_neg (show ¬ ((entryOf s.uri s.file_type n0 (.file cc cm)).file_type ≠
          (entryOf d.uri d.file_type n0 (.file c1 m1)).file_type) by simp [entryOf]),
        if_neg (show ¬ ((entryOf s.uri s.file_type n0 (.file cc cm)).file_type = .DIR)
          by simp [entryOf])] at hrun
      have htransfer : ∀ hcase, cc = c1 →
          fileUpdate st (entryOf s.uri s.file_type n0 (.file cc cm))
            (entryOf d.uri d.file_type n0 (.file c1 m1)) =
            ([.readOp (entryOf s.uri s.file_type n0 (.file cc cm)).uri,
              .writeOp (entryOf d.uri d.file_type n0 (.file c1 m1)).uri cc],
              (st.setTree (entryOf d.uri d.file_type n0 (.file c1 m1)).uri.side
                (setPath (st.tree (entryOf d.uri d.file_type n0
                  (.file c1 m1)).uri.side)
                  (entryOf d.uri d.file_type n0 (.file c1 m1)).uri.path
                  (.file cc (some st.now)))).tick,
              none) := fun hcase _ =>
        fileUpdate_transfer st (entryOf s.uri s.file_type n0 (.file cc cm))
          (entryOf d.uri d.file_type n0 (.file c1 m1)) cc cm c1 m1 rfl rfl
          (by rw [entryOf_uri, hsuri]; exact hsrcchild)
          (by rw [entryOf_uri, hduri]; exact hdstchild)
          hcase
      rcases (Option.eq_none_or_eq_some cm).symm with ⟨v, hcm⟩ | hcm
      · by_cases hlen : cc.length = c1.length
        · rcases Option.eq_none_or_eq_some m1 with hm2 | ⟨w, hm2⟩
          · have hx := hfm.2 (by rw [hcm]; rfl)
            rw [hm2] at hx
            cases hx
          · by_cases hgt : v > w
            · have hfu := fileUpdate_skip st
                (entryOf s.uri s.file_type n0 (.file cc cm))
                (entryOf d.uri d.file_type n0 (.file c1 m1)) v w
                (by show cm = some v; exact hcm)
                (by show some cc.length = some c1.length; rw [hlen])
                (by show m1 = some w; exact hm2) hgt
              simp only [hfu] at hrun
              rcases hrec : processSrc d
                  (dcs.map (fun p => (p.1, entryOf d.uri d.file_type p.1 p.2))) st
                  (L'.map (fun p => (p.1, entryOf s.uri s.file_type p.1 p.2))) with
                ⟨tr2, ps2, st2, e2⟩
              simp only [hrec, Prod.mk.injEq] at hrun
              obtain ⟨htr, hPeq, hsteq, he2⟩ := hrun
              subst hsteq
              subst he2
              obtain ⟨cur', ihsrc, ihdst, ihwf, ihlook, ihshape, ihframe, ihdir, ihP,
                  ihmd, ihmf, ihrm, ihwr⟩ :=
                ih st cur tr2 ps2 st2 hsrc hdst hwfd hLnd'
                  (fun q hq => hLsub q (List.mem_cons_of_mem _ hq))
                  (fun q hq => hcur q (List.mem_cons_of_mem _ hq))
                  (fun q hq => hmirL q (List.mem_cons_of_mem _ hq))
                  hrec
              refine ⟨cur', ihsrc, ihdst, ihwf, ihlook, ihshape, ?_, ?_, ?_, ?_, ?_,
                ?_, ?_⟩
              · intro n hn
                simp only [List.map_cons, List.mem_cons] at hn
                push_neg at hn
                exact ihframe n (by simpa using hn.2)
              · intro q hq
                rcases List.mem_cons.mp hq with rfl | hq'
                · intro ccs hx
                  cases hx
                · exact ihdir q hq'
              · rw [← hPeq, ihP]
                simp [pushOf]
              · intro lq n2
                rw [← htr]
                exact ihmd lq n2
              · intro lq n2
                rw [← htr]
                exact ihmf lq n2
              · intro lq
                rw [← htr]
                exact ihrm lq
              · intro lq c hlq
                rw [← htr] at hlq
                exact ihwr lq c hlq
            · have hcc : cc = c1 := by
                rcases hfm.1 with h | ⟨hl2, v2, w2, hv2, hw2, hlt⟩
                · exact h
                · rw [hcm] at hv2
                  injection hv2 with hv2
                  rw [hm2] at hw2
                  injection hw2 with hw2
                  subst hv2
                  subst hw2
                  exact absurd hlt hgt
              subst hcc
              have hfu := htransfer
                (Or.inr (Or.inr ⟨v, w, (by show cm = some v; exact hcm),
                  (by show m1 = some w; exact hm2), hgt⟩)) rfl
              simp only [hfu, entryOf_uri, hside, hpath, tree_d] at hrun
              have hsp : setPath st.dst (dp ++ [n0]) (Node.file cc (some st.now)) =
                  setPath st.dst dp (.dir (replaceChildNode cur n0
                    (Node.file cc (some st.now)))) := by
                rw [setPath_append st.dst dp [n0] _ _ hdst,
                  setPath_cons_dir_some cur n0 [] _ _ hdchild, setPath_nil]
              rw [hsp] at hrun
              rcases hrec : processSrc d
                  (dcs.map (fun p => (p.1, entryOf d.uri d.file_type p.1 p.2)))
                  ((st.setTree Side.d (setPath st.dst dp (.dir (replaceChildNode cur n0
                    (Node.file cc (some st.now)))))).tick)
                  (L'.map (fun p => (p.1, entryOf s.uri s.file_type p.1 p.2))) with
                ⟨tr2, ps2, st2, e2⟩
              simp only [hrec, Prod.mk.injEq] at hrun
              obtain ⟨htr, hPeq, hsteq, he2⟩ := hrun
              subst hsteq
              subst he2
              have hshape1 : sameShape st.dst (setPath st.dst (dp ++ [n0])
                  (Node.file cc (some st.now))) :=
                sameShape_write (dp ++ [n0]) st.dst cc (some st.now) m1 hdstchild
              rw [hsp] at hshape1
              have hwf1 : Wf ((st.setTree Side.d (setPath st.dst dp
                  (.dir (replaceChildNode cur n0
                    (Node.file cc (some st.now)))))).tick).dst :=
                Wf_setPath st.dst dp _ hwfd
                  (Wf_dir_replaceChildNode cur n0 _ hwfcur (Wf_file _ _))
              have hlook1 : lookupPath ((st.setTree Side.d (setPath st.dst dp
                  (.dir (replaceChildNode cur n0
                    (Node.file cc (some st.now)))))).tick).dst dp =
                  some (.dir (replaceChildNode cur n0 (Node.file cc (some st.now)))) :=
                lookupPath_setPath_self st.dst dp _ _ hdst
              obtain ⟨cur', ihsrc, ihdst, ihwf, ihlook, ihshape, ihframe, ihdir, ihP,
                  ihmd, ihmf, ihrm, ihwr⟩ :=
                ih ((st.setTree Side.d (setPath st.dst dp (.dir (replaceChildNode cur n0
                    (Node.file cc (some st.now)))))).tick)
                  (replaceChildNode cur n0 (Node.file cc (some st.now)))
                  tr2 ps2 st2 hsrc hlook1 hwf1 hLnd'
                  (fun q hq => hLsub q (List.mem_cons_of_mem _ hq))
                  (fun q hq => by
                    have hq1 : ¬ q.1 = n0 := fun hqn =>
                      hn0 (by rw [← hqn]; exact List.mem_map.mpr ⟨q, hq, rfl⟩)
                    rw [lookupChild_replaceChildNode, if_neg hq1]
                    exact hcur q (List.mem_cons_of_mem _ hq))
                  (fun q hq => hmirL q (List.mem_cons_of_mem _ hq))
                  hrec
              have hshape2 : sameShape st.dst st2.dst :=
                sameShape_trans _ _ _ hshape1 ihshape
              refine ⟨cur', by rw [ihsrc]; rfl, ?_, ihwf, ihlook, ?_, ?_, ?_, ?_, ?_,
                ?_, ?_, ?_⟩
              · rw [ihdst]
                show setPath (setPath st.dst dp _) dp (.dir cur') = _
                rw [setPath_setPath]
              · exact hshape2
              · intro n hn
                simp only [List.map_cons, List.mem_cons] at hn
                push_neg at hn
                rw [ihframe n (by simpa using hn.2),
                  lookupChild_replaceChildNode, if_neg hn.1]
              · intro q hq
                rcases List.mem_cons.mp hq with rfl | hq'
                · intro ccs hx
                  cases hx
                · intro ccs hx
                  have hq1 : ¬ q.1 = n0 := fun hqn =>
                    hn0 (by rw [← hqn]; exact List.mem_map.mpr ⟨q, hq', rfl⟩)
                  rw [ihdir q hq' ccs hx, lookupChild_replaceChildNode, if_neg hq1]
              · rw [← hPeq, ihP]
                simp [pushOf]
              · intro lq n2
                rw [← htr]
                intro hmem
                rcases List.mem_append.mp hmem with h1 | h1
                · simp at h1
                · exact ihmd lq n2 h1
              · intro lq n2
                rw [← htr]
                intro hmem
                rcases List.mem_append.mp hmem with h1 | h1
                · simp at h1
                · exact ihmf lq n2 h1
              · intro lq
                rw [← htr]
                intro hmem
                rcases List.mem_append.mp hmem with h1 | h1
                · simp at h1
                · exact ihrm lq h1
              · intro lq c hlq
                rw [← htr] at hlq
                rcases List.mem_append.mp hlq with h1 | h1
                · rcases List.mem_cons.mp h1 with hx | hx
                  · cases hx
                  · rcases List.mem_cons.mp hx with hy | hy
                    · injection hy with hy1 hy2
                      rw [hy1, hy2]
                      show contentsAt st.dst (dp ++ [n0]) = some cc
                      unfold contentsAt
                      rw [hdstchild]
                    · cases hy
                · rw [(hshape1 lq.path).2]
                  exact ihwr lq c h1
        · exact absurd (by
            rcases hfm.1 with h | ⟨hl2, -⟩
            · rw [h]
            · exact hl2) hlen
      · have hcc : cc = c1 := by
          rcases hfm.1 with h | ⟨-, v2, w2, hv2, -, -⟩
          · exact h
          · rw [hcm] at hv2
            cases hv2
        subst hcc
        have hfu := htransfer (Or.inl (by show cm = none; exact hcm)) rfl
        simp only [hfu, entryOf_uri, hside, hpath, tree_d] at hrun
        have hsp : setPath st.dst (dp ++ [n0]) (Node.file cc (some st.now)) =
            setPath st.dst dp (.dir (replaceChildNode cur n0
              (Node.file cc (some st.now)))) := by
          rw [setPath_append st.dst dp [n0] _ _ hdst,
            setPath_cons_dir_some cur n0 [] _ _ hdchild, setPath_nil]
        rw [hsp] at hrun
        rcases hrec : processSrc d
            (dcs.map (fun p => (p.1, entryOf d.uri d.file_type p.1 p.2)))
            ((st.setTree Side.d (setPath st.dst dp (.dir (replaceChildNode cur n0
              (Node.file cc (some st.now)))))).tick)
            (L'.map (fun p => (p.1, entryOf s.uri s.file_type p.1 p.2))) with
          ⟨tr2, ps2, st2, e2⟩
        simp only [hrec, Prod.mk.injEq] at hrun
        obtain ⟨htr, hPeq, hsteq, he2⟩ := hrun
        subst hsteq
        subst he2
        have hshape1 : sameShape st.dst (setPath st.dst (dp ++ [n0])
            (Node.file cc (some st.now))) :=
          sameShape_write (dp ++ [n0]) st.dst cc (some st.now) m1 hdstchild
        rw [hsp] at hshape1
        have hwf1 : Wf ((st.setTree Side.d (setPath st.dst dp
            (.dir (replaceChildNode cur n0
              (Node.file cc (some st.now)))))).tick).dst :=
          Wf_setPath st.dst dp _ hwfd
            (Wf_dir_replaceChildNode cur n0 _ hwfcur (Wf_file _ _))
        have hlook1 : lookupPath ((st.setTree Side.d (setPath st.dst dp
            (.dir (replaceChildNode cur n0
              (Node.file cc (some st.now)))))).tick).dst dp =
            some (.dir (replaceChildNode cur n0 (Node.file cc (some st.now)))) :=
          lookupPath_setPath_self st.dst dp _ _ hdst
        obtain ⟨cur', ihsrc, ihdst, ihwf, ihlook, ihshape, ihframe, ihdir, ihP,
            ihmd, ihmf, ihrm, ihwr⟩ :=
          ih ((st.setTree Side.d (setPath st.dst dp (.dir (replaceChildNode cur n0
              (Node.file cc (some st.now)))))).tick)
            (replaceChildNode cur n0 (Node.file cc (some st.now)))
            tr2 ps2 st2 hsrc hlook1 hwf1 hLnd'
            (fun q hq => hLsub q (List.mem_cons_of_mem _ hq))
            (fun q hq => by
              have hq1 : ¬ q.1 = n0 := fun hqn =>
                hn0 (by rw [← hqn]; exact List.mem_map.mpr ⟨q, hq, rfl⟩)
              rw [lookupChild_replaceChildNode, if_neg hq1]
              exact hcur q (List.mem_cons_of_mem _ hq))
            (fun q hq => hmirL q (List.mem_cons_of_mem _ hq))
            hrec
        have hshape2 : sameShape st.dst st2.dst :=
          sameShape_trans _ _ _ hshape1 ihshape
        refine ⟨cur', by rw [ihsrc]; rfl, ?_, ihwf, ihlook, hshape2, ?_, ?_, ?_, ?_,
          ?_, ?_, ?_⟩
        · rw [ihdst]
          show setPath (setPath st.dst dp _) dp (.dir cur') = _
          rw [setPath_setPath]
        · intro n hn
          simp only [List.map_cons, List.mem_cons] at hn
          push_neg at hn
          rw [ihframe n (by simpa using hn.2),
            lookupChild_replaceChildNode, if_neg hn.1]
        · intro q hq
          rcases List.mem_cons.mp hq with rfl | hq'
          · intro ccs hx
            cases hx
          · intro ccs hx
            have hq1 : ¬ q.1 = n0 := fun hqn =>
              hn0 (by rw [← hqn]; exact List.mem_map.mpr ⟨q, hq', rfl⟩)
            rw [ihdir q hq' ccs hx, lookupChild_replaceChildNode, if_neg hq1]
        · rw [← hPeq, ihP]
          simp [pushOf]
        · intro lq n2
          rw [← htr]
          intro hmem
          rcases List.mem_append.mp hmem with h1 | h1
          · simp at h1
          · exact ihmd lq n2 h1
        · intro lq n2
          rw [← htr]
          intro hmem
          rcases List.mem_append.mp hmem with h1 | h1
          · simp at h1
          · exact ihmf lq n2 h1
        · intro lq
          rw [← htr]
          intro hmem
          rcases List.mem_append.mp hmem with h1 | h1
          · simp at h1
          · exact ihrm lq h1
        · intro lq c hlq
          rw [← htr] at hlq
          rcases List.mem_append.mp hlq with h1 | h1
          · rcases List.mem_cons.mp h1 with hx | hx
            · cases hx
            · rcases List.mem_cons.mp hx with hy | hy
              · injection hy with hy1 hy2
                rw [hy1, hy2]
                show contentsAt st.dst (dp ++ [n0]) = some cc
                unfold contentsAt
                rw [hdstchild]
              · cases hy
          · rw [(hshape1 lq.path).2]
            exact ihwr lq c h1

theorem syncLevel_second (st : Store) (s d : SAFEntry) (sp dp : List String)
    (scs dcs : List (String × Node)) (tr : List Op)
    (P : List (SAFEntry × SAFEntry)) (st' : Store)
    (hsuri : s.uri = ⟨.s, sp⟩) (hduri : d.uri = ⟨.d, dp⟩)
    (hsrc : lookupPath st.src sp = some (.dir scs))
    (hdst : lookupPath st.dst dp = some (.dir dcs))
    (hwfs : Wf st.src) (hwfd : Wf st.dst)
    (hmir : MirrorsBy fileMatchS (.dir scs) (.dir dcs))
    (hrun : syncLevel st s d = (tr, P, st', none)) :
    ∃ cur',
      st'.src = st.src ∧
      st'.dst = setPath st.dst dp (.dir cur') ∧
      Wf st'.dst ∧
      lookupPath st'.dst dp = some (.dir cur') ∧
      sameShape st.dst st'.dst ∧
      (∀ n ccs, lookupChild scs n = some (.dir ccs) →
        lookupChild cur' n = lookupChild dcs n) ∧
      P = scs.filterMap (pushOf s d) ∧
      (∀ lq n2, Op.mkdirOp lq n2 ∉ tr) ∧
      (∀ lq n2, Op.mkfileOp lq n2 ∉ tr) ∧
      (∀ lq, Op.rmOp lq ∉ tr) ∧
      (∀ lq c, Op.writeOp lq c ∈ tr → contentsAt st.dst lq.path = some c) := by
  obtain ⟨hiff, hrec⟩ := MirrorsBy_dir_elim fileMatchS scs dcs hmir
  have hwfscs : Wf (Node.dir scs) := Wf_lookupPath st.src sp _ hwfs hsrc
  have hwfdcs : Wf (Node.dir dcs) := Wf_lookupPath st.dst dp _ hwfd hdst
  have hndscs : nodupKeys scs = true := ((Wf_dir_iff scs).mp hwfscs).1
  have hnddcs : nodupKeys dcs = true := ((Wf_dir_iff dcs).mp hwfdcs).1
  have hls1 := ls_map_ok st s scs (by rw [hsuri]; exact hsrc) hndscs
  have hls2 := ls_map_ok st d dcs (by rw [hduri]; exact hdst) hnddcs
  simp only [syncLevel, hls1, hls2] at hrun
  rw [show (scs.map (fun p => (p.1, entryOf s.uri s.file_type p.1 p.2))) =
      entriesOf s scs from rfl,
    show (dcs.map (fun p => (p.1, entryOf d.uri d.file_type p.1 p.2))) =
      entriesOf d dcs from rfl] at hrun
  rcases hps : processSrc d (entriesOf d dcs) st (entriesOf s scs) with ⟨tr3, ps, st3, e3⟩
  simp only [hps] at hrun
  cases e3 with
  | some err => simp at hrun
  | none =>
  have hnoop : processDel (entriesOf s scs) (entriesOf d dcs) st3 = ([], st3, none) := by
    refine processDel_noop (entriesOf s scs) (entriesOf d dcs) st3 ?_
    intro q hq
    obtain ⟨p, hp, hpe⟩ := List.mem_map.mp hq
    have hq1 : q.1 = p.1 := by rw [← hpe]
    rw [hq1, lookupKey_entriesOf_isSome]
    rw [hiff p.1]
    exact (lookupChild_isSome_iff_mem dcs p.1).mpr (List.mem_map.mpr ⟨p, hp, rfl⟩)
  simp only [hnoop, Prod.mk.injEq] at hrun
  obtain ⟨htr, hP, hst3, -⟩ := hrun
  obtain ⟨cur', ihsrc, ihdst, ihwf, ihlook, ihshape, ihframe, ihdir, ihP,
      ihmd, ihmf, ihrm, ihwr⟩ :=
    processSrc_second s d sp dp scs dcs hsuri hduri scs st dcs tr3 ps st3
      hsrc hdst hwfd ((nodupKeys_iff_nodup scs).mp hndscs)
      (fun q hq => mem_lookupChild scs q.1 q.2 hndscs (by rw [Prod.mk.eta]; exact hq))
      (fun q _ => rfl)
      (fun q hq => by
        have hq2 : lookupChild scs q.1 = some q.2 :=
          mem_lookupChild scs q.1 q.2 hndscs (by rw [Prod.mk.eta]; exact hq)
        have hds : (lookupChild dcs q.1).isSome = true :=
          (hiff q.1).mp (by rw [hq2]; rfl)
        obtain ⟨dc, hdc⟩ := Option.isSome_iff_exists.mp hds
        exact ⟨dc, hdc, hrec q.1 q.2 dc hq2 hdc⟩)
      hps
  subst hst3
  refine ⟨cur', ihsrc, ihdst, ihwf, ihlook, ihshape, ?_, by rw [← hP, ihP],
    ?_, ?_, ?_, ?_⟩
  · intro n ccs hn
    have := ihdir (n, .dir ccs) (lookupChild_mem scs n _ hn) ccs rfl
    exact this
  · intro lq n2 hmem
    rw [← htr] at hmem
    rcases List.mem_append.mp hmem with hx | hx
    · rcases List.mem_append.mp hx with hy | hy
      · rcases List.mem_append.mp hy with hz | hz
        · rcases List.mem_singleton.mp hz with hw
          cases hw
        · rcases List.mem_singleton.mp hz with hw
          cases hw
      · exact ihmd lq n2 hy
    · cases hx
  · intro lq n2 hmem
    rw [← htr] at hmem
    rcases List.mem_append.mp hmem with hx | hx
    · rcases List.mem_append.mp hx with hy | hy
      · rcases List.mem_append.mp hy with hz | hz
        · rcases List.mem_singleton.mp hz with hw
          cases hw
        · rcases List.mem_singleton.mp hz with hw
          cases hw
      · exact ihmf lq n2 hy
    · cases hx
  · intro lq hmem
    rw [← htr] at hmem
    rcases List.mem_append.mp hmem with hx | hx
    · rcases List.mem_append.mp hx with hy | hy
      · rcases List.mem_append.mp hy with hz | hz
        · rcases List.mem_singleton.mp hz with hw
          cases hw
        · rcases List.mem_singleton.mp hz with hw
          cases hw
      · exact ihrm lq hy
    · cases hx
  · intro lq c hmem
    rw [← htr] at hmem
    rcases List.mem_append.mp hmem with hx | hx
    · rcases List.mem_append.mp hx with hy | hy
      · rcases List.mem_append.mp hy with hz | hz
        · rcases List.mem_singleton.mp hz with hw
          cases hw
        · rcases List.mem_singleton.mp hz with hw
          cases hw
      · exact ihwr lq c hy
    · cases hx

theorem syncLoop_second (fuel : Nat) :
    ∀ (st : Store) (stack : List (SAFEntry × SAFEntry)) (tr : List Op)
      (done : List (SAFEntry × SAFEntry)) (st' : Store),
    Wf st.src → Wf st.dst →
    (∀ p ∈ stack, StackInv st p) →
    (∀ p ∈ stack, ∃ pscs pdcs,
      lookupPath st.src p.1.uri.path = some (.dir pscs) ∧
      lookupPath st.dst p.2.uri.path = some (.dir pdcs) ∧
      MirrorsBy fileMatchS (.dir pscs) (.dir pdcs)) →
    stack.Pairwise (fun p q => incomp p.2.uri.path q.2.uri.path) →
    syncLoop fuel st stack = (tr, done, st', none) →
    st'.src = st.src ∧ sameShape st.dst st'.dst ∧
    (∀ lq n2, Op.mkdirOp lq n2 ∉ tr) ∧
    (∀ lq n2, Op.mkfileOp lq n2 ∉ tr) ∧
    (∀ lq, Op.rmOp lq ∉ tr) ∧
    (∀ lq c, Op.writeOp lq c ∈ tr → contentsAt st.dst lq.path = some c) := by
  induction fuel with
  | zero =>
    intro st stack tr done st' hwfs hwfd hinv hmirs hpw hrun
    cases stack with
    | nil =>
      simp only [syncLoop, Prod.mk.injEq] at hrun
      obtain ⟨htr, -, hst, -⟩ := hrun
      rw [← htr, ← hst]
      exact ⟨rfl, sameShape_refl _, (fun lq n2 h => by cases h),
        (fun lq n2 h => by cases h), (fun lq h => by cases h),
        (fun lq c h => by cases h)⟩
    | cons p rest => simp [syncLoop] at hrun
  | succ fuel ih =>
    intro st stack tr done st' hwfs hwfd hinv hmirs hpw hrun
    cases stack with
    | nil =>
      simp only [syncLoop, Prod.mk.injEq] at hrun
      obtain ⟨htr, -, hst, -⟩ := hrun
      rw [← htr, ← hst]
      exact ⟨rfl, sameShape_refl _, (fun lq n2 h => by cases h),
        (fun lq n2 h => by cases h), (fun lq h => by cases h),
        (fun lq c h => by cases h)⟩
    | cons p rest =>
    obtain ⟨s, d⟩ := p
    have hSI := hinv (s, d) (List.mem_cons_self _ _)
    unfold StackInv at hSI
    obtain ⟨hs1, hd1, hs2, hd2, -, -⟩ := hSI
    obtain ⟨scs, dcs, hscs, hdcs, hmir⟩ := hmirs (s, d) (List.mem_cons_self _ _)
    rw [List.pairwise_cons] at hpw
    obtain ⟨hpwhd, hpwtl⟩ := hpw
    have hsuri : s.uri = ⟨Side.s, s.uri.path⟩ := by rw [← hs1]
    have hduri : d.uri = ⟨Side.d, d.uri.path⟩ := by rw [← hd1]
    simp only [syncLoop] at hrun
    rw [syncStep_dirs st s d hs2 hd2] at hrun
    rcases hsl : syncLevel st s d with ⟨trL, psL, st1, e1⟩
    simp only [hsl] at hrun
    cases e1 with
    | some err => simp at hrun
    | none =>
    rcases hloop : syncLoop fuel st1 (psL.reverse ++ rest) with ⟨tr2, done2, st2, e2⟩
    simp only [hloop, Prod.mk.injEq] at hrun
    obtain ⟨htr, hdone, hst2, he2⟩ := hrun
    subst he2
    subst st2
    obtain ⟨hiff, hrec⟩ := MirrorsBy_dir_elim fileMatchS scs dcs hmir
    obtain ⟨cur', hsrc1, hdst1, hwf1, hlook1, hshape1, hdirkeep, hP,
        hnmd, hnmf, hnrm, hwrs⟩ :=
      syncLevel_second st s d s.uri.path d.uri.path scs dcs trL psL st1
        hsuri hduri hscs hdcs hwfs hwfd hmir hsl
    have hwfscs : Wf (Node.dir scs) := Wf_lookupPath st.src s.uri.path _ hwfs hscs
    have hndscs : nodupKeys scs = true := ((Wf_dir_iff scs).mp hwfscs).1
    have hndscsN : (scs.map Prod.fst).Nodup := (nodupKeys_iff_nodup scs).mp hndscs
    have hmemP : ∀ pr ∈ psL, ∃ n ccs, (n, Node.dir ccs) ∈ scs ∧
        pr = (entryOf s.uri s.file_type n (.dir ccs), dirDestEntry d n) := by
      intro pr hpr
      rw [hP] at hpr
      obtain ⟨q, hq, hfq⟩ := List.mem_filterMap.mp hpr
      cases hc : q.2 with
      | file cc cm => rw [pushOf_file s d q cc cm hc] at hfq; cases hfq
      | dir ccs =>
        rw [pushOf_dir s d q ccs hc] at hfq
        injection hfq with hfq
        exact ⟨q.1, ccs, by rw [← hc, Prod.mk.eta]; exact hq, hfq.symm⟩
    have hdestdir : ∀ n ccs, (n, Node.dir ccs) ∈ scs →
        ∃ dds, lookupChild cur' n = some (.dir dds) ∧
          lookupChild dcs n = some (.dir dds) ∧
          MirrorsBy fileMatchS (.dir ccs) (.dir dds) := by
      intro n ccs hmem
      have hcn : lookupChild scs n = some (.dir ccs) :=
        mem_lookupChild scs n _ hndscs hmem
      have hds : (lookupChild dcs n).isSome = true :=
        (hiff n).mp (by rw [hcn]; rfl)
      obtain ⟨dc, hdc⟩ := Option.isSome_iff_exists.mp hds
      have hmc := hrec n (.dir ccs) dc hcn hdc
      obtain ⟨dds, hddseq⟩ := MirrorsBy_dirNode_elim fileMatchS ccs dc hmc
      subst hddseq
      refine ⟨dds, ?_, hdc, hmc⟩
      rw [hdirkeep n ccs hcn, hdc]
    have hinv1 : ∀ p2 ∈ psL.reverse ++ rest, StackInv st1 p2 := by
      intro p2 hp2
      rcases List.mem_append.mp hp2 with hl | hr
      · rw [List.mem_reverse] at hl
        obtain ⟨n, ccs, hmem, hpr⟩ := hmemP p2 hl
        subst hpr
        obtain ⟨dds, hdds, -, -⟩ := hdestdir n ccs hmem
        refine ⟨hs1, hd1, rfl, rfl, ⟨ccs, ?_⟩, ⟨dds, ?_⟩⟩
        · rw [hsrc1]
          show lookupPath st.src (s.uri.path ++ [n]) = some (Node.dir ccs)
          exact lookupPath_child st.src s.uri.path scs n _ hscs
            (mem_lookupChild scs n _ hndscs hmem)
        · show lookupPath st1.dst (d.uri.path ++ [n]) = some (Node.dir dds)
          exact lookupPath_child st1.dst d.uri.path cur' n _ hlook1 hdds
      · have hSI2 := hinv p2 (List.mem_cons_of_mem _ hr)
        unfold StackInv at hSI2 ⊢
        obtain ⟨a1, a2, a3, a4, ⟨sc2, hsc2⟩, ⟨dc2, hdc2⟩⟩ := hSI2
        have hinc := hpwhd p2 hr
        refine ⟨a1, a2, a3, a4, ⟨sc2, by rw [hsrc1]; exact hsc2⟩, ⟨dc2, ?_⟩⟩
        rw [hdst1, lookupPath_setPath_frame st.dst d.uri.path p2.2.uri.path _
          hinc.1 hinc.2]
        exact hdc2
    have hmirs1 : ∀ p2 ∈ psL.reverse ++ rest, ∃ pscs pdcs,
        lookupPath st1.src p2.1.uri.path = some (.dir pscs) ∧
        lookupPath st1.dst p2.2.uri.path = some (.dir pdcs) ∧
        MirrorsBy fileMatchS (.dir pscs) (.dir pdcs) := by
      intro p2 hp2
      rcases List.mem_append.mp hp2 with hl | hr
      · rw [List.mem_reverse] at hl
        obtain ⟨n, ccs, hmem, hpr⟩ := hmemP p2 hl
        subst hpr
        obtain ⟨dds, hdds, -, hmc⟩ := hdestdir n ccs hmem
        refine ⟨ccs, dds, ?_, ?_, hmc⟩
        · rw [hsrc1]
          show lookupPath st.src (s.uri.path ++ [n]) = some (Node.dir ccs)
          exact lookupPath_child st.src s.uri.path scs n _ hscs
            (mem_lookupChild scs n _ hndscs hmem)
        · show lookupPath st1.dst (d.uri.path ++ [n]) = some (Node.dir dds)
          exact lookupPath_child st1.dst d.uri.path cur' n _ hlook1 hdds
      · obtain ⟨pscs, pdcs, hps2, hpd2, hpm⟩ := hmirs p2 (List.mem_cons_of_mem _ hr)
        have hinc := hpwhd p2 hr
        refine ⟨pscs, pdcs, by rw [hsrc1]; exact hps2, ?_, hpm⟩
        rw [hdst1, lookupPath_setPath_frame st.dst d.uri.path p2.2.uri.path _
          hinc.1 hinc.2]
        exact hpd2
    have hpw1 : (psL.reverse ++ rest).Pairwise
        (fun p q => incomp p.2.uri.path q.2.uri.path) := by
      rw [List.pairwise_append]
      refine ⟨?_, hpwtl, ?_⟩
      · rw [List.pairwise_reverse, hP]
        refine pairwise_filterMap_of (fun a b => ¬ a.1 = b.1) _ (pushOf s d) scs ?_
          ((List.pairwise_map).mp hndscsN)
        intro a a' hne b hfb b' hfb'
        rw [pushOf_dest_path s d a' b' hfb', pushOf_dest_path s d a b hfb]
        exact incomp_siblings d.uri.path a'.1 a.1 (fun hx => hne hx.symm)
      · intro a ha b hb
        rw [List.mem_reverse] at ha
        obtain ⟨n, ccs, hmem, hpr⟩ := hmemP a ha
        have hap : a.2.uri.path = d.uri.path ++ [n] := by rw [hpr]; rfl
        rw [hap]
        exact incomp_child_left d.uri.path b.2.uri.path n (hpwhd b hb)
    have hwfs1 : Wf st1.src := by rw [hsrc1]; exact hwfs
    obtain ⟨ihsrc, ihshape, ihmd, ihmf, ihrm, ihwr⟩ :=
      ih st1 (psL.reverse ++ rest) tr2 done2 st' hwfs1 hwf1 hinv1 hmirs1 hpw1 hloop
    refine ⟨by rw [ihsrc, hsrc1], sameShape_trans _ _ _ hshape1 ihshape,
      ?_, ?_, ?_, ?_⟩
    · intro lq n2 hmem
      rw [← htr] at hmem
      rcases List.mem_append.mp hmem with hx | hx
      · exact hnmd lq n2 hx
      · exact ihmd lq n2 hx
    · intro lq n2 hmem
      rw [← htr] at hmem
      rcases List.mem_append.mp hmem with hx | hx
      · exact hnmf lq n2 hx
      · exact ihmf lq n2 hx
    · intro lq hmem
      rw [← htr] at hmem
      rcases List.mem_append.mp hmem with hx | hx
      · exact hnrm lq hx
      · exact ihrm lq hx
    · intro lq c hmem
      rw [← htr] at hmem
      rcases List.mem_append.mp hmem with hx | hx
      · exact hwrs lq c hx
      · rw [(hshape1 lq.path).2]
        exact ihwr lq c hx

/-- C3 (amended): idempotence up to re-stamping.  Running sync twice in
succession with no external changes in between produces, on the second
run, no createDirectory, createFile or remove operation; it may issue
writeFile operations, but every one of them writes exactly the content the
destination file already holds (the inverted freshness guard re-transfers
any file whose source is not strictly newer), so the kind and the content
of every path of the destination tree are unchanged by the second run, as
is the source store. -/
theorem c3_idempotence_amended (f1 f2 : Nat) (st : Store)
    (root_source root_dest : SAFEntry) (sp dp : List String)
    (scs dcs : List (String × Node))
    (tr1 : List Op) (done1 : List (SAFEntry × SAFEntry)) (st1 : Store)
    (tr2 : List Op) (done2 : List (SAFEntry × SAFEntry)) (st2 : Store)
    (hsuri : root_source.uri = ⟨.s, sp⟩) (hduri : root_dest.uri = ⟨.d, dp⟩)
    (hsft : root_source.file_type = .DIR) (hdft : root_dest.file_type = .DIR)
    (hsrc : lookupPath st.src sp = some (.dir scs))
    (hdst : lookupPath st.dst dp = some (.dir dcs))
    (hwfs : Wf st.src) (hwfd : Wf st.dst)
    (hrun1 : sync f1 st root_source root_dest = (tr1, done1, st1, none))
    (hrun2 : sync f2 st1 root_source root_dest = (tr2, done2, st2, none)) :
    (∀ lq n2, Op.mkdirOp lq n2 ∉ tr2) ∧
    (∀ lq n2, Op.mkfileOp lq n2 ∉ tr2) ∧
    (∀ lq, Op.rmOp lq ∉ tr2) ∧
    (∀ lq c, Op.writeOp lq c ∈ tr2 → contentsAt st1.dst lq.path = some c) ∧
    st2.src = st1.src ∧
    sameShape st1.dst st2.dst := by
  have hinv : ∀ p ∈ [(root_source, root_dest)], StackInv st p := by
    intro p hp
    rcases List.mem_singleton.mp hp with rfl
    refine ⟨by rw [hsuri], by rw [hduri], hsft, hdft, ⟨scs, ?_⟩, ⟨dcs, ?_⟩⟩
    · show lookupPath st.src root_source.uri.path = _
      rw [hsuri]
      exact hsrc
    · show lookupPath st.dst root_dest.uri.path = _
      rw [hduri]
      exact hdst
  obtain ⟨hsrc1, hwfd1, hC⟩ := syncLoop_completes f1 st [(root_source, root_dest)]
    tr1 done1 st1 hwfs hwfd hinv (List.pairwise_singleton _ _) hrun1
  obtain ⟨sT, m, hsT, hmir, hwfm, hC2⟩ :=
    Completes_cons_inv st.src root_source root_dest [] st.dst st1.dst hC
  have hdsteq : st1.dst = setPath st.dst root_dest.uri.path m :=
    Completes_nil_eq st.src _ st1.dst hC2
  rw [hsuri] at hsT
  have hsTeq : Node.dir scs = sT := Option.some.inj (hsrc.symm.trans hsT)
  obtain ⟨mds, hmds⟩ := MirrorsBy_dirNode_elim fileMatchS scs m
    (by rw [hsTeq]; exact hmir)
  have hlook1 : lookupPath st1.dst dp = some m := by
    rw [hdsteq, hduri]
    exact lookupPath_setPath_self st.dst dp _ _ hdst
  have hwfs1 : Wf st1.src := by rw [hsrc1]; exact hwfs
  have hinv1 : ∀ p ∈ [(root_source, root_dest)], StackInv st1 p := by
    intro p hp
    rcases List.mem_singleton.mp hp with rfl
    refine ⟨by rw [hsuri], by rw [hduri], hsft, hdft, ⟨scs, ?_⟩, ⟨mds, ?_⟩⟩
    · show lookupPath st1.src root_source.uri.path = _
      rw [hsuri, hsrc1]
      exact hsrc
    · show lookupPath st1.dst root_dest.uri.path = _
      rw [hduri, ← hmds]
      exact hlook1
  have hmirs1 : ∀ p ∈ [(root_source, root_dest)], ∃ pscs pdcs,
      lookupPath st1.src p.1.uri.path = some (.dir pscs) ∧
      lookupPath st1.dst p.2.uri.path = some (.dir pdcs) ∧
      MirrorsBy fileMatchS (.dir pscs) (.dir pdcs) := by
    intro p hp
    rcases List.mem_singleton.mp hp with rfl
    refine ⟨scs, mds, ?_, ?_, ?_⟩
    · show lookupPath st1.src root_source.uri.path = _
      rw [hsuri, hsrc1]
      exact hsrc
    · show lookupPath st1.dst root_dest.uri.path = _
      rw [hduri, ← hmds]
      exact hlook1
    · rw [← hsTeq, hmds] at hmir
      exact hmir
  obtain ⟨hsrc2, hshape, hmd, hmf, hrm2, hwr⟩ :=
    syncLoop_second f2 st1 [(root_source, root_dest)] tr2 done2 st2
      hwfs1 hwfd1 hinv1 hmirs1 (List.pairwise_singleton _ _) hrun2
  exact ⟨hmd, hmf, hrm2, hwr, hsrc2, hshape⟩

theorem c3_idempotence_amended_witness :
    (∀ lq n2, Op.mkdirOp lq n2 ∉
      (sync 5 (sync 5 exStore exRootS exRootD).2.2.1 exRootS exRootD).1) ∧
    (∀ lq n2, Op.mkfileOp lq n2 ∉
      (sync 5 (sync 5 exStore exRootS exRootD).2.2.1 exRootS exRootD).1) ∧
    (∀ lq, Op.rmOp lq ∉
      (sync 5 (sync 5 exStore exRootS exRootD).2.2.1 exRootS exRootD).1) ∧
    (∀ lq c, Op.writeOp lq c ∈
        (sync 5 (sync 5 exStore exRootS exRootD).2.2.1 exRootS exRootD).1 →
      contentsAt (sync 5 exStore exRootS exRootD).2.2.1.dst lq.path = some c) ∧
    (sync 5 (sync 5 exStore exRootS exRootD).2.2.1 exRootS exRootD).2.2.1.src =
      (sync 5 exStore exRootS exRootD).2.2.1.src ∧
    sameShape (sync 5 exStore exRootS exRootD).2.2.1.dst
      (sync 5 (sync 5 exStore exRootS exRootD).2.2.1 exRootS exRootD).2.2.1.dst :=
  c3_idempotence_amended 5 5 exStore exRootS exRootD [] []
    [("a", .dir []), ("f", .file [1] none)] []
    (sync 5 exStore exRootS exRootD).1
    (sync 5 exStore exRootS exRootD).2.1
    (sync 5 exStore exRootS exRootD).2.2.1
    (sync 5 (sync 5 exStore exRootS exRootD).2.2.1 exRootS exRootD).1
    (sync 5 (sync 5 exStore exRootS exRootD).2.2.1 exRootS exRootD).2.1
    (sync 5 (sync 5 exStore exRootS exRootD).2.2.1 exRootS exRootD).2.2.1
    rfl rfl rfl rfl rfl rfl ⟨2, rfl⟩ ⟨1, rfl⟩ rfl rfl
